import Mathlib

/-!
# gestionnaire_fichier : a block-and-inode storage engine inside one host file

Shallow embedding of `src/projet.c` / `src/projet.h`.

Modelling conventions.

* The global `super_file_data` is the record `SuperFileData`; the C arrays
  `inodes[NUM_INODES]` and `blocks[MAX_NUM_BLOCKS]` are lists (their declared
  length is the well-formedness condition `World.WF`).
* `file` structs live on a heap `World.heap`; a `file*` is `Option Nat`
  (`none` is `NULL`, `some a` the address `a`).  `malloc` returns the next
  unused address and never fails; `free` turns the cell into `none`.
  Dereferencing a pointer that is not live has no defined result (`none`).
* `inode.firstDataBlock` only ever receives `&super_file_data.blocks[j]` or
  `NULL`, so it is an optional pool index.  The `next` link of a block owns the
  chain of heap-allocated successors, represented by the list of those blocks
  (`[]` is `NULL`).  The `data` array of a block is never read or written by any
  function of the program and is not represented.
* The partition host file is `Host`: its bytes, the descriptor open on it, the
  offset of that descriptor, and a script of outcomes for the coming host calls
  (`open`, `write`, `read`, `close`, `remove`); with an exhausted script every
  call completes in full.
* `int` arithmetic that can leave the 32-bit range goes through `wrapInt`.
-/

namespace Projet

/-! ## Constants of `projet.h` -/

abbrev Byte := Fin 256

def BLOCK_SIZE : Int := 512
def MAX_NUM_BLOCKS : Nat := 100
def NUM_INODES : Int := 16
def BLOCK_FREE : Int := 0
def BLOCK_OCCUPIED : Int := 1

def SEEK_SET : Int := 0
def SEEK_CUR : Int := 1
def SEEK_END : Int := 2

def INT_MIN : Int := -2147483648
def INT_MAX : Int := 2147483647

/-- Two's-complement reduction of a mathematical integer to a 32-bit `int`. -/
def wrapInt (x : Int) : Int := (x + 2147483648) % 4294967296 - 2147483648

/-! ## Data model -/

/-- The `file` struct: name, size in bytes, current position. -/
structure file where
  name : String
  fileSize : Int
  currentPosition : Int
  deriving DecidableEq, Repr

/-- The `inode` struct: optional name, optional `file*`, optional pointer to the
first data block (an index into the pool). -/
structure inode where
  name : Option String
  file_pointer : Option Nat
  firstDataBlock : Option Nat
  deriving DecidableEq, Repr

/-- A heap-allocated `DataBlock` (obtained by `malloc` + `memset 0`). -/
structure HeapBlock where
  occ_block : Int
  deriving DecidableEq, Repr

/-- A `DataBlock` of the pool: occupancy flag and the owned chain behind `next`. -/
structure DataBlock where
  occ_block : Int
  next : List HeapBlock
  deriving DecidableEq, Repr

/-- The `SuperFileData` struct. -/
structure SuperFileData where
  num_inodes : Int
  taille_partition : Int
  inodes : List inode
  fileDescriptor : Int
  currentPosition : Int
  blocks : List DataBlock
  deriving DecidableEq, Repr

/-- Outcome the host gives to one call: complete, transfer only `k` bytes, or fail. -/
inductive HostOutcome where
  | full
  | short (k : Nat)
  | error
  deriving DecidableEq, Repr

/-- The partition host file and the descriptor open on it. -/
structure Host where
  content : List Byte
  openFd : Option Int
  cursor : Nat
  nextFd : Nat
  script : List HostOutcome
  deriving DecidableEq, Repr

/-- Whole program state: the global, the heap of `file` structs, the host. -/
structure World where
  super_file_data : SuperFileData
  heap : List (Option file)
  host : Host
  deriving DecidableEq, Repr

/-- The unoccupied inode (all three pointers `NULL`). -/
def inode.empty : inode := ⟨none, none, none⟩

/-- Zero-initialised global, as C gives it before `main` runs. -/
def SuperFileData.zero : SuperFileData :=
  { num_inodes := 0
    taille_partition := 0
    inodes := List.replicate 16 inode.empty
    fileDescriptor := 0
    currentPosition := 0
    blocks := List.replicate MAX_NUM_BLOCKS ⟨0, []⟩ }

/-- Program start: zeroed global, empty heap, no descriptor open on the
partition file, whose bytes are `content`. -/
def World.boot (content : List Byte) (script : List HostOutcome) : World :=
  { super_file_data := SuperFileData.zero
    heap := []
    host := { content := content, openFd := none, cursor := 0, nextFd := 3, script := script } }

/-- The arrays have their declared sizes. -/
def World.WF (w : World) : Prop :=
  w.super_file_data.inodes.length = 16 ∧ w.super_file_data.blocks.length = MAX_NUM_BLOCKS

instance (w : World) : Decidable w.WF := by
  unfold World.WF; exact inferInstance

/-- Dereference a `file*`: the struct stored at a live address. -/
def World.deref (w : World) (a : Nat) : Option file :=
  match w.heap[a]? with
  | some (some fs) => some fs
  | _ => none

/-- Store a struct through a `file*`. -/
def World.store (w : World) (a : Nat) (fs : file) : World :=
  { w with heap := w.heap.set a (some fs) }

/-! ## Host calls -/

/-- Next scripted outcome and the rest of the script. -/
def nextOutcome : List HostOutcome → HostOutcome × List HostOutcome
  | [] => (HostOutcome.full, [])
  | o :: rest => (o, rest)

/-- Bytes a non-failing call transfers when `c` bytes could be transferred. -/
def granted (o : HostOutcome) (c : Nat) : Nat :=
  match o with
  | HostOutcome.short k => if 0 < k ∧ k < c then k else c
  | _ => c

/-- Bytes of the file after `data` is stored at offset `off` (a gap past the end
is filled with zero bytes). -/
def writeAt (content : List Byte) (off : Nat) (data : List Byte) : List Byte :=
  content.take off ++ List.replicate (off - content.length) 0 ++ data
    ++ content.drop (off + data.length)

/-- Host `open(name, O_RDWR | O_CREAT, ...)`: a new descriptor at offset 0 on the
(possibly pre-existing, not truncated) file, or `-1`. -/
def hostOpen (h : Host) : Int × Host :=
  match nextOutcome h.script with
  | (HostOutcome.error, rest) => (-1, { h with script := rest })
  | (_, rest) =>
    ((h.nextFd : Int),
      { h with openFd := some (h.nextFd : Int), cursor := 0, nextFd := h.nextFd + 1,
               script := rest })

/-- Host `write(fd, buffer, count)`; `mem` is the memory at `buffer`. -/
def hostWrite (fd : Int) (mem : List Byte) (count : Nat) (h : Host) : Int × Host :=
  if h.openFd = some fd then
    match nextOutcome h.script with
    | (HostOutcome.error, rest) => (-1, { h with script := rest })
    | (o, rest) =>
      let k := granted o count
      ((k : Int),
        { h with content := writeAt h.content h.cursor (mem.take k), cursor := h.cursor + k,
                 script := rest })
  else (-1, h)

/-- Host `read(fd, buffer, count)`: result, bytes delivered, new host state. -/
def hostRead (fd : Int) (count : Nat) (h : Host) : Int × List Byte × Host :=
  if h.openFd = some fd then
    match nextOutcome h.script with
    | (HostOutcome.error, rest) => (-1, [], { h with script := rest })
    | (o, rest) =>
      let avail := (h.content.drop h.cursor).take count
      let data := avail.take (granted o avail.length)
      ((data.length : Int), data, { h with cursor := h.cursor + data.length, script := rest })
  else (-1, [], h)

/-- Host `lseek(fd, pos, SEEK_SET)`. -/
def hostLseek (fd : Int) (pos : Int) (h : Host) : Int × Host :=
  if h.openFd = some fd ∧ 0 ≤ pos then (pos, { h with cursor := pos.toNat })
  else (-1, h)

/-- Host `close(fd)`. -/
def hostClose (fd : Int) (h : Host) : Int × Host :=
  if h.openFd = some fd then
    match nextOutcome h.script with
    | (HostOutcome.error, rest) => (-1, { h with script := rest })
    | (_, rest) => (0, { h with openFd := none, script := rest })
  else (-1, h)

/-- Host `remove(name)` of the partition file. -/
def hostRemove (h : Host) : Int × Host :=
  match nextOutcome h.script with
  | (HostOutcome.error, rest) => (-1, { h with script := rest })
  | (_, rest) => (0, { h with content := [], script := rest })

/-! ## Scans over the tables -/

/-- Index of the first element satisfying `p` (a `for` loop with `break`). -/
def firstIndex {α : Type} (p : α → Bool) : List α → Option Nat
  | [] => none
  | x :: xs => if p x then some 0 else (firstIndex p xs).map (· + 1)

/-- The inodes a loop `for (i = 0; i < num_inodes; ++i)` visits. -/
def SuperFileData.scanned (s : SuperFileData) : List inode :=
  s.inodes.take s.num_inodes.toNat

/-- Condition `inodes[i].name != NULL && strcmp(inodes[i].name, fileName) == 0`. -/
def inode.holds (fileName : String) (ino : inode) : Bool :=
  ino.name == some fileName

/-- First loop of `myOpen`: the handle of the first scanned inode that holds
`fileName` and has a non-`NULL` `file_pointer`. -/
def lookupHandle (fileName : String) : List inode → Option Nat
  | [] => none
  | ino :: rest =>
    if ino.holds fileName && ino.file_pointer.isSome then ino.file_pointer
    else lookupHandle fileName rest

/-! ## Operations -/

/-- Result of `myOpen`: a handle, or `NULL` after one of the two diagnostics
("Aucun bloc de données disponible", "Aucun inode disponible"). -/
inductive OpenResult where
  | handle (f : Nat)
  | noFreeBlock
  | noFreeInode
  deriving DecidableEq, Repr

/-- The `file*` a caller of `myOpen` receives. -/
def OpenResult.ptr : OpenResult → Option Nat
  | OpenResult.handle f => some f
  | _ => none

/-- Embedding of `myFormat` (projet.c:14). -/
def myFormat (_partitionName : String) (w : World) : Int × World :=
  match hostOpen w.host with
  | (partition_fd, host1) =>
    if partition_fd = -1 then (-1, { w with host := host1 })
    else
      (0, { w with
              host := host1
              super_file_data :=
                { w.super_file_data with
                    num_inodes := NUM_INODES
                    taille_partition := 32768
                    fileDescriptor := partition_fd
                    blocks := w.super_file_data.blocks.map
                      (fun b => { b with occ_block := BLOCK_FREE }) } })

/-- Embedding of `myOpen` (projet.c:42). -/
def myOpen (fileName : String) (w : World) : OpenResult × World :=
  let s := w.super_file_data
  match lookupHandle fileName s.scanned with
  | some f => (OpenResult.handle f, w)
  | none =>
    match firstIndex (fun ino => ino.name.isNone) s.scanned with
    | none => (OpenResult.noFreeInode, w)
    | some i =>
      match firstIndex (fun b => b.occ_block == BLOCK_FREE) s.blocks with
      | none => (OpenResult.noFreeBlock, w)
      | some j =>
        let newFile : file := { name := fileName, fileSize := 0, currentPosition := 0 }
        let a := w.heap.length
        (OpenResult.handle a,
          { w with
              heap := w.heap ++ [some newFile]
              super_file_data :=
                { s with
                    inodes := s.inodes.set i
                      { name := some fileName, file_pointer := some a, firstDataBlock := some j }
                    blocks := s.blocks.set j { occ_block := BLOCK_OCCUPIED, next := [] } } })

/-- End of `myWrite` (projet.c:164-169): size update and return value. -/
def myWriteEnd (f : Nat) (bytes_written : Int) (w : World) : Option (Int × World) :=
  match w.deref f with
  | none => none
  | some fs =>
    if fs.currentPosition > fs.fileSize then
      some (bytes_written, w.store f { fs with fileSize := fs.currentPosition })
    else some (bytes_written, w)

/-- The `while (nBytes > 0)` loop of `myWrite` (projet.c:121-162).  `fuel` bounds
the iterations; every iteration that continues transfers at least one byte, so
`nBytes` iterations are enough.  The outer `current_block` is still `NULL` after
the inode lookup (the lookup assigns a shadowing local), so entering the
inner `while (position_in_block >= BLOCK_SIZE)` dereferences `NULL`. -/
def myWriteLoop (f : Nat) : Nat → List Byte → Int → Int → World → Option (Int × World)
  | 0, _, nBytes, bytes_written, w =>
    if nBytes > 0 then none else myWriteEnd f bytes_written w
  | fuel + 1, buffer, nBytes, bytes_written, w =>
    if nBytes > 0 then
      match w.deref f with
      | none => none
      | some fs =>
        let position_in_block := Int.tmod fs.currentPosition BLOCK_SIZE
        if position_in_block ≥ BLOCK_SIZE then none
        else
          let bytes_to_write :=
            if BLOCK_SIZE - position_in_block > nBytes then nBytes
            else BLOCK_SIZE - position_in_block
          match hostWrite w.super_file_data.fileDescriptor buffer bytes_to_write.toNat w.host with
          | (bytes_written_this_time, host1) =>
            if bytes_written_this_time < 0 then
              some (bytes_written_this_time, { w with host := host1 })
            else
              let w1 : World := { w with host := host1 }
              myWriteLoop f fuel (buffer.drop bytes_written_this_time.toNat)
                (nBytes - bytes_written_this_time) (bytes_written + bytes_written_this_time)
                (w1.store f
                  { fs with
                      currentPosition := wrapInt (fs.currentPosition + bytes_written_this_time) })
    else myWriteEnd f bytes_written w

/-- Embedding of `myWrite` (projet.c:113).  `buffer` is the memory at the
caller's pointer (`none` for `NULL`). -/
def myWrite (f : Option Nat) (buffer : Option (List Byte)) (nBytes : Int) (w : World) :
    Option (Int × World) :=
  match f, buffer with
  | some fa, some buf =>
    if nBytes ≤ 0 then some (-1, w) else myWriteLoop fa nBytes.toNat buf nBytes 0 w
  | _, _ => some (-1, w)

/-- Embedding of `mySeek` (projet.c:179). -/
def mySeek (f : Option Nat) (offset : Int) (base : Int) (w : World) : Option World :=
  match f with
  | none => some w
  | some fa =>
    if base = SEEK_SET ∨ base = SEEK_CUR ∨ base = SEEK_END then
      match w.deref fa with
      | none => none
      | some fs =>
        let newPosition :=
          if base = SEEK_SET then offset
          else if base = SEEK_CUR then wrapInt (fs.currentPosition + offset)
          else wrapInt (fs.fileSize + offset)
        if newPosition < 0 ∨ newPosition > fs.fileSize then some w
        else
          some { w with host := (hostLseek w.super_file_data.fileDescriptor newPosition w.host).2 }
    else some w

/-- Second loop of `myRead` (projet.c:234): the first scanned inode holding the name. -/
def lookupInode (fileName : String) : List inode → Option inode
  | [] => none
  | ino :: rest => if ino.holds fileName then some ino else lookupInode fileName rest

/-- The chain walk of `myRead` (projet.c:251-265): one iteration per block of the
chain (`chain` blocks are left), result, bytes stored so far, host. -/
def myReadLoop (fd : Int) : Nat → Int → Int → List Byte → Host → Int × List Byte × Host
  | 0, _, bytes_read, out, h => (bytes_read, out, h)
  | chain + 1, nBytes, bytes_read, out, h =>
    if nBytes > 0 then
      let bytes_to_read := if nBytes > BLOCK_SIZE then BLOCK_SIZE else nBytes
      match hostRead fd bytes_to_read.toNat h with
      | (bytes_read_current, data, h1) =>
        if bytes_read_current = -1 then (-1, out, h1)
        else
          myReadLoop fd chain (nBytes - bytes_read_current) (bytes_read + bytes_read_current)
            (out ++ data) h1
    else (bytes_read, out, h)

/-- Embedding of `myRead` (projet.c:225).  `buffer` is the caller's buffer
before the call; the second component of the result is the buffer after it.
The lookup reads `f->name` only when it meets a scanned inode whose name is set. -/
def myRead (f : Option Nat) (buffer : Option (List Byte)) (nBytes : Int) (w : World) :
    Option (Int × List Byte × World) :=
  match f, buffer with
  | some fa, some buf =>
    if nBytes ≤ 0 then some (-1, buf, w)
    else
      match w.deref fa with
      | none =>
        if w.super_file_data.scanned.all (fun ino => ino.name.isNone) then some (-1, buf, w)
        else none
      | some fs =>
        match lookupInode fs.name w.super_file_data.scanned with
        | none => some (-1, buf, w)
        | some inode_of_file =>
          match inode_of_file.firstDataBlock with
          | none => some (-1, buf, w)
          | some j =>
            match mySeek f 0 SEEK_SET w, w.super_file_data.blocks[j]? with
            | some w1, some blk =>
              match myReadLoop w1.super_file_data.fileDescriptor (1 + blk.next.length)
                  nBytes 0 [] w1.host with
              | (r, out, h1) => some (r, out ++ buf.drop out.length, { w1 with host := h1 })
            | _, _ => none
  | _, some buf => some (-1, buf, w)
  | _, none => some (-1, [], w)

/-- Embedding of `listFiles` (projet.c:291): the `strdup`ed names of the scanned
inodes whose name is set, then the terminating `NULL`. -/
def listFiles (w : World) : List (Option String) :=
  (w.super_file_data.scanned.filterMap (fun ino => ino.name)).map some ++ [none]

/-- Embedding of `numFiles` (projet.c:332): entries before the first `NULL`. -/
def numFiles : List (Option String) → Nat
  | some _ :: rest => numFiles rest + 1
  | _ => 0

/-- Embedding of `deleteFileFromPartition` (projet.c:349).  The walk over the
chain (lines 354-367) only fills and frees temporary copies of the blocks, so it
leaves the state as it is. -/
def deleteFileFromPartition (fileName : String) (w : World) : Int × World :=
  let s := w.super_file_data
  match firstIndex (inode.holds fileName) s.scanned with
  | none => (-1, w)
  | some i =>
    let heap1 :=
      match (s.inodes.getD i inode.empty).file_pointer with
      | some a => w.heap.set a none
      | none => w.heap
    (0, { w with
            heap := heap1
            super_file_data := { s with inodes := s.inodes.set i inode.empty } })

/-- Embedding of `deletePartition` (projet.c:437).  The `free` calls release the
names, the `file` structs of the occupied scanned inodes and the heap chains,
without resetting the pointers to them. -/
def deletePartition (_partitionName : String) (w : World) : World :=
  match hostClose w.super_file_data.fileDescriptor w.host with
  | (r, host1) =>
    if r = -1 then { w with host := host1 }
    else
      let heap1 := w.super_file_data.scanned.foldl
        (fun hp ino =>
          match ino.name, ino.file_pointer with
          | some _, some a => hp.set a none
          | _, _ => hp) w.heap
      { super_file_data :=
          { w.super_file_data with num_inodes := 0, taille_partition := 0, fileDescriptor := -1 }
        heap := heap1
        host := (hostRemove host1).2 }

/-! ## Sequences of operations -/

/-- One call into the engine. -/
inductive Op where
  | format (partitionName : String)
  | openFile (fileName : String)
  | write (f : Option Nat) (buffer : Option (List Byte)) (nBytes : Int)
  | seek (f : Option Nat) (offset : Int) (base : Int)
  | read (f : Option Nat) (buffer : Option (List Byte)) (nBytes : Int)
  | delete (fileName : String)
  deriving DecidableEq, Repr

/-- State after one call (`none` when the call has no defined result). -/
def step (w : World) : Op → Option World
  | Op.format p => some (myFormat p w).2
  | Op.openFile n => some (myOpen n w).2
  | Op.write f b n => (myWrite f b n w).map (fun r => r.2)
  | Op.seek f o b => mySeek f o b w
  | Op.read f b n => (myRead f b n w).map (fun r => r.2.2)
  | Op.delete n => some (deleteFileFromPartition n w).2

/-- State after a sequence of calls. -/
def run : List Op → World → Option World
  | [], w => some w
  | op :: ops, w =>
    match step w op with
    | none => none
    | some w1 => run ops w1

/-! ## Auxiliary definitions for the statements -/

/-- Successive `myOpen` calls, one per name: the results and the final state. -/
def openAll : List String → World → List OpenResult × World
  | [], w => ([], w)
  | n :: ns, w =>
    match myOpen n w with
    | (r, w1) =>
      match openAll ns w1 with
      | (rs, w2) => (r :: rs, w2)

/-- Every scripted host call completes in full. -/
def AllFull (script : List HostOutcome) : Prop := ∀ o ∈ script, o = HostOutcome.full

instance (script : List HostOutcome) : Decidable (AllFull script) := by
  unfold AllFull; exact inferInstance

/-- Bytes a `myWrite` starting at position `p` has transferred once `m` host
writes have completed in full without finishing the request: nothing for
`m = 0`, otherwise everything up to the `m`-th block boundary after `p`. -/
def persistedBefore (p : Int) (m : Nat) : Int :=
  if m = 0 then 0 else (p / BLOCK_SIZE + m) * BLOCK_SIZE - p

/-- States the program can be in: those some sequence of calls produces from
program start. -/
def Reachable (w : World) : Prop :=
  ∃ content script ops, run ops (World.boot content script) = some w

/-- Inode-table facts kept by every call: declared array sizes, `num_inodes` is 0
or `NUM_INODES`, a named inode has a `file_pointer`, and names are pairwise
distinct. -/
def TableInv (w : World) : Prop :=
  w.WF ∧
  (w.super_file_data.num_inodes = 0 ∨ w.super_file_data.num_inodes = NUM_INODES) ∧
  (∀ ino ∈ w.super_file_data.inodes, ino.name.isSome = true → ino.file_pointer.isSome = true) ∧
  (w.super_file_data.inodes.filterMap (fun ino => ino.name)).Nodup

/-- A formatted, empty store on a fresh partition file. -/
def formatted : World := (myFormat "ma_partition" (World.boot [] [])).2

/-- State with one freshly created file `a.txt` (handle 0). -/
def oneFile : World := (myOpen "a.txt" formatted).2

/-- State with two files, `a.txt` (handle 0) and `b.txt` (handle 1). -/
def twoFiles : World := (myOpen "b.txt" oneFile).2

/-- The round trip through the pointer `f`: write `n` bytes of `data`, seek to
the start, read `n` bytes into a zeroed buffer; gives bytes written, bytes read
and the buffer after the read. -/
def roundTrip (f : Option Nat) (data : List Byte) (n : Int) (w : World) :
    Option (Int × Int × List Byte) :=
  match myWrite f (some data) n w with
  | none => none
  | some (written, w1) =>
    match mySeek f 0 SEEK_SET w1 with
    | none => none
    | some w2 =>
      match myRead f (some (List.replicate n.toNat 0)) n w2 with
      | none => none
      | some (r, out, _) => some (written, r, out)

/-- Two files on the fresh store: open `a.txt`, write `x` to it, open `b.txt`,
write `y` to it, then read `a.txt` and `b.txt` back with `myRead`; gives the two
buffers read. -/
def crossTalk (x y : List Byte) : Option (List Byte × List Byte) :=
  match myOpen "a.txt" formatted with
  | (a, w0) =>
    match myWrite a.ptr (some x) x.length w0 with
    | none => none
    | some (_, w1) =>
      match myOpen "b.txt" w1 with
      | (b, w2) =>
        match myWrite b.ptr (some y) y.length w2 with
        | none => none
        | some (_, w3) =>
          match myRead a.ptr (some (List.replicate x.length 0)) x.length w3 with
          | none => none
          | some (_, outA, w4) =>
            match myRead b.ptr (some (List.replicate y.length 0)) y.length w4 with
            | none => none
            | some (_, outB, _) => some (outA, outB)

/-- Create and delete the file `t` `k` times in a row. -/
def churn : Nat → World → World
  | 0, w => w
  | k + 1, w => churn k (deleteFileFromPartition "t" (myOpen "t" w).2).2

/-- A store with one file whose host fails the second `write` (the first
scripted outcome is consumed by the `open` of `myFormat`). -/
def failingHost : World :=
  (myOpen "a.txt"
    (myFormat "ma_partition"
      (World.boot [] [HostOutcome.full, HostOutcome.full, HostOutcome.error])).2).2

/-- A formatted store with free inodes whose pool has no free block left. -/
def poolExhausted : World := churn MAX_NUM_BLOCKS formatted

/-- Bookkeeping for a run of creations: every name held by a scanned inode is
among `opened`, exactly `a` scanned inodes are free, and at least `a` blocks
are free. -/
def Budget (w : World) (opened : List String) (a : Nat) : Prop :=
  (∀ ino ∈ w.super_file_data.scanned, ∀ nm, ino.name = some nm → nm ∈ opened) ∧
  w.super_file_data.scanned.countP (fun ino => ino.name.isNone) = a ∧
  a ≤ w.super_file_data.blocks.countP (fun b => b.occ_block == BLOCK_FREE)

/-- A sequence of calls that writes to `a.txt`, creates, fills and deletes a
second file, seeks, reads and formats again, without deleting `a.txt`. -/
def reopenOps : List Op :=
  [Op.write (some 0) (some [104, 101, 108, 108, 111]) 5,
   Op.openFile "b.txt",
   Op.write (some 1) (some [1, 2, 3]) 3,
   Op.delete "b.txt",
   Op.seek (some 0) 2 SEEK_SET,
   Op.read (some 0) (some [0, 0]) 2,
   Op.format "ma_partition"]

/-- State reached by `reopenOps` after the first open of `a.txt`. -/
def reopenFinal : World := (run reopenOps (myOpen "a.txt" formatted).2).getD formatted

/-- Sixteen distinct names. -/
def sixteenNames : List String :=
  ["f0", "f1", "f2", "f3", "f4", "f5", "f6", "f7", "f8", "f9", "f10", "f11", "f12", "f13",
   "f14", "f15"]

/-- The target position a seek names: `offset` from the start, from the current
position or from the size, by `base`; no target for any other `base`. -/
def seekTarget (fs : file) (offset : Int) (base : Int) : Option Int :=
  if base = SEEK_SET then some offset
  else if base = SEEK_CUR then some (fs.currentPosition + offset)
  else if base = SEEK_END then some (fs.fileSize + offset)
  else none

/-- The bytes of "hello". -/
def hello : List Byte := [104, 101, 108, 108, 111]

/-- State after writing "hello" to the fresh file `a.txt`. -/
def helloWritten : World :=
  ((myWrite (some 0) (some hello) 5 oneFile).map (fun r => r.2)).getD oneFile

/-- A formatted store whose next host call (the `close`) fails. -/
def closeFails : World :=
  (myFormat "ma_partition" (World.boot [] [HostOutcome.full, HostOutcome.error])).2

/-- A store whose pool has no free block left and that holds the one-block file
`a.txt` (handle 99), reached by 99 create-delete rounds followed by one create. -/
def fullPoolFile : World := (myOpen "a.txt" (churn 99 formatted)).2

/-- A formatted, empty store together with a caller-made `file` struct at
address 0 whose name no inode holds. -/
def ghostHandle : World :=
  { formatted with
      heap := [some { name := "ghost.txt", fileSize := 0, currentPosition := 0 }] }

/-- The state `oneFile` with the chain head of `a.txt` set to `NULL`. -/
def headless : World :=
  { oneFile with
      super_file_data :=
        { oneFile.super_file_data with
            inodes := oneFile.super_file_data.inodes.set 0
              { name := some "a.txt", file_pointer := some 0, firstDataBlock := none } } }

/-- Name stored in the inode slot `i` (`none` when the slot is unoccupied). -/
def nameAt (s : SuperFileData) (i : Nat) : Option String :=
  (s.inodes[i]?).bind (fun ino => ino.name)

/-- Indices of the occupied inodes among the first `num_inodes` slots, in
increasing order. -/
def occupiedIndices (s : SuperFileData) : List Nat :=
  (List.range s.num_inodes.toNat).filter (fun i => (nameAt s i).isSome)

/-- The store right after a successful `myFormat` and the creation of `a.txt`,
on a partition file holding `content` and a host with `script` left. -/
def freshFile (content : List Byte) (script : List HostOutcome) : World :=
  { super_file_data := oneFile.super_file_data
    heap := oneFile.heap
    host := { content := content, openFd := some 3, cursor := 0, nextFd := 4, script := script } }

/-- Handle facts kept by every call: an occupied inode has a `file_pointer` to a
live `file` struct carrying the inode's name and a chain head, an unoccupied
inode has neither, and no two inodes share a `file_pointer`. -/
def HandleInv (w : World) : Prop :=
  (∀ ino ∈ w.super_file_data.inodes, ∀ nm, ino.name = some nm →
    ∃ a j fs, ino.file_pointer = some a ∧ ino.firstDataBlock = some j ∧
      w.deref a = some fs ∧ fs.name = nm) ∧
  (∀ ino ∈ w.super_file_data.inodes, ino.name = none →
    ino.file_pointer = none ∧ ino.firstDataBlock = none) ∧
  (w.super_file_data.inodes.filterMap (fun ino => ino.file_pointer)).Nodup

/-- Every live `file` struct of `w` is still live in `w1` under the same name. -/
def NamesKept (w w1 : World) : Prop :=
  ∀ a fs, w.deref a = some fs → ∃ fs1, w1.deref a = some fs1 ∧ fs1.name = fs.name

/-- Number of blocks in the chain of an inode: the head block of the pool and
the blocks linked behind it (0 without a chain head). -/
def chainLength (s : SuperFileData) (ino : inode) : Nat :=
  match ino.firstDataBlock with
  | none => 0
  | some j =>
    match s.blocks[j]? with
    | none => 0
    | some blk => 1 + blk.next.length

/-- State after writing 513 bytes of value 7 to the fresh file `a.txt`. -/
def longWritten : World :=
  ((myWrite (some 0) (some (List.replicate 513 7)) 513 oneFile).map (fun r => r.2)).getD oneFile

/-- State after the 513-byte write on `failingHost`, whose second host `write`
fails. -/
def afterFailedWrite : World :=
  ((myWrite (some 0) (some (List.replicate 513 7)) 513 failingHost).map
    (fun r => r.2)).getD failingHost

/-- Pool facts kept by every call: no block of the pool has a successor, and
every chain head is an index into the pool. -/
def PoolInv (w : World) : Prop :=
  (∀ blk ∈ w.super_file_data.blocks, blk.next = []) ∧
  (∀ ino ∈ w.super_file_data.inodes, ∀ j, ino.firstDataBlock = some j →
    j < w.super_file_data.blocks.length)

/-- Whether a call is `myFormat`. -/
def Op.isFormat : Op → Bool
  | Op.format _ => true
  | _ => false

/-- States of one lifecycle: those reached from one successful `myFormat` at
program start by calls other than `myFormat`. -/
def Lifecycle (w : World) : Prop :=
  ∃ p content script ops,
    (myFormat p (World.boot content script)).1 = 0 ∧
    (∀ op ∈ ops, op.isFormat = false) ∧
    run ops (myFormat p (World.boot content script)).2 = some w

/-- Chain facts kept within one lifecycle: every chain head is an OCCUPIED block
of the pool, and no two inodes have the same chain head. -/
def ChainInv (w : World) : Prop :=
  (∀ ino ∈ w.super_file_data.inodes, ∀ j, ino.firstDataBlock = some j →
    ∃ blk, w.super_file_data.blocks[j]? = some blk ∧ blk.occ_block = BLOCK_OCCUPIED) ∧
  (w.super_file_data.inodes.filterMap (fun ino => ino.firstDataBlock)).Nodup

/-- No scripted host call fails (short transfers are allowed). -/
def NoError (script : List HostOutcome) : Prop := ∀ o ∈ script, o ≠ HostOutcome.error

instance (script : List HostOutcome) : Decidable (NoError script) := by
  unfold NoError; exact inferInstance

/-- The engine's descriptor is the one open on the partition and no coming host
call fails. -/
def HostOK (w : World) : Prop :=
  w.host.openFd = some w.super_file_data.fileDescriptor ∧ NoError w.host.script

instance (w : World) : Decidable (HostOK w) := by
  unfold HostOK; exact inferInstance

/-- Whether a call is one of `myOpen`, `myWrite`, `mySeek`, `myRead`. -/
def Op.isAccess : Op → Bool
  | Op.openFile _ => true
  | Op.write _ _ _ => true
  | Op.seek _ _ _ => true
  | Op.read _ _ _ => true
  | _ => false

/-- Byte count a call asks to transfer through the handle `f`: the count of a
`myWrite` on `f` with a buffer and a positive count, nothing for any other call. -/
def Op.written (f : Nat) : Op → Int
  | Op.write (some g) (some _) n => if g = f ∧ 0 < n then n else 0
  | _ => 0

/-- Total of the byte counts of the valid `myWrite` calls made through the
handle `f` in a sequence of calls. -/
def bytesWritten (f : Nat) : List Op → Int
  | [] => 0
  | op :: ops => op.written f + bytesWritten f ops

/-- The handle `f` is live with position and size both `p`, on a host that
does not fail. -/
def Tracked (w : World) (f : Nat) (p : Int) : Prop :=
  HostOK w ∧ ∃ fs, w.deref f = some fs ∧ fs.currentPosition = p ∧ fs.fileSize = p

/-- Calls on a fresh handle: a 5-byte write, a seek back to offset 0, a 3-byte write. -/
def seekBack : List Op :=
  [Op.write (some 0) (some hello) 5, Op.seek (some 0) 0 SEEK_SET,
   Op.write (some 0) (some [1, 2, 3]) 3]

/-- State after `seekBack` on the store holding the one file `a.txt`. -/
def seekBackFinal : World := (run seekBack oneFile).getD oneFile

/-- State after formatting again the store that holds the one file `a.txt`. -/
def reformatted : World := (myFormat "ma_partition" oneFile).2

/-- State after creating `b.txt` on `reformatted`. -/
def sharedHead : World := (myOpen "b.txt" reformatted).2

/-! # Theorems -/

set_option maxRecDepth 100000

/-! ## Lemmas on the scans -/

theorem firstIndex_eq_none {α : Type} (p : α → Bool) (l : List α) :
    firstIndex p l = none ↔ ∀ x ∈ l, p x = false := by
  induction l with
  | nil => simp [firstIndex]
  | cons x xs ih =>
    by_cases hx : p x = true
    · simp [firstIndex, hx]
    · simp [firstIndex, hx, ih]

theorem firstIndex_split {α : Type} (p : α → Bool) (l : List α) (i : Nat)
    (h : firstIndex p l = some i) :
    ∃ l1 x l2, l = l1 ++ x :: l2 ∧ l1.length = i ∧ p x = true ∧ ∀ y ∈ l1, p y = false := by
  induction l generalizing i with
  | nil => simp [firstIndex] at h
  | cons a as ih =>
    by_cases ha : p a = true
    · simp [firstIndex, ha] at h
      exact ⟨[], a, as, by simp, by simpa using h, ha, by simp⟩
    · simp [firstIndex, ha] at h
      obtain ⟨k, hk, rfl⟩ := h
      obtain ⟨l1, x, l2, hl, hlen, hx, hall⟩ := ih k hk
      refine ⟨a :: l1, x, l2, by simp [hl], by simp [hlen], hx, ?_⟩
      intro y hy
      rcases List.mem_cons.mp hy with rfl | hy
      · simpa using ha
      · exact hall y hy

theorem firstIndex_append {α : Type} (p : α → Bool) (l1 : List α) (x : α) (l2 : List α)
    (hall : ∀ y ∈ l1, p y = false) (hx : p x = true) :
    firstIndex p (l1 ++ x :: l2) = some l1.length := by
  induction l1 with
  | nil => simp [firstIndex, hx]
  | cons a as ih =>
    have ha : p a = false := hall a (by simp)
    have := ih (fun y hy => hall y (by simp [hy]))
    simp [firstIndex, ha, this]

theorem firstIndex_isSome {α : Type} (p : α → Bool) (l : List α)
    (h : ∃ x ∈ l, p x = true) : ∃ i, firstIndex p l = some i := by
  cases hfi : firstIndex p l with
  | some i => exact ⟨i, rfl⟩
  | none =>
    obtain ⟨x, hx, hpx⟩ := h
    have := (firstIndex_eq_none p l).mp hfi x hx
    simp [this] at hpx

theorem lookupHandle_eq_none_of_not_held (fileName : String) (l : List inode)
    (h : ∀ ino ∈ l, ino.name ≠ some fileName) : lookupHandle fileName l = none := by
  induction l with
  | nil => simp [lookupHandle]
  | cons a as ih =>
    have ha : a.holds fileName = false := by
      simpa [inode.holds] using h a (by simp)
    simp [lookupHandle, ha, ih (fun ino hino => h ino (by simp [hino]))]

/-- C3. Creation by open: when no scanned inode holds `fileName`, some scanned
inode is free and some block is FREE, `myOpen fileName` returns a handle at a
fresh address holding size 0 and position 0, writes `fileName`, that handle and
the chain head `j` into the lowest-indexed free inode `i`, where `j` is the
lowest-indexed FREE block, now OCCUPIED with no successor; nothing else in the
inode table, the block pool or the rest of the state changes. -/
theorem myOpen_creates (fileName : String) (w : World)
    (hname : ∀ ino ∈ w.super_file_data.scanned, ino.name ≠ some fileName)
    (hino : ∃ ino ∈ w.super_file_data.scanned, ino.name = none)
    (hblk : ∃ b ∈ w.super_file_data.blocks, b.occ_block = BLOCK_FREE) :
    ∃ i j : Nat,
      (∃ ino, w.super_file_data.scanned[i]? = some ino ∧ ino.name = none) ∧
      (∀ k < i, ∀ ino, w.super_file_data.scanned[k]? = some ino → ino.name ≠ none) ∧
      (∃ b, w.super_file_data.blocks[j]? = some b ∧ b.occ_block = BLOCK_FREE) ∧
      (∀ k < j, ∀ b, w.super_file_data.blocks[k]? = some b → b.occ_block ≠ BLOCK_FREE) ∧
      w.deref w.heap.length = none ∧
      myOpen fileName w =
        (OpenResult.handle w.heap.length,
          { w with
              heap := w.heap ++ [some { name := fileName, fileSize := 0, currentPosition := 0 }]
              super_file_data :=
                { w.super_file_data with
                    inodes := w.super_file_data.inodes.set i
                      { name := some fileName, file_pointer := some w.heap.length,
                        firstDataBlock := some j }
                    blocks := w.super_file_data.blocks.set j
                      { occ_block := BLOCK_OCCUPIED, next := [] } } }) := by
  have hlook := lookupHandle_eq_none_of_not_held fileName _ hname
  obtain ⟨i, hi⟩ := firstIndex_isSome (fun ino : inode => ino.name.isNone)
    w.super_file_data.scanned (by
      obtain ⟨ino, hmem, hnone⟩ := hino
      exact ⟨ino, hmem, by simp [hnone]⟩)
  obtain ⟨j, hj⟩ := firstIndex_isSome (fun b : DataBlock => b.occ_block == BLOCK_FREE)
    w.super_file_data.blocks (by
      obtain ⟨b, hmem, hfree⟩ := hblk
      exact ⟨b, hmem, by simp [hfree]⟩)
  obtain ⟨l1, x, l2, hl, hlen, hx, hall⟩ := firstIndex_split _ _ _ hi
  obtain ⟨b1, y, b2, hb, hblen, hy, hball⟩ := firstIndex_split _ _ _ hj
  refine ⟨i, j, ⟨x, ?_, ?_⟩, ?_, ⟨y, ?_, ?_⟩, ?_, ?_, ?_⟩
  · rw [hl, ← hlen, List.getElem?_append_right (le_refl _)]; simp
  · simpa using hx
  · intro k hk ino hino'
    rw [hl, List.getElem?_append_left (by omega)] at hino'
    have hmem : ino ∈ l1 := List.getElem?_mem hino'
    have := hall ino hmem
    intro hnone
    simp [hnone] at this
  · rw [hb, ← hblen, List.getElem?_append_right (le_refl _)]; simp
  · simpa using hy
  · intro k hk b hb'
    rw [hb, List.getElem?_append_left (by omega)] at hb'
    have hmem : b ∈ b1 := List.getElem?_mem hb'
    have := hball b hmem
    intro hfree
    simp [hfree] at this
  · simp [World.deref]
  · simp [myOpen, hlook, hi, hj]

theorem myOpen_creates_witness :
    ∃ i j : Nat,
      (∃ ino, formatted.super_file_data.scanned[i]? = some ino ∧ ino.name = none) ∧
      (∀ k < i, ∀ ino, formatted.super_file_data.scanned[k]? = some ino → ino.name ≠ none) ∧
      (∃ b, formatted.super_file_data.blocks[j]? = some b ∧ b.occ_block = BLOCK_FREE) ∧
      (∀ k < j, ∀ b, formatted.super_file_data.blocks[k]? = some b → b.occ_block ≠ BLOCK_FREE) ∧
      formatted.deref formatted.heap.length = none ∧
      myOpen "a.txt" formatted =
        (OpenResult.handle formatted.heap.length,
          { formatted with
              heap := formatted.heap ++
                [some { name := "a.txt", fileSize := 0, currentPosition := 0 }]
              super_file_data :=
                { formatted.super_file_data with
                    inodes := formatted.super_file_data.inodes.set i
                      { name := some "a.txt", file_pointer := some formatted.heap.length,
                        firstDataBlock := some j }
                    blocks := formatted.super_file_data.blocks.set j
                      { occ_block := BLOCK_OCCUPIED, next := [] } } }) :=
  myOpen_creates "a.txt" formatted (by decide) (by decide) (by decide)

/-- C6. Block exhaustion on create is atomic: with no FREE block in the pool,
`fileName` held by no scanned inode and a free scanned inode, `myOpen` returns
`NULL` with the "no block available" diagnostic and the whole state is
unchanged. -/
theorem myOpen_noFreeBlock (fileName : String) (w : World)
    (hname : ∀ ino ∈ w.super_file_data.scanned, ino.name ≠ some fileName)
    (hino : ∃ ino ∈ w.super_file_data.scanned, ino.name = none)
    (hblk : ∀ b ∈ w.super_file_data.blocks, b.occ_block ≠ BLOCK_FREE) :
    myOpen fileName w = (OpenResult.noFreeBlock, w) := by
  have hlook := lookupHandle_eq_none_of_not_held fileName _ hname
  obtain ⟨i, hi⟩ := firstIndex_isSome (fun ino : inode => ino.name.isNone)
    w.super_file_data.scanned (by
      obtain ⟨ino, hmem, hnone⟩ := hino
      exact ⟨ino, hmem, by simp [hnone]⟩)
  have hj : firstIndex (fun b : DataBlock => b.occ_block == BLOCK_FREE)
      w.super_file_data.blocks = none :=
    (firstIndex_eq_none _ _).mpr (fun b hb => by simpa using hblk b hb)
  simp [myOpen, hlook, hi, hj]

/-! ## Frame lemmas: what each operation leaves alone -/

theorem lookupHandle_append (fileName : String) (l1 l2 : List inode) :
    lookupHandle fileName (l1 ++ l2) =
      match lookupHandle fileName l1 with
      | some f => some f
      | none => lookupHandle fileName l2 := by
  induction l1 with
  | nil => simp [lookupHandle]
  | cons a as ih =>
    simp only [List.cons_append, lookupHandle]
    split_ifs with ha
    · cases hfp : a.file_pointer with
      | none => simp [hfp] at ha
      | some f => rfl
    · exact ih

theorem lookupHandle_take (fileName : String) (l : List inode) (n f : Nat)
    (h : lookupHandle fileName (l.take n) = some f) : lookupHandle fileName l = some f := by
  have := lookupHandle_append fileName (l.take n) (l.drop n)
  rw [List.take_append_drop, h] at this
  exact this

theorem lookupHandle_replace (fileName : String) (l1 l2 : List inode) (x y : inode)
    (hx : x.name ≠ some fileName) (hy : y.name ≠ some fileName) :
    lookupHandle fileName (l1 ++ y :: l2) = lookupHandle fileName (l1 ++ x :: l2) := by
  have hx1 : x.holds fileName = false := by simpa [inode.holds] using hx
  have hy1 : y.holds fileName = false := by simpa [inode.holds] using hy
  rw [lookupHandle_append, lookupHandle_append]
  simp [lookupHandle, hx1, hy1]

theorem set_split {α : Type} (l1 l2 : List α) (x y : α) :
    (l1 ++ x :: l2).set l1.length y = l1 ++ y :: l2 := by
  induction l1 with
  | nil => simp
  | cons a as ih => simp [ih]

theorem myWriteEnd_frame (f : Nat) (bw : Int) (w : World) (r : Int) (w1 : World)
    (h : myWriteEnd f bw w = some (r, w1)) :
    w1.super_file_data = w.super_file_data := by
  unfold myWriteEnd at h
  cases hd : w.deref f with
  | none => simp [hd] at h
  | some fs =>
    simp only [hd] at h
    split at h
    · simp only [Option.some.injEq, Prod.mk.injEq] at h
      rw [← h.2]; rfl
    · simp only [Option.some.injEq, Prod.mk.injEq] at h
      rw [← h.2]

theorem myWriteLoop_frame (f : Nat) (fuel : Nat) :
    ∀ (buffer : List Byte) (nBytes bw : Int) (w : World) (r : Int) (w1 : World),
      myWriteLoop f fuel buffer nBytes bw w = some (r, w1) →
      w1.super_file_data = w.super_file_data := by
  induction fuel with
  | zero =>
    intro buffer nBytes bw w r w1 h
    simp only [myWriteLoop] at h
    split_ifs at h
    exact myWriteEnd_frame f bw w r w1 h
  | succ fuel ih =>
    intro buffer nBytes bw w r w1 h
    simp only [myWriteLoop] at h
    cases hd : w.deref f with
    | none => simp [hd, myWriteEnd] at h
    | some fs =>
      simp only [hd] at h
      split_ifs at h
      all_goals first
        | exact myWriteEnd_frame f bw w r w1 h
        | (simp only [Option.some.injEq, Prod.mk.injEq] at h
           rw [← h.2])
        | (rw [ih _ _ _ _ _ _ h]; rfl)

theorem myWrite_frame (f : Option Nat) (buffer : Option (List Byte)) (nBytes : Int)
    (w : World) (r : Int) (w1 : World) (h : myWrite f buffer nBytes w = some (r, w1)) :
    w1.super_file_data = w.super_file_data := by
  unfold myWrite at h
  split at h
  · split at h
    · simp only [Option.some.injEq, Prod.mk.injEq] at h
      rw [← h.2]
    · exact myWriteLoop_frame _ _ _ _ _ _ _ _ h
  · simp only [Option.some.injEq, Prod.mk.injEq] at h
    rw [← h.2]

theorem mySeek_frame (f : Option Nat) (offset base : Int) (w w1 : World)
    (h : mySeek f offset base w = some w1) :
    w1.super_file_data = w.super_file_data ∧ w1.heap = w.heap := by
  cases f with
  | none =>
    simp only [mySeek, Option.some.injEq] at h
    rw [← h]; exact ⟨rfl, rfl⟩
  | some fa =>
    simp only [mySeek] at h
    cases hd : w.deref fa with
    | none => simp only [hd] at h; split_ifs at h; simp only [Option.some.injEq] at h; rw [← h]; exact ⟨rfl, rfl⟩
    | some fs =>
      simp only [hd] at h
      split_ifs at h
      all_goals
        simp only [Option.some.injEq] at h
        rw [← h]; exact ⟨rfl, rfl⟩

theorem myRead_frame (f : Option Nat) (buffer : Option (List Byte)) (nBytes : Int)
    (w : World) (r : Int) (out : List Byte) (w1 : World)
    (h : myRead f buffer nBytes w = some (r, out, w1)) :
    w1.super_file_data = w.super_file_data ∧ w1.heap = w.heap := by
  unfold myRead at h
  split at h
  · split at h
    · simp only [Option.some.injEq, Prod.mk.injEq] at h
      rw [← h.2.2]; exact ⟨rfl, rfl⟩
    · split at h
      · split at h
        · simp only [Option.some.injEq, Prod.mk.injEq] at h
          rw [← h.2.2]; exact ⟨rfl, rfl⟩
        · simp at h
      · split at h
        · simp only [Option.some.injEq, Prod.mk.injEq] at h
          rw [← h.2.2]; exact ⟨rfl, rfl⟩
        · split at h
          · simp only [Option.some.injEq, Prod.mk.injEq] at h
            rw [← h.2.2]; exact ⟨rfl, rfl⟩
          · split at h
            · rename_i w2 blk hseek hblk
              have hs := mySeek_frame _ _ _ _ _ hseek
              simp only [Option.some.injEq, Prod.mk.injEq] at h
              rw [← h.2.2]
              exact ⟨hs.1, hs.2⟩
            · simp at h
  · simp only [Option.some.injEq, Prod.mk.injEq] at h
    rw [← h.2.2]; exact ⟨rfl, rfl⟩
  · simp only [Option.some.injEq, Prod.mk.injEq] at h
    rw [← h.2.2]; exact ⟨rfl, rfl⟩

/-! ## Well-formedness is preserved -/

theorem myFormat_WF (p : String) (w : World) (hwf : w.WF) : (myFormat p w).2.WF := by
  unfold myFormat
  split
  rename_i fd host1 _
  split_ifs
  · exact hwf
  · exact ⟨hwf.1, by simpa [World.WF] using hwf.2⟩

theorem myOpen_WF (n : String) (w : World) (hwf : w.WF) : (myOpen n w).2.WF := by
  unfold myOpen
  simp only
  split
  · exact hwf
  · split
    · exact hwf
    · split
      · exact hwf
      · exact ⟨by simpa [World.WF] using hwf.1, by simpa [World.WF] using hwf.2⟩

theorem deleteFileFromPartition_WF (n : String) (w : World) (hwf : w.WF) :
    (deleteFileFromPartition n w).2.WF := by
  unfold deleteFileFromPartition
  simp only
  split
  · exact hwf
  · exact ⟨by simpa [World.WF] using hwf.1, hwf.2⟩

theorem WF_of_frame (w w1 : World) (hwf : w.WF)
    (h : w1.super_file_data = w.super_file_data) : w1.WF := by
  unfold World.WF at *
  rw [h]; exact hwf

theorem step_frame (w w1 : World) (op : Op) (h : step w op = some w1)
    (hop : (∃ f b n, op = Op.write f b n) ∨ (∃ f o b, op = Op.seek f o b) ∨
      (∃ f b n, op = Op.read f b n)) :
    w1.super_file_data = w.super_file_data := by
  rcases hop with ⟨f, b, n, rfl⟩ | ⟨f, o, b, rfl⟩ | ⟨f, b, n, rfl⟩
  · simp only [step, Option.map_eq_some'] at h
    obtain ⟨⟨r, w2⟩, hw, rfl⟩ := h
    exact myWrite_frame _ _ _ _ _ _ hw
  · exact (mySeek_frame _ _ _ _ _ h).1
  · simp only [step, Option.map_eq_some'] at h
    obtain ⟨⟨r, out, w2⟩, hw, rfl⟩ := h
    exact (myRead_frame _ _ _ _ _ _ _ hw).1

theorem step_WF (w w1 : World) (op : Op) (hwf : w.WF) (h : step w op = some w1) : w1.WF := by
  cases op with
  | format p =>
    simp only [step, Option.some.injEq] at h
    rw [← h]; exact myFormat_WF p w hwf
  | openFile n =>
    simp only [step, Option.some.injEq] at h
    rw [← h]; exact myOpen_WF n w hwf
  | write f b n => exact WF_of_frame w w1 hwf (step_frame w w1 _ h (Or.inl ⟨f, b, n, rfl⟩))
  | seek f o b =>
    exact WF_of_frame w w1 hwf (step_frame w w1 _ h (Or.inr (Or.inl ⟨f, o, b, rfl⟩)))
  | read f b n =>
    exact WF_of_frame w w1 hwf (step_frame w w1 _ h (Or.inr (Or.inr ⟨f, b, n, rfl⟩)))
  | delete n =>
    simp only [step, Option.some.injEq] at h
    rw [← h]; exact deleteFileFromPartition_WF n w hwf

/-! ## Re-opening a file -/

theorem scanned_set (s : SuperFileData) (i : Nat) (x : inode) :
    ({ s with inodes := s.inodes.set i x } : SuperFileData).scanned = s.scanned.set i x := by
  simp [SuperFileData.scanned, List.set_take]

theorem lookupHandle_myOpen (fileName n : String) (w : World) (f : Nat)
    (h : lookupHandle fileName w.super_file_data.scanned = some f) :
    lookupHandle fileName (myOpen n w).2.super_file_data.scanned = some f := by
  unfold myOpen
  simp only
  cases hn : lookupHandle n w.super_file_data.scanned with
  | some g => simpa using h
  | none =>
    have hne : n ≠ fileName := by
      intro heq
      rw [heq, h] at hn
      exact absurd hn (by simp)
    simp only
    cases hi : firstIndex (fun ino : inode => ino.name.isNone) w.super_file_data.scanned with
    | none => simpa using h
    | some i =>
      simp only
      cases hj : firstIndex (fun b : DataBlock => b.occ_block == BLOCK_FREE)
          w.super_file_data.blocks with
      | none => simpa using h
      | some j =>
        simp only
        obtain ⟨l1, y, l2, hl, hlen, hy, _⟩ := firstIndex_split _ _ _ hi
        have hset : ({ w.super_file_data with
            inodes := w.super_file_data.inodes.set i
              { name := some n, file_pointer := some w.heap.length, firstDataBlock := some j }
            blocks := w.super_file_data.blocks.set j
              { occ_block := BLOCK_OCCUPIED, next := [] } } : SuperFileData).scanned
            = l1 ++ { name := some n, file_pointer := some w.heap.length,
                      firstDataBlock := some j } :: l2 := by
          have := scanned_set w.super_file_data i
            { name := some n, file_pointer := some w.heap.length, firstDataBlock := some j }
          simp only [SuperFileData.scanned] at this ⊢
          rw [this]
          simp only [SuperFileData.scanned] at hl
          rw [hl, ← hlen, set_split]
        rw [hset]
        rw [hl] at h
        rw [← h]
        apply lookupHandle_replace
        · intro hc
          rw [hc] at hy
          simp at hy
        · intro hc
          simp only [Option.some.injEq] at hc
          exact hne hc

theorem lookupHandle_delete (fileName n : String) (w : World) (f : Nat) (hne : n ≠ fileName)
    (h : lookupHandle fileName w.super_file_data.scanned = some f) :
    lookupHandle fileName (deleteFileFromPartition n w).2.super_file_data.scanned = some f := by
  unfold deleteFileFromPartition
  simp only
  cases hi : firstIndex (inode.holds n) w.super_file_data.scanned with
  | none => simpa using h
  | some i =>
    simp only
    obtain ⟨l1, y, l2, hl, hlen, hy, _⟩ := firstIndex_split _ _ _ hi
    rw [scanned_set, hl, ← hlen, set_split]
    rw [hl] at h
    rw [← h]
    apply lookupHandle_replace
    · intro hc
      simp only [inode.holds, hc, beq_iff_eq, Option.some.injEq] at hy
      exact hne hy.symm
    · simp [inode.empty]

theorem lookupHandle_myFormat (fileName p : String) (w : World) (f : Nat) (hwf : w.WF)
    (h : lookupHandle fileName w.super_file_data.scanned = some f) :
    lookupHandle fileName (myFormat p w).2.super_file_data.scanned = some f := by
  have hall := lookupHandle_take fileName _ _ _ h
  unfold myFormat
  split
  rename_i fd host1 _
  split_ifs
  · exact h
  · have : w.super_file_data.inodes.take NUM_INODES.toNat = w.super_file_data.inodes :=
      List.take_of_length_le (by rw [hwf.1]; decide)
    simpa [SuperFileData.scanned, this] using hall

theorem step_lookupHandle (fileName : String) (f : Nat) (w w1 : World) (op : Op)
    (hwf : w.WF) (h : lookupHandle fileName w.super_file_data.scanned = some f)
    (hop : op ≠ Op.delete fileName) (hstep : step w op = some w1) :
    lookupHandle fileName w1.super_file_data.scanned = some f := by
  cases op with
  | format p =>
    simp only [step, Option.some.injEq] at hstep
    rw [← hstep]; exact lookupHandle_myFormat fileName p w f hwf h
  | openFile n =>
    simp only [step, Option.some.injEq] at hstep
    rw [← hstep]; exact lookupHandle_myOpen fileName n w f h
  | write g b n => rw [step_frame w w1 _ hstep (Or.inl ⟨g, b, n, rfl⟩)]; exact h
  | seek g o b => rw [step_frame w w1 _ hstep (Or.inr (Or.inl ⟨g, o, b, rfl⟩))]; exact h
  | read g b n => rw [step_frame w w1 _ hstep (Or.inr (Or.inr ⟨g, b, n, rfl⟩))]; exact h
  | delete n =>
    simp only [step, Option.some.injEq] at hstep
    have hne : n ≠ fileName := fun heq => hop (by rw [heq])
    rw [← hstep]; exact lookupHandle_delete fileName n w f hne h

theorem run_lookupHandle (fileName : String) (f : Nat) (ops : List Op) :
    ∀ (w w2 : World), w.WF → lookupHandle fileName w.super_file_data.scanned = some f →
      Op.delete fileName ∉ ops → run ops w = some w2 →
      lookupHandle fileName w2.super_file_data.scanned = some f := by
  induction ops with
  | nil =>
    intro w w2 _ h _ hrun
    simp only [run, Option.some.injEq] at hrun
    rw [← hrun]; exact h
  | cons op ops ih =>
    intro w w2 hwf h hops hrun
    simp only [run] at hrun
    cases hs : step w op with
    | none => simp [hs] at hrun
    | some w1 =>
      simp only [hs] at hrun
      have hop : op ≠ Op.delete fileName := fun heq => hops (by simp [heq])
      exact ih w1 w2 (step_WF w w1 op hwf hs)
        (step_lookupHandle fileName f w w1 op hwf h hop hs)
        (fun hmem => hops (List.mem_cons_of_mem _ hmem)) hrun

theorem lookupHandle_after_myOpen (fileName : String) (w w1 : World) (f : Nat)
    (h : myOpen fileName w = (OpenResult.handle f, w1)) :
    lookupHandle fileName w1.super_file_data.scanned = some f := by
  unfold myOpen at h
  simp only at h
  cases hn : lookupHandle fileName w.super_file_data.scanned with
  | some g =>
    simp only [hn, Prod.mk.injEq, OpenResult.handle.injEq] at h
    rw [← h.2, hn, h.1]
  | none =>
    simp only [hn] at h
    cases hi : firstIndex (fun ino : inode => ino.name.isNone) w.super_file_data.scanned with
    | none => simp [hi] at h
    | some i =>
      simp only [hi] at h
      cases hj : firstIndex (fun b : DataBlock => b.occ_block == BLOCK_FREE)
          w.super_file_data.blocks with
      | none => simp [hj] at h
      | some j =>
        simp only [hj, Prod.mk.injEq, OpenResult.handle.injEq] at h
        obtain ⟨l1, y, l2, hl, hlen, _, _⟩ := firstIndex_split _ _ _ hi
        rw [← h.2]
        have hset := scanned_set w.super_file_data i
          { name := some fileName, file_pointer := some w.heap.length, firstDataBlock := some j }
        simp only [SuperFileData.scanned] at hset hl ⊢
        rw [hset, hl, ← hlen, set_split]
        simp only [SuperFileData.scanned] at hn
        rw [hl, lookupHandle_append] at hn
        rw [lookupHandle_append]
        cases h1 : lookupHandle fileName l1 with
        | some g => simp [h1] at hn
        | none => simp [lookupHandle, inode.holds, h.1]

/-- C4. Re-open returns the same handle: once `myOpen fileName` has returned the
handle `f`, after any sequence of engine calls that does not delete `fileName`
a further `myOpen fileName` returns `f` again and changes nothing at all (inode
table, block pool, and the size and position stored behind `f`). -/
theorem myOpen_reopen (fileName : String) (w0 w1 w2 : World) (f : Nat) (ops : List Op)
    (hwf : w0.WF) (hopen : myOpen fileName w0 = (OpenResult.handle f, w1))
    (hops : Op.delete fileName ∉ ops) (hrun : run ops w1 = some w2) :
    myOpen fileName w2 = (OpenResult.handle f, w2) := by
  have hwf1 : w1.WF := by
    have := myOpen_WF fileName w0 hwf
    rw [hopen] at this
    exact this
  have h2 := run_lookupHandle fileName f ops w1 w2 hwf1
    (lookupHandle_after_myOpen fileName w0 w1 f hopen) hops hrun
  simp [myOpen, h2]

theorem myOpen_reopen_witness :
    reopenFinal.deref 0 = some { name := "a.txt", fileSize := 5, currentPosition := 5 } ∧
    myOpen "a.txt" reopenFinal = (OpenResult.handle 0, reopenFinal) :=
  ⟨by decide,
   myOpen_reopen "a.txt" formatted (myOpen "a.txt" formatted).2 reopenFinal 0 reopenOps
    (by decide) (by decide) (by decide) (by decide)⟩

/-! ## Inode exhaustion -/

theorem myOpen_budget (nm : String) (w : World) (opened : List String) (a : Nat)
    (hb : Budget w opened a) (hnew : nm ∉ opened) (ha : 0 < a) :
    (∃ f, (myOpen nm w).1 = OpenResult.handle f) ∧
      Budget (myOpen nm w).2 (nm :: opened) (a - 1) := by
  obtain ⟨hheld, hfree, hblocks⟩ := hb
  have hname : ∀ ino ∈ w.super_file_data.scanned, ino.name ≠ some nm :=
    fun ino hino hc => hnew (hheld ino hino nm hc)
  have hlook := lookupHandle_eq_none_of_not_held nm _ hname
  have hino : ∃ ino ∈ w.super_file_data.scanned, (fun ino : inode => ino.name.isNone) ino = true :=
    List.countP_pos_iff.mp (by rw [hfree]; exact ha)
  have hblk : ∃ b ∈ w.super_file_data.blocks,
      (fun b : DataBlock => b.occ_block == BLOCK_FREE) b = true :=
    List.countP_pos_iff.mp (by omega)
  obtain ⟨i, hi⟩ := firstIndex_isSome _ _ hino
  obtain ⟨j, hj⟩ := firstIndex_isSome _ _ hblk
  obtain ⟨l1, y, l2, hl, hlen, hy, _⟩ := firstIndex_split _ _ _ hi
  obtain ⟨b1, z, b2, hbl, hblen, hz, _⟩ := firstIndex_split _ _ _ hj
  have hres : myOpen nm w =
      (OpenResult.handle w.heap.length,
        { w with
            heap := w.heap ++ [some { name := nm, fileSize := 0, currentPosition := 0 }]
            super_file_data :=
              { w.super_file_data with
                  inodes := w.super_file_data.inodes.set i
                    { name := some nm, file_pointer := some w.heap.length,
                      firstDataBlock := some j }
                  blocks := w.super_file_data.blocks.set j
                    { occ_block := BLOCK_OCCUPIED, next := [] } } }) := by
    simp [myOpen, hlook, hi, hj]
  have hsc : ({ w.super_file_data with
      inodes := w.super_file_data.inodes.set i
        { name := some nm, file_pointer := some w.heap.length, firstDataBlock := some j }
      blocks := w.super_file_data.blocks.set j
        { occ_block := BLOCK_OCCUPIED, next := [] } } : SuperFileData).scanned
      = l1 ++ { name := some nm, file_pointer := some w.heap.length,
                firstDataBlock := some j } :: l2 := by
    have hset := scanned_set w.super_file_data i
      { name := some nm, file_pointer := some w.heap.length, firstDataBlock := some j }
    simp only [SuperFileData.scanned] at hset hl ⊢
    rw [hset, hl, ← hlen, set_split]
  rw [hres]
  refine ⟨⟨_, rfl⟩, ?_, ?_, ?_⟩
  · intro ino hino' n hn
    simp only [] at hino'
    rw [hsc] at hino'
    simp only [List.mem_append, List.mem_cons] at hino'
    rcases hino' with h1 | rfl | h2
    · exact List.mem_cons_of_mem _ (hheld ino (by rw [hl]; simp [h1]) n hn)
    · simp only [Option.some.injEq] at hn
      rw [← hn]; simp
    · exact List.mem_cons_of_mem _ (hheld ino (by rw [hl]; simp [h2]) n hn)
  · simp only []
    rw [hsc]
    rw [hl] at hfree
    simp only [List.countP_append, List.countP_cons, hy, if_true] at hfree
    simp only [List.countP_append, List.countP_cons, Option.isNone_some, Bool.false_eq_true,
      if_false]
    omega
  · show a - 1 ≤ (w.super_file_data.blocks.set j _).countP _
    rw [hbl, ← hblen, set_split]
    rw [hbl] at hblocks
    simp only [List.countP_append, List.countP_cons, hz, if_true] at hblocks
    have hocc : (BLOCK_OCCUPIED == BLOCK_FREE) = false := by decide
    simp only [List.countP_append, List.countP_cons, hocc, Bool.false_eq_true, if_false]
    omega

theorem openAll_budget (names : List String) :
    ∀ (w : World) (opened : List String) (a : Nat), Budget w opened a → names.Nodup →
      (∀ n ∈ names, n ∉ opened) → names.length ≤ a →
      (∀ r ∈ (openAll names w).1, ∃ f, r = OpenResult.handle f) ∧
      (openAll names w).1.length = names.length ∧
      Budget (openAll names w).2 (names.reverse ++ opened) (a - names.length) := by
  induction names with
  | nil =>
    intro w opened a hb _ _ _
    simpa [openAll] using hb
  | cons n ns ih =>
    intro w opened a hb hnodup hnew hlen
    have hn : n ∉ opened := hnew n (by simp)
    have ha : 0 < a := by simp at hlen; omega
    obtain ⟨⟨f, hf⟩, hb1⟩ := myOpen_budget n w opened a hb hn ha
    have hnd := List.nodup_cons.mp hnodup
    obtain ⟨h1, h2, h3⟩ := ih (myOpen n w).2 (n :: opened) (a - 1) hb1 hnd.2
      (fun m hm hc => by
        rcases List.mem_cons.mp hc with rfl | hc
        · exact hnd.1 hm
        · exact hnew m (by simp [hm]) hc)
      (by simp at hlen; omega)
    refine ⟨?_, ?_, ?_⟩
    · intro r hr
      simp only [openAll, List.mem_cons] at hr
      rcases hr with rfl | hr
      · exact ⟨f, hf⟩
      · exact h1 r hr
    · simp [openAll, h2]
    · have : (openAll (n :: ns) w).2 = (openAll ns (myOpen n w).2).2 := by simp [openAll]
      rw [this]
      have e1 : (n :: ns).reverse ++ opened = ns.reverse ++ n :: opened := by simp
      have e2 : a - (n :: ns).length = a - 1 - ns.length := by simp; omega
      rw [e1, e2]
      exact h3

theorem myOpen_noFreeInode (extra : String) (w : World) (opened : List String)
    (hb : Budget w opened 0) (hextra : extra ∉ opened) :
    myOpen extra w = (OpenResult.noFreeInode, w) := by
  obtain ⟨hheld, hfree, _⟩ := hb
  have hname : ∀ ino ∈ w.super_file_data.scanned, ino.name ≠ some extra :=
    fun ino hino hc => hextra (hheld ino hino extra hc)
  have hlook := lookupHandle_eq_none_of_not_held extra _ hname
  have hi : firstIndex (fun ino : inode => ino.name.isNone) w.super_file_data.scanned = none :=
    (firstIndex_eq_none _ _).mpr (fun x hx => by
      have := List.countP_eq_zero.mp hfree x hx
      cases hx1 : x.name with
      | none => simp [hx1] at this
      | some _ => rfl)
  simp [myOpen, hlook, hi]

theorem myFormat_boot (p : String) (content : List Byte) (script : List HostOutcome)
    (h : (myFormat p (World.boot content script)).1 = 0) :
    (myFormat p (World.boot content script)).2.super_file_data =
      { SuperFileData.zero with
          num_inodes := NUM_INODES
          taille_partition := 32768
          fileDescriptor := 3
          blocks := List.replicate MAX_NUM_BLOCKS ⟨BLOCK_FREE, []⟩ } := by
  unfold myFormat at h ⊢
  cases script with
  | nil => simp [hostOpen, nextOutcome, World.boot, SuperFileData.zero]
  | cons o rest =>
    cases o with
    | error => simp [hostOpen, nextOutcome, World.boot] at h
    | full => simp [hostOpen, nextOutcome, World.boot, SuperFileData.zero]
    | short k => simp [hostOpen, nextOutcome, World.boot, SuperFileData.zero]

theorem budget_formatted (p : String) (content : List Byte) (script : List HostOutcome)
    (h : (myFormat p (World.boot content script)).1 = 0) :
    Budget (myFormat p (World.boot content script)).2 [] 16 := by
  unfold Budget
  rw [myFormat_boot p content script h]
  refine ⟨?_, ?_, ?_⟩
  · intro ino hino nm hnm
    have : ino = inode.empty := by
      simp only [SuperFileData.scanned, SuperFileData.zero] at hino
      exact List.eq_of_mem_replicate (List.mem_of_mem_take hino)
    rw [this] at hnm
    simp [inode.empty] at hnm
  · decide
  · decide


/-- C5. Inode exhaustion: on a store freshly formatted from program start,
`myOpen` returns a handle for each of 16 (`NUM_INODES`) pairwise distinct names,
and `myOpen` on any further name then fails with the "no inode available"
diagnostic and leaves the whole state (inode table and block pool included)
unchanged. -/
theorem inode_exhaustion (p : String) (content : List Byte) (script : List HostOutcome)
    (names : List String) (extra : String)
    (hformat : (myFormat p (World.boot content script)).1 = 0)
    (hnodup : names.Nodup) (hlen : names.length = NUM_INODES.toNat) (hextra : extra ∉ names) :
    (∀ r ∈ (openAll names (myFormat p (World.boot content script)).2).1,
        ∃ f, r = OpenResult.handle f) ∧
    (openAll names (myFormat p (World.boot content script)).2).1.length = 16 ∧
    myOpen extra (openAll names (myFormat p (World.boot content script)).2).2 =
      (OpenResult.noFreeInode, (openAll names (myFormat p (World.boot content script)).2).2) := by
  have hlen16 : names.length = 16 := by rw [hlen]; decide
  obtain ⟨h1, h2, h3⟩ := openAll_budget names _ [] 16
    (budget_formatted p content script hformat) hnodup (fun n _ => by simp) (by omega)
  refine ⟨h1, by rw [h2, hlen16], ?_⟩
  apply myOpen_noFreeInode extra _ (names.reverse ++ [])
  · rw [hlen16] at h3
    exact h3
  · simpa using hextra

theorem inode_exhaustion_witness :
    (∀ r ∈ (openAll sixteenNames (myFormat "ma_partition" (World.boot [] [])).2).1,
        ∃ f, r = OpenResult.handle f) ∧
    (openAll sixteenNames (myFormat "ma_partition" (World.boot [] [])).2).1.length = 16 ∧
    myOpen "f16" (openAll sixteenNames (myFormat "ma_partition" (World.boot [] [])).2).2 =
      (OpenResult.noFreeInode,
        (openAll sixteenNames (myFormat "ma_partition" (World.boot [] [])).2).2) :=
  inode_exhaustion "ma_partition" [] [] sixteenNames "f16" (by decide) (by decide) (by decide)
    (by decide)

/-! ## Deleting a file -/

theorem deleteFileFromPartition_blocks (fileName : String) (w : World) :
    (deleteFileFromPartition fileName w).2.super_file_data.blocks = w.super_file_data.blocks := by
  unfold deleteFileFromPartition
  simp only
  split <;> rfl

/-- C8. Delete outcome: `deleteFileFromPartition fileName` returns -1 and leaves
the state unchanged when no scanned inode holds `fileName`; otherwise it returns
0, the inode table changes only at the index `i` of an inode that held
`fileName`, which ends with no name, no handle and no chain head, and (names of
occupied inodes being pairwise distinct) `fileName` is no longer in `listFiles`. -/
theorem deleteFileFromPartition_outcome (fileName : String) (w : World) :
    ((∀ ino ∈ w.super_file_data.scanned, ino.name ≠ some fileName) →
        deleteFileFromPartition fileName w = (-1, w)) ∧
    ((∃ ino ∈ w.super_file_data.scanned, ino.name = some fileName) →
      ∃ (i : Nat) (ino : inode), (i : Int) < w.super_file_data.num_inodes ∧
        w.super_file_data.inodes[i]? = some ino ∧ ino.name = some fileName ∧
        (deleteFileFromPartition fileName w).1 = 0 ∧
        (deleteFileFromPartition fileName w).2.super_file_data =
          { w.super_file_data with inodes := w.super_file_data.inodes.set i inode.empty } ∧
        (deleteFileFromPartition fileName w).2.super_file_data.inodes[i]? = some inode.empty ∧
        ((w.super_file_data.scanned.filterMap (fun ino => ino.name)).Nodup →
          some fileName ∉ listFiles (deleteFileFromPartition fileName w).2)) := by
  constructor
  · intro hname
    have hi : firstIndex (inode.holds fileName) w.super_file_data.scanned = none :=
      (firstIndex_eq_none _ _).mpr (fun x hx => by
        simpa [inode.holds] using hname x hx)
    simp [deleteFileFromPartition, hi]
  · intro hheld
    obtain ⟨i, hi⟩ := firstIndex_isSome (inode.holds fileName) w.super_file_data.scanned (by
      obtain ⟨ino, hmem, hn⟩ := hheld
      exact ⟨ino, hmem, by simp [inode.holds, hn]⟩)
    obtain ⟨l1, y, l2, hl, hlen, hy, hall⟩ := firstIndex_split _ _ _ hi
    have hyname : y.name = some fileName := by simpa [inode.holds] using hy
    have hget : w.super_file_data.scanned[i]? = some y := by
      rw [hl, ← hlen, List.getElem?_append_right (le_refl _)]; simp
    have hget2 : i < w.super_file_data.num_inodes.toNat ∧ w.super_file_data.inodes[i]? = some y := by
      simp only [SuperFileData.scanned, List.getElem?_take] at hget
      split at hget
      · rename_i hlt; exact ⟨hlt, hget⟩
      · simp at hget
    have hilt : i < w.super_file_data.inodes.length := by
      have := List.getElem?_eq_some.mp hget2.2
      exact this.1
    refine ⟨i, y, by omega, hget2.2, hyname, ?_, ?_, ?_, ?_⟩
    · simp [deleteFileFromPartition, hi]
    · simp [deleteFileFromPartition, hi]
    · simp [deleteFileFromPartition, hi, hilt]
    · intro hnd
      have hsc : (deleteFileFromPartition fileName w).2.super_file_data.scanned
          = l1 ++ inode.empty :: l2 := by
        simp only [deleteFileFromPartition, hi]
        rw [scanned_set, hl, ← hlen, set_split]
      simp only [listFiles, hsc]
      rw [hl] at hnd
      simp only [List.filterMap_append, List.filterMap_cons, hyname] at hnd
      have hmid := (List.nodup_cons.mp (List.nodup_middle.mp hnd)).1
      simp only [List.filterMap_append, List.filterMap_cons, inode.empty, List.mem_append,
        List.mem_map, List.mem_singleton, Option.some.injEq, exists_eq_right, not_or]
      simp only [List.mem_append, not_or] at hmid
      exact ⟨⟨hmid.1, hmid.2⟩, by simp⟩

theorem deleteFileFromPartition_outcome_witness :
    deleteFileFromPartition "c.txt" twoFiles = (-1, twoFiles) ∧
    (deleteFileFromPartition "a.txt" twoFiles).1 = 0 ∧
    listFiles (deleteFileFromPartition "a.txt" twoFiles).2 = [some "b.txt", none] ∧
    ∃ (i : Nat) (ino : inode), (i : Int) < twoFiles.super_file_data.num_inodes ∧
        twoFiles.super_file_data.inodes[i]? = some ino ∧ ino.name = some "a.txt" ∧
        (deleteFileFromPartition "a.txt" twoFiles).1 = 0 ∧
        (deleteFileFromPartition "a.txt" twoFiles).2.super_file_data =
          { twoFiles.super_file_data with
              inodes := twoFiles.super_file_data.inodes.set i inode.empty } ∧
        (deleteFileFromPartition "a.txt" twoFiles).2.super_file_data.inodes[i]?
          = some inode.empty ∧
        ((twoFiles.super_file_data.scanned.filterMap (fun ino => ino.name)).Nodup →
          some "a.txt" ∉ listFiles (deleteFileFromPartition "a.txt" twoFiles).2) :=
  ⟨(deleteFileFromPartition_outcome "c.txt" twoFiles).1 (by decide), by decide, by decide,
   (deleteFileFromPartition_outcome "a.txt" twoFiles).2 (by decide)⟩

/-! ## The inode table in reachable states -/

theorem lookupHandle_none_not_held (fileName : String) (l : List inode)
    (h : lookupHandle fileName l = none)
    (hfp : ∀ ino ∈ l, ino.name.isSome = true → ino.file_pointer.isSome = true) :
    ∀ ino ∈ l, ino.name ≠ some fileName := by
  induction l with
  | nil => simp
  | cons a as ih =>
    simp only [lookupHandle] at h
    split_ifs at h with ha
    · intro ino hino
      have hfpa := hfp a (by simp)
      cases hfa : a.file_pointer with
      | none =>
        rw [hfa] at ha
        simp at ha
      | some g => rw [hfa] at h; simp at h
    · intro ino hino
      rcases List.mem_cons.mp hino with rfl | hmem
      · intro hc
        have h1 := hfp ino (by simp) (by simp [hc])
        simp [inode.holds, hc, h1] at ha
      · exact ih h (fun x hx => hfp x (by simp [hx])) ino hmem

theorem inodes_split_of_scanned (s : SuperFileData) (l1 l2 : List inode) (y : inode)
    (h : s.scanned = l1 ++ y :: l2) :
    s.inodes = l1 ++ y :: (l2 ++ s.inodes.drop s.num_inodes.toNat) := by
  have := List.take_append_drop s.num_inodes.toNat s.inodes
  simp only [SuperFileData.scanned] at h
  rw [h] at this
  simpa using this.symm

theorem scanned_eq_inodes (w : World) (hwf : w.WF)
    (hn : w.super_file_data.num_inodes = NUM_INODES) :
    w.super_file_data.scanned = w.super_file_data.inodes := by
  simp only [SuperFileData.scanned, hn]
  exact List.take_of_length_le (by rw [hwf.1]; decide)

theorem myOpen_tableInv (n : String) (w : World) (h : TableInv w) : TableInv (myOpen n w).2 := by
  obtain ⟨hwf, hnum, hfp, hnd⟩ := h
  refine ⟨myOpen_WF n w hwf, ?_⟩
  unfold myOpen
  simp only
  cases hlook : lookupHandle n w.super_file_data.scanned with
  | some g => exact ⟨hnum, hfp, hnd⟩
  | none =>
    simp only
    cases hi : firstIndex (fun ino : inode => ino.name.isNone) w.super_file_data.scanned with
    | none => exact ⟨hnum, hfp, hnd⟩
    | some i =>
      simp only
      cases hj : firstIndex (fun b : DataBlock => b.occ_block == BLOCK_FREE)
          w.super_file_data.blocks with
      | none => exact ⟨hnum, hfp, hnd⟩
      | some j =>
        simp only
        obtain ⟨l1, y, l2, hl, hlen, hy, _⟩ := firstIndex_split _ _ _ hi
        have hn16 : w.super_file_data.num_inodes = NUM_INODES := by
          rcases hnum with h0 | h16
          · simp [SuperFileData.scanned, h0] at hl
          · exact h16
        have hsc := scanned_eq_inodes w hwf hn16
        rw [hsc] at hl hlook
        have hnot := lookupHandle_none_not_held n _ hlook hfp
        have hyn : y.name = none := by
          cases hy1 : y.name with
          | none => rfl
          | some _ => simp [hy1] at hy
        refine ⟨hnum, ?_, ?_⟩
        · intro ino hino
          rw [hl, ← hlen, set_split] at hino
          simp only [List.mem_append, List.mem_cons] at hino
          rcases hino with h1 | rfl | h2
          · exact hfp ino (by rw [hl]; simp [h1])
          · intro _; rfl
          · exact hfp ino (by rw [hl]; simp [h2])
        · rw [hl, ← hlen, set_split]
          rw [hl] at hnd hnot
          simp only [List.filterMap_append, List.filterMap_cons, hyn] at hnd
          simp only [List.filterMap_append, List.filterMap_cons]
          apply List.nodup_middle.mpr
          refine List.nodup_cons.mpr ⟨?_, hnd⟩
          intro hmem
          simp only [List.mem_append, List.mem_filterMap] at hmem
          rcases hmem with ⟨x, hx, hxn⟩ | ⟨x, hx, hxn⟩
          · exact hnot x (by simp [hx]) hxn
          · exact hnot x (by simp [hx]) hxn

theorem deleteFileFromPartition_tableInv (n : String) (w : World) (h : TableInv w) :
    TableInv (deleteFileFromPartition n w).2 := by
  obtain ⟨hwf, hnum, hfp, hnd⟩ := h
  refine ⟨deleteFileFromPartition_WF n w hwf, ?_⟩
  unfold deleteFileFromPartition
  simp only
  cases hi : firstIndex (inode.holds n) w.super_file_data.scanned with
  | none => exact ⟨hnum, hfp, hnd⟩
  | some i =>
    simp only
    obtain ⟨l1, y, l2, hl, hlen, hy, _⟩ := firstIndex_split _ _ _ hi
    have hall := inodes_split_of_scanned _ _ _ _ hl
    have hyn : y.name = some n := by simpa [inode.holds] using hy
    refine ⟨hnum, ?_, ?_⟩
    · intro ino hino
      rw [hall, ← hlen, set_split] at hino
      simp only [List.mem_append, List.mem_cons] at hino
      rcases hino with h1 | rfl | h2
      · exact hfp ino (by rw [hall]; simp [h1])
      · intro hc; simp [inode.empty] at hc
      · exact hfp ino (by rw [hall]; simp only [List.mem_append, List.mem_cons]; tauto)
    · rw [hall, ← hlen, set_split]
      rw [hall] at hnd
      simp only [List.filterMap_append, List.filterMap_cons, hyn] at hnd
      simp only [List.filterMap_append, List.filterMap_cons, inode.empty]
      have := (List.nodup_cons.mp (List.nodup_middle.mp hnd)).2
      simpa using this

theorem myFormat_tableInv (p : String) (w : World) (h : TableInv w) :
    TableInv (myFormat p w).2 := by
  obtain ⟨hwf, hnum, hfp, hnd⟩ := h
  refine ⟨myFormat_WF p w hwf, ?_⟩
  unfold myFormat
  split
  rename_i fd host1 _
  split_ifs
  · exact ⟨hnum, hfp, hnd⟩
  · exact ⟨Or.inr rfl, hfp, hnd⟩

theorem tableInv_of_frame (w w1 : World) (h : TableInv w)
    (hf : w1.super_file_data = w.super_file_data) : TableInv w1 := by
  unfold TableInv World.WF at *
  rw [hf]; exact h

theorem step_tableInv (w w1 : World) (op : Op) (h : TableInv w) (hs : step w op = some w1) :
    TableInv w1 := by
  cases op with
  | format p =>
    simp only [step, Option.some.injEq] at hs
    rw [← hs]; exact myFormat_tableInv p w h
  | openFile n =>
    simp only [step, Option.some.injEq] at hs
    rw [← hs]; exact myOpen_tableInv n w h
  | write f b n => exact tableInv_of_frame w w1 h (step_frame w w1 _ hs (Or.inl ⟨f, b, n, rfl⟩))
  | seek f o b =>
    exact tableInv_of_frame w w1 h (step_frame w w1 _ hs (Or.inr (Or.inl ⟨f, o, b, rfl⟩)))
  | read f b n =>
    exact tableInv_of_frame w w1 h (step_frame w w1 _ hs (Or.inr (Or.inr ⟨f, b, n, rfl⟩)))
  | delete n =>
    simp only [step, Option.some.injEq] at hs
    rw [← hs]; exact deleteFileFromPartition_tableInv n w h

theorem run_tableInv (ops : List Op) :
    ∀ (w w1 : World), TableInv w → run ops w = some w1 → TableInv w1 := by
  induction ops with
  | nil =>
    intro w w1 h hrun
    simp only [run, Option.some.injEq] at hrun
    rw [← hrun]; exact h
  | cons op ops ih =>
    intro w w1 h hrun
    simp only [run] at hrun
    cases hs : step w op with
    | none => simp [hs] at hrun
    | some w2 =>
      simp only [hs] at hrun
      exact ih w2 w1 (step_tableInv w w2 op h hs) hrun

theorem tableInv_boot (content : List Byte) (script : List HostOutcome) :
    TableInv (World.boot content script) := by
  have hwf : (World.boot content script).WF :=
    ⟨rfl, by show (List.replicate MAX_NUM_BLOCKS (⟨0, []⟩ : DataBlock)).length = _; simp⟩
  have hnd : ((World.boot content script).super_file_data.inodes.filterMap
      (fun ino => ino.name)).Nodup := by
    show ((List.replicate 16 inode.empty).filterMap (fun ino => ino.name)).Nodup
    decide
  refine ⟨hwf, Or.inl rfl, ?_, hnd⟩
  intro ino hino hsome
  have : ino = inode.empty := List.eq_of_mem_replicate hino
  rw [this] at hsome
  simp [inode.empty] at hsome

theorem reachable_tableInv (w : World) (h : Reachable w) : TableInv w := by
  obtain ⟨content, script, ops, hrun⟩ := h
  exact run_tableInv ops _ w (tableInv_boot content script) hrun

theorem reachable_names_nodup (w : World) (h : Reachable w) :
    (w.super_file_data.scanned.filterMap (fun ino => ino.name)).Nodup := by
  obtain ⟨_, _, _, hnd⟩ := reachable_tableInv w h
  exact List.Nodup.sublist ((List.take_sublist _ _).filterMap _) hnd

/-! ## Writing -/

theorem wrapInt_of_range (x : Int) (h1 : INT_MIN ≤ x) (h2 : x ≤ INT_MAX) : wrapInt x = x := by
  unfold wrapInt
  simp only [INT_MIN, INT_MAX] at h1 h2
  omega

theorem deref_lt (w : World) (f : Nat) (fs : file) (h : w.deref f = some fs) :
    f < w.heap.length := by
  unfold World.deref at h
  by_contra hge
  rw [List.getElem?_eq_none (by omega)] at h
  simp at h

theorem deref_store (w : World) (f : Nat) (fs : file) (h : f < w.heap.length) :
    (w.store f fs).deref f = some fs := by
  simp [World.deref, World.store, h]

theorem allFull_tail (script : List HostOutcome) (h : AllFull script) :
    (nextOutcome script).1 = HostOutcome.full ∧ AllFull (nextOutcome script).2 := by
  cases script with
  | nil => exact ⟨rfl, h⟩
  | cons o rest =>
    exact ⟨h o (by simp), fun x hx => h x (List.mem_cons_of_mem _ hx)⟩

theorem hostWrite_full (fd : Int) (mem : List Byte) (count : Nat) (h : Host)
    (hfd : h.openFd = some fd) (hfull : AllFull h.script) :
    hostWrite fd mem count h =
      ((count : Int),
        { h with content := writeAt h.content h.cursor (mem.take count)
                 cursor := h.cursor + count
                 script := (nextOutcome h.script).2 }) := by
  obtain ⟨h1, _⟩ := allFull_tail h.script hfull
  unfold hostWrite
  rw [if_pos hfd]
  generalize hno : nextOutcome h.script = no at *
  obtain ⟨o, rest⟩ := no
  simp only at h1
  subst h1
  simp [granted]

theorem chunk_bounds (p n : Int) (hn : 0 < n) :
    ¬ (Int.tmod p BLOCK_SIZE ≥ BLOCK_SIZE) ∧
    0 < (if BLOCK_SIZE - Int.tmod p BLOCK_SIZE > n then n else BLOCK_SIZE - Int.tmod p BLOCK_SIZE) ∧
    (if BLOCK_SIZE - Int.tmod p BLOCK_SIZE > n then n else BLOCK_SIZE - Int.tmod p BLOCK_SIZE) ≤ n := by
  have hlt : Int.tmod p BLOCK_SIZE < BLOCK_SIZE := Int.tmod_lt_of_pos p (by decide)
  refine ⟨by omega, ?_, ?_⟩
  · split_ifs <;> omega
  · split_ifs <;> omega

theorem myWriteLoop_full (f : Nat) (fuel : Nat) :
    ∀ (buffer : List Byte) (nBytes bw : Int) (w : World) (fs : file),
      w.deref f = some fs → 0 ≤ nBytes → nBytes ≤ fuel →
      INT_MIN ≤ fs.currentPosition → fs.currentPosition + nBytes ≤ INT_MAX →
      w.host.openFd = some w.super_file_data.fileDescriptor → AllFull w.host.script →
      ∃ w1, myWriteLoop f fuel buffer nBytes bw w = some (bw + nBytes, w1) ∧
        w1.deref f = some { fs with
          currentPosition := fs.currentPosition + nBytes
          fileSize := max fs.fileSize (fs.currentPosition + nBytes) } := by
  have hend : ∀ (bw : Int) (w : World) (fs : file), w.deref f = some fs →
      ∃ w1, myWriteEnd f bw w = some (bw, w1) ∧
        w1.deref f = some { fs with fileSize := max fs.fileSize fs.currentPosition } := by
    intro bw w fs hd
    unfold myWriteEnd
    rw [hd]
    simp only
    split_ifs with hgt
    · refine ⟨_, rfl, ?_⟩
      rw [deref_store w f _ (deref_lt w f fs hd)]
      rw [max_eq_right (le_of_lt hgt)]
    · refine ⟨_, rfl, ?_⟩
      rw [hd, max_eq_left (not_lt.mp hgt)]
  induction fuel with
  | zero =>
    intro buffer nBytes bw w fs hd h0 hfuel _ _ _ _
    have hn : nBytes = 0 := by
      have : nBytes ≤ 0 := by simpa using hfuel
      omega
    subst hn
    obtain ⟨w1, h1, h2⟩ := hend bw w fs hd
    refine ⟨w1, ?_, ?_⟩
    · simp only [myWriteLoop]
      rw [if_neg (by omega), h1]; simp
    · rw [h2]; simp
  | succ fuel ih =>
    intro buffer nBytes bw w fs hd h0 hfuel hlo hhi hfd hfull
    by_cases hn : nBytes > 0
    · obtain ⟨hb1, hb2, hb3⟩ := chunk_bounds fs.currentPosition nBytes hn
      simp only [myWriteLoop]
      rw [if_pos hn, hd]
      simp only
      rw [if_neg hb1]
      generalize hc : (if BLOCK_SIZE - Int.tmod fs.currentPosition BLOCK_SIZE > nBytes then nBytes
        else BLOCK_SIZE - Int.tmod fs.currentPosition BLOCK_SIZE) = c at hb2 hb3
      rw [hostWrite_full _ _ _ _ hfd hfull]
      have hcast : ((c.toNat : Nat) : Int) = c := Int.toNat_of_nonneg (le_of_lt hb2)
      simp only [hcast]
      rw [if_neg (by omega)]
      have hwrap : wrapInt (fs.currentPosition + c) = fs.currentPosition + c :=
        wrapInt_of_range _ (by omega) (by omega)
      rw [hwrap]
      have hlt := deref_lt w f fs hd
      obtain ⟨w1, h1, h2⟩ := ih (buffer.drop c.toNat) (nBytes - c) (bw + c)
        (World.store
          { w with host := { w.host with
              content := writeAt w.host.content w.host.cursor (buffer.take c.toNat)
              cursor := w.host.cursor + c.toNat
              script := (nextOutcome w.host.script).2 } } f
          { fs with currentPosition := fs.currentPosition + c })
        { fs with currentPosition := fs.currentPosition + c }
        (deref_store _ f _ hlt) (by omega) (by push_cast at hfuel; omega)
        (by simp only []; omega) (by simp only []; omega) hfd (allFull_tail _ hfull).2
      refine ⟨w1, ?_, ?_⟩
      · rw [h1]
        have : bw + c + (nBytes - c) = bw + nBytes := by omega
        rw [this]
      · rw [h2]
        have : fs.currentPosition + c + (nBytes - c) = fs.currentPosition + nBytes := by omega
        simp only [this]
    · have hn0 : nBytes = 0 := by omega
      subst hn0
      obtain ⟨w1, h1, h2⟩ := hend bw w fs hd
      refine ⟨w1, ?_, ?_⟩
      · simp only [myWriteLoop]
        rw [if_neg (by omega), h1]; simp
      · rw [h2]; simp

/-! ## The write loop never runs out of iterations -/

theorem hostWrite_result (fd : Int) (mem : List Byte) (count : Nat) (h : Host) (hc : 0 < count) :
    (hostWrite fd mem count h).1 = -1 ∨
      (1 ≤ (hostWrite fd mem count h).1 ∧ (hostWrite fd mem count h).1 ≤ count) := by
  unfold hostWrite
  split_ifs with hfd
  · generalize nextOutcome h.script = no
    obtain ⟨o, rest⟩ := no
    cases o with
    | error => left; rfl
    | full => right; simp [granted]; omega
    | short k =>
      right
      simp only [granted]
      split_ifs with hk
      · constructor <;> omega
      · constructor <;> omega
  · left; rfl

theorem myWriteEnd_defined (f : Nat) (bw : Int) (w : World) (fs : file)
    (hd : w.deref f = some fs) : ∃ r w1, myWriteEnd f bw w = some (r, w1) := by
  unfold myWriteEnd
  rw [hd]
  simp only
  split_ifs
  · exact ⟨_, _, rfl⟩
  · exact ⟨_, _, rfl⟩

theorem myWriteLoop_defined (f : Nat) (fuel : Nat) :
    ∀ (buffer : List Byte) (nBytes bw : Int) (w : World) (fs : file),
      w.deref f = some fs → nBytes ≤ fuel →
      ∃ r w1, myWriteLoop f fuel buffer nBytes bw w = some (r, w1) := by
  induction fuel with
  | zero =>
    intro buffer nBytes bw w fs hd hfuel
    simp only [myWriteLoop]
    rw [if_neg (by simp at hfuel; omega)]
    exact myWriteEnd_defined f bw w fs hd
  | succ fuel ih =>
    intro buffer nBytes bw w fs hd hfuel
    simp only [myWriteLoop]
    by_cases hn : nBytes > 0
    · obtain ⟨hb1, hb2, hb3⟩ := chunk_bounds fs.currentPosition nBytes hn
      rw [if_pos hn, hd]
      simp only
      rw [if_neg hb1]
      generalize hc : (if BLOCK_SIZE - Int.tmod fs.currentPosition BLOCK_SIZE > nBytes then nBytes
        else BLOCK_SIZE - Int.tmod fs.currentPosition BLOCK_SIZE) = c at hb2 hb3
      have hres := hostWrite_result w.super_file_data.fileDescriptor buffer c.toNat w.host
        (by omega)
      generalize hostWrite w.super_file_data.fileDescriptor buffer c.toNat w.host = res at hres
      obtain ⟨r, host1⟩ := res
      simp only at hres ⊢
      split_ifs with hneg
      · exact ⟨_, _, rfl⟩
      · have hr : 1 ≤ r ∧ r ≤ c := by
          rcases hres with h1 | h2
          · omega
          · have := Int.toNat_of_nonneg (le_of_lt hb2)
            omega
        exact ih _ _ _ _ _ (deref_store _ f _ (deref_lt w f fs hd))
          (by push_cast at hfuel; omega)
    · rw [if_neg hn]
      exact myWriteEnd_defined f bw w fs hd

theorem myWrite_defined (f : Nat) (fs : file) (buffer : Option (List Byte)) (nBytes : Int)
    (w : World) (hd : w.deref f = some fs) :
    ∃ r w1, myWrite (some f) buffer nBytes w = some (r, w1) := by
  cases buffer with
  | none => exact ⟨_, _, rfl⟩
  | some buf =>
    simp only [myWrite]
    split_ifs with hn
    · exact ⟨_, _, rfl⟩
    · exact myWriteLoop_defined f nBytes.toNat buf nBytes 0 w fs hd
        (by rw [Int.toNat_of_nonneg (by omega)])

/-- C9. Successful write postcondition: for a live handle with position `p` and
size `s` and `n > 0` with `p + n` in `int` range, when the descriptor is the one
open on the partition and every host write completes in full, `myWrite` returns
`n`, the position becomes `p + n` and the size `max s (p + n)`. -/
theorem myWrite_success (f : Nat) (fs : file) (buf : List Byte) (n : Int) (w : World)
    (hf : w.deref f = some fs) (hn : 0 < n)
    (hlo : INT_MIN ≤ fs.currentPosition) (hhi : fs.currentPosition + n ≤ INT_MAX)
    (hfd : w.host.openFd = some w.super_file_data.fileDescriptor)
    (hfull : AllFull w.host.script) :
    ∃ w1, myWrite (some f) (some buf) n w = some (n, w1) ∧
      w1.deref f = some { fs with
        currentPosition := fs.currentPosition + n
        fileSize := max fs.fileSize (fs.currentPosition + n) } := by
  obtain ⟨w1, h1, h2⟩ := myWriteLoop_full f n.toNat buf n 0 w fs hf (le_of_lt hn)
    (by rw [Int.toNat_of_nonneg (le_of_lt hn)]) hlo hhi hfd hfull
  refine ⟨w1, ?_, h2⟩
  simp only [myWrite]
  rw [if_neg (by omega), h1]
  simp

theorem myWrite_success_witness :
    ∃ w1, myWrite (some 0) (some [104, 101, 108, 108, 111]) 5 oneFile = some (5, w1) ∧
      w1.deref 0 = some { name := "a.txt", fileSize := max 0 (0 + 5), currentPosition := 0 + 5 } :=
  myWrite_success 0 { name := "a.txt", fileSize := 0, currentPosition := 0 }
    [104, 101, 108, 108, 111] 5 oneFile (by decide) (by decide) (by decide) (by decide)
    (by decide) (by decide)

theorem hostWrite_cons_full (fd : Int) (mem : List Byte) (count : Nat) (h : Host)
    (rest : List HostOutcome) (hfd : h.openFd = some fd)
    (hs : h.script = HostOutcome.full :: rest) :
    hostWrite fd mem count h =
      ((count : Int),
        { h with content := writeAt h.content h.cursor (mem.take count)
                 cursor := h.cursor + count
                 script := rest }) := by
  unfold hostWrite
  rw [if_pos hfd, hs]
  simp [nextOutcome, granted]

theorem hostWrite_cons_error (fd : Int) (mem : List Byte) (count : Nat) (h : Host)
    (rest : List HostOutcome) (hfd : h.openFd = some fd)
    (hs : h.script = HostOutcome.error :: rest) :
    hostWrite fd mem count h = (-1, { h with script := rest }) := by
  unfold hostWrite
  rw [if_pos hfd, hs]
  simp [nextOutcome]

theorem myWriteLoop_error (f : Nat) (m : Nat) :
    ∀ (fuel : Nat) (buffer : List Byte) (nBytes bw : Int) (w : World) (fs : file)
      (rest : List HostOutcome),
      w.deref f = some fs → 0 ≤ fs.currentPosition → fs.currentPosition + nBytes ≤ INT_MAX →
      nBytes ≤ fuel → w.host.openFd = some w.super_file_data.fileDescriptor →
      w.host.script = List.replicate m HostOutcome.full ++ HostOutcome.error :: rest →
      persistedBefore fs.currentPosition m < nBytes →
      ∃ w1, myWriteLoop f fuel buffer nBytes bw w = some (-1, w1) ∧
        w1.deref f = some { fs with
          currentPosition := fs.currentPosition + persistedBefore fs.currentPosition m } ∧
        w1.host.cursor = w.host.cursor + (persistedBefore fs.currentPosition m).toNat ∧
        w1.host.script = rest := by
  induction m with
  | zero =>
    intro fuel buffer nBytes bw w fs rest hd hp hhi hfuel hfd hs hk
    have hpb : persistedBefore fs.currentPosition 0 = 0 := by simp [persistedBefore]
    rw [hpb] at hk ⊢
    cases fuel with
    | zero => exfalso; simp at hfuel; omega
    | succ fuel =>
      obtain ⟨hb1, _, _⟩ := chunk_bounds fs.currentPosition nBytes hk
      simp only [myWriteLoop]
      rw [if_pos hk, hd]
      simp only
      rw [if_neg hb1, hostWrite_cons_error _ _ _ _ rest hfd (by simpa using hs)]
      simp only
      rw [if_pos (by decide)]
      refine ⟨_, rfl, ?_, ?_, ?_⟩
      · show w.deref f = _
        rw [hd]; simp
      · simp
      · rfl
  | succ m ih =>
    intro fuel buffer nBytes bw w fs rest hd hp hhi hfuel hfd hs hk
    have hmod : Int.tmod fs.currentPosition BLOCK_SIZE = fs.currentPosition % 512 :=
      Int.tmod_eq_emod hp (by decide)
    have hpb : persistedBefore fs.currentPosition (m + 1)
        = (fs.currentPosition / 512 + (m + 1 : Nat)) * 512 - fs.currentPosition := by
      simp [persistedBefore, BLOCK_SIZE]
    rw [hpb] at hk
    have hn : nBytes > 0 := by push_cast at hk; omega
    cases fuel with
    | zero => exfalso; simp at hfuel; omega
    | succ fuel =>
      obtain ⟨hb1, _, _⟩ := chunk_bounds fs.currentPosition nBytes hn
      simp only [myWriteLoop]
      rw [if_pos hn, hd]
      simp only
      rw [if_neg hb1, hmod]
      have hc : (if BLOCK_SIZE - fs.currentPosition % 512 > nBytes then nBytes
          else BLOCK_SIZE - fs.currentPosition % 512) = 512 - fs.currentPosition % 512 := by
        simp only [BLOCK_SIZE]
        rw [if_neg (by push_cast at hk; omega)]
      rw [hc]
      have hcpos : 0 < 512 - fs.currentPosition % 512 := by omega
      rw [hostWrite_cons_full _ _ _ _ (List.replicate m HostOutcome.full ++ HostOutcome.error :: rest)
        hfd (by simpa [List.replicate_succ] using hs)]
      have hcast : (((512 - fs.currentPosition % 512).toNat : Nat) : Int)
          = 512 - fs.currentPosition % 512 := Int.toNat_of_nonneg (le_of_lt hcpos)
      simp only [hcast]
      rw [if_neg (by omega)]
      have hwrap : wrapInt (fs.currentPosition + (512 - fs.currentPosition % 512))
          = fs.currentPosition + (512 - fs.currentPosition % 512) :=
        wrapInt_of_range _ (by simp only [INT_MIN]; omega)
          (by simp only [INT_MAX] at hhi ⊢; push_cast at hk; omega)
      rw [hwrap]
      have hlt := deref_lt w f fs hd
      have hpb2 : persistedBefore (fs.currentPosition + (512 - fs.currentPosition % 512)) m
          = (fs.currentPosition / 512 + (m + 1 : Nat)) * 512 - fs.currentPosition
            - (512 - fs.currentPosition % 512) := by
        unfold persistedBefore
        simp only [BLOCK_SIZE]
        split_ifs with hm0
        · subst hm0; push_cast; omega
        · push_cast; omega
      obtain ⟨w1, h1, h2, h3, h4⟩ := ih fuel
        (buffer.drop (512 - fs.currentPosition % 512).toNat)
        (nBytes - (512 - fs.currentPosition % 512)) (bw + (512 - fs.currentPosition % 512))
        (World.store
          { w with host := { w.host with
              content := writeAt w.host.content w.host.cursor
                (buffer.take (512 - fs.currentPosition % 512).toNat)
              cursor := w.host.cursor + (512 - fs.currentPosition % 512).toNat
              script := List.replicate m HostOutcome.full ++ HostOutcome.error :: rest } } f
          { fs with currentPosition := fs.currentPosition + (512 - fs.currentPosition % 512) })
        { fs with currentPosition := fs.currentPosition + (512 - fs.currentPosition % 512) }
        rest (deref_store _ f _ hlt) (by simp only []; omega)
        (by simp only []; omega) (by push_cast at hfuel; omega) hfd rfl
        (by simp only []; rw [hpb2]; omega)
      refine ⟨w1, h1, ?_, ?_, h4⟩
      · rw [h2]
        simp only [hpb2, hpb]
        congr 2
        omega
      · rw [h3]
        simp only [hpb2, hpb, World.store]
        push_cast at hk ⊢
        omega

theorem myOpen_noFreeBlock_witness :
    myOpen "new.txt" poolExhausted = (OpenResult.noFreeBlock, poolExhausted) :=
  myOpen_noFreeBlock "new.txt" poolExhausted (by decide) (by decide) (by decide)

/-- C7, evaluated on the code. After `myFormat`, `myOpen "a.txt"` and
`deleteFileFromPartition "a.txt"` (result 0), pool block 0, which was the chain
head of `a.txt`, is still OCCUPIED; and after 100 such create-delete rounds the
store lists no file, yet `myOpen` fails for want of a free block. -/
theorem delete_keeps_block_occupied :
    (deleteFileFromPartition "a.txt" oneFile).1 = 0 ∧
    (oneFile.super_file_data.inodes[0]?).map (fun ino => ino.firstDataBlock) = some (some 0) ∧
    ((deleteFileFromPartition "a.txt" oneFile).2.super_file_data.blocks[0]?).map
      (fun b => b.occ_block) = some BLOCK_OCCUPIED ∧
    listFiles poolExhausted = [none] ∧
    myOpen "new.txt" poolExhausted = (OpenResult.noFreeBlock, poolExhausted) := by
  decide

/-- C10 as stated fails: on `failingHost` a 513-byte write persists its first
512-byte chunk, the host then fails the second `write`, and `myWrite` returns -1,
not the 512 bytes written so far. -/
theorem myWrite_partial_counterexample :
    (myWrite (some 0) (some (List.replicate 513 7)) 513 failingHost).map (fun r => r.1)
      = some (-1) ∧
    (myWrite (some 0) (some (List.replicate 513 7)) 513 failingHost).map (fun r => r.1)
      ≠ some 512 ∧
    (myWrite (some 0) (some (List.replicate 513 7)) 513 failingHost).map
      (fun r => r.2.host.content) = some (List.replicate 512 7) := by
  decide

/-- C10, amended. When the host fails a `write` after `m` chunks of the same call
completed in full (`k = persistedBefore p m` bytes, fewer than `n`), `myWrite`
stops and returns the negative host result -1; the handle's position has
advanced by `k`, its size is as before, and the host offset has advanced by `k`. -/
theorem myWrite_host_error (f : Nat) (fs : file) (buf : List Byte) (n : Int) (w : World)
    (m : Nat) (rest : List HostOutcome)
    (hf : w.deref f = some fs) (hp : 0 ≤ fs.currentPosition)
    (hhi : fs.currentPosition + n ≤ INT_MAX)
    (hfd : w.host.openFd = some w.super_file_data.fileDescriptor)
    (hs : w.host.script = List.replicate m HostOutcome.full ++ HostOutcome.error :: rest)
    (hk : persistedBefore fs.currentPosition m < n) :
    ∃ w1, myWrite (some f) (some buf) n w = some (-1, w1) ∧
      w1.deref f = some { fs with
        currentPosition := fs.currentPosition + persistedBefore fs.currentPosition m } ∧
      w1.host.cursor = w.host.cursor + (persistedBefore fs.currentPosition m).toNat ∧
      w1.host.script = rest := by
  have hk0 : 0 ≤ persistedBefore fs.currentPosition m := by
    unfold persistedBefore
    simp only [BLOCK_SIZE]
    split_ifs <;> omega
  have hn : 0 < n := by omega
  obtain ⟨w1, h1, h2⟩ := myWriteLoop_error f m n.toNat buf n 0 w fs rest hf hp hhi
    (by rw [Int.toNat_of_nonneg (le_of_lt hn)]) hfd hs hk
  refine ⟨w1, ?_, h2⟩
  simp only [myWrite]
  rw [if_neg (by omega), h1]

theorem myWrite_host_error_witness :
    ∃ w1, myWrite (some 0) (some (List.replicate 513 7)) 513 failingHost = some (-1, w1) ∧
      w1.deref 0 = some { name := "a.txt", fileSize := 0,
                          currentPosition := 0 + persistedBefore 0 1 } ∧
      w1.host.cursor = failingHost.host.cursor + (persistedBefore 0 1).toNat ∧
      w1.host.script = [] :=
  myWrite_host_error 0 { name := "a.txt", fileSize := 0, currentPosition := 0 }
    (List.replicate 513 7) 513 failingHost 1 [] (by decide) (by decide) (by decide) (by decide)
    (by decide) (by decide)

/-! ## Reading back -/

/-- C1, evaluated on the code. On the fresh store with the single new file
`a.txt`, writing 513 bytes of value 7 returns 513, but the read of 513 bytes
after seeking to the start returns 512: the last byte of the buffer is still the
0 it held before the call. -/
theorem roundTrip_past_one_block :
    roundTrip (myOpen "a.txt" formatted).1.ptr (List.replicate 513 7) 513
        (myOpen "a.txt" formatted).2
      = some (513, 512, List.replicate 512 7 ++ [0]) := by
  decide

/-- C2, evaluated on the code. With `x = [1]` written to `a.txt` and `y = [2]`
written to `b.txt`, reading `b.txt` back yields `[1]`, the bytes of `a.txt`. -/
theorem crossTalk_second_file : crossTalk [1] [2] = some ([1], [1]) := by
  decide

/-! ## Seeking -/

/-- C11. Rejected seek mutates nothing: for a live handle, when `base` is none of
`SEEK_SET`, `SEEK_CUR`, `SEEK_END`, or the target (computed without `int`
overflow) lies outside `[0, size]`, `mySeek` returns with the whole state as it
was: the handle's size and position, the inode table, the block pool and the
host offset. -/
theorem mySeek_rejected (f : Nat) (fs : file) (offset base : Int) (w : World)
    (hf : w.deref f = some fs)
    (hrej : seekTarget fs offset base = none ∨
      ∃ t, seekTarget fs offset base = some t ∧ INT_MIN ≤ t ∧ t ≤ INT_MAX ∧
        (t < 0 ∨ fs.fileSize < t)) :
    mySeek (some f) offset base w = some w := by
  unfold seekTarget at hrej
  simp only [mySeek]
  by_cases h0 : base = SEEK_SET
  · simp only [h0, if_true, true_or, hf] at hrej ⊢
    rcases hrej with hc | ⟨t, ht, _, _, hout⟩
    · simp at hc
    · simp only [Option.some.injEq] at ht
      subst ht
      rw [if_pos (by omega)]
  · by_cases h1 : base = SEEK_CUR
    · simp only [h0, h1, if_true, if_false, true_or, or_true, hf] at hrej ⊢
      have hne : ¬ SEEK_CUR = SEEK_SET := by decide
      simp only [hne, if_false] at hrej ⊢
      rcases hrej with hc | ⟨t, ht, hlo, hhi, hout⟩
      · simp at hc
      · simp only [Option.some.injEq] at ht
        subst ht
        rw [wrapInt_of_range _ hlo hhi, if_pos (by omega)]
    · by_cases h2 : base = SEEK_END
      · simp only [h0, h1, h2, if_true, if_false, true_or, or_true, hf] at hrej ⊢
        have hne0 : ¬ SEEK_END = SEEK_SET := by decide
        have hne1 : ¬ SEEK_END = SEEK_CUR := by decide
        simp only [hne0, hne1, if_false] at hrej ⊢
        rcases hrej with hc | ⟨t, ht, hlo, hhi, hout⟩
        · simp at hc
        · simp only [Option.some.injEq] at ht
          subst ht
          rw [wrapInt_of_range _ hlo hhi, if_pos (by omega)]
      · simp [h0, h1, h2]

theorem mySeek_rejected_witness :
    mySeek (some 0) 6 SEEK_SET helloWritten = some helloWritten ∧
    mySeek (some 0) (-6) SEEK_CUR helloWritten = some helloWritten ∧
    mySeek (some 0) 1 SEEK_END helloWritten = some helloWritten ∧
    mySeek (some 0) 0 7 helloWritten = some helloWritten :=
  ⟨mySeek_rejected 0 { name := "a.txt", fileSize := 5, currentPosition := 5 } 6 SEEK_SET
      helloWritten (by decide) (Or.inr ⟨6, by decide, by decide, by decide, by decide⟩),
   mySeek_rejected 0 { name := "a.txt", fileSize := 5, currentPosition := 5 } (-6) SEEK_CUR
      helloWritten (by decide) (Or.inr ⟨-1, by decide, by decide, by decide, by decide⟩),
   mySeek_rejected 0 { name := "a.txt", fileSize := 5, currentPosition := 5 } 1 SEEK_END
      helloWritten (by decide) (Or.inr ⟨6, by decide, by decide, by decide, by decide⟩),
   mySeek_rejected 0 { name := "a.txt", fileSize := 5, currentPosition := 5 } 0 7
      helloWritten (by decide) (Or.inl (by decide))⟩

/-- C12. Accepted seek: for a live handle on the open partition descriptor, when
the target `t` of a `SEEK_SET`, `SEEK_CUR` or `SEEK_END` seek satisfies
`0 ≤ t ≤ size`, `mySeek` sets the host offset to `t` and changes nothing else:
the handle's stored position and size stay as they were. -/
theorem mySeek_accepted (f : Nat) (fs : file) (offset base : Int) (t : Int) (w : World)
    (hf : w.deref f = some fs) (hsize : fs.fileSize ≤ INT_MAX)
    (hfd : w.host.openFd = some w.super_file_data.fileDescriptor)
    (ht : seekTarget fs offset base = some t) (h0 : 0 ≤ t) (h1 : t ≤ fs.fileSize) :
    mySeek (some f) offset base w =
      some { w with host := { w.host with cursor := t.toNat } } := by
  have hlo : INT_MIN ≤ t := by simp only [INT_MIN]; omega
  have hhi : t ≤ INT_MAX := by omega
  unfold seekTarget at ht
  have hseek : hostLseek w.super_file_data.fileDescriptor t w.host
      = (t, { w.host with cursor := t.toNat }) := by
    unfold hostLseek
    rw [if_pos ⟨hfd, h0⟩]
  simp only [mySeek]
  by_cases hb0 : base = SEEK_SET
  · simp only [hb0, if_true, true_or, hf, Option.some.injEq] at ht ⊢
    subst ht
    rw [if_neg (by omega), hseek]
  · by_cases hb1 : base = SEEK_CUR
    · have hne : ¬ SEEK_CUR = SEEK_SET := by decide
      simp only [hb1, hne, if_true, if_false, true_or, or_true, hf, Option.some.injEq] at ht ⊢
      subst ht
      rw [wrapInt_of_range _ hlo hhi, if_neg (by omega), hseek]
    · by_cases hb2 : base = SEEK_END
      · have hne0 : ¬ SEEK_END = SEEK_SET := by decide
        have hne1 : ¬ SEEK_END = SEEK_CUR := by decide
        simp only [hb2, hne0, hne1, if_true, if_false, true_or, or_true, hf,
          Option.some.injEq] at ht ⊢
        subst ht
        rw [wrapInt_of_range _ hlo hhi, if_neg (by omega), hseek]
      · simp [hb0, hb1, hb2] at ht

theorem mySeek_accepted_witness :
    mySeek (some 0) (-3) SEEK_END helloWritten =
      some { helloWritten with host := { helloWritten.host with cursor := (2 : Int).toNat } } :=
  mySeek_accepted 0 { name := "a.txt", fileSize := 5, currentPosition := 5 } (-3) SEEK_END 2
    helloWritten (by decide) (by decide) (by decide) (by decide) (by decide) (by decide)
/-! ## Up-front rejection -/

theorem lookupInode_none (nm : String) (l : List inode)
    (h : ∀ ino ∈ l, ino.name ≠ some nm) : lookupInode nm l = none := by
  induction l with
  | nil => rfl
  | cons a as ih =>
    have ha : a.holds nm = false := by simpa [inode.holds] using h a (by simp)
    simp [lookupInode, ha, ih (fun ino hino => h ino (by simp [hino]))]

theorem lookupInode_split (nm : String) (l1 l2 : List inode) (ino : inode)
    (h : ∀ x ∈ l1, x.name ≠ some nm) (hino : ino.name = some nm) :
    lookupInode nm (l1 ++ ino :: l2) = some ino := by
  induction l1 with
  | nil => simp [lookupInode, inode.holds, hino]
  | cons a as ih =>
    have ha : a.holds nm = false := by simpa [inode.holds] using h a (by simp)
    simp [lookupInode, ha, ih (fun x hx => h x (by simp [hx]))]

/-- C18. Up-front rejection is side-effect free: `myWrite` and `myRead` return -1
with the whole state unchanged (heap, inode table, block pool, host offset and
host script, so no host call was made) when the handle is `NULL`, the buffer is
`NULL` or `nBytes ≤ 0`; and so does `myRead` on a live handle when no scanned
inode holds the handle's name or the first one that does has no chain head. -/
theorem upfront_rejection (f : Option Nat) (buffer : Option (List Byte)) (n : Int) (w : World) :
    ((f = none ∨ buffer = none ∨ n ≤ 0) →
      myWrite f buffer n w = some (-1, w) ∧
      myRead f buffer n w = some (-1, buffer.getD [], w)) ∧
    (∀ (a : Nat) (fs : file) (buf : List Byte),
      f = some a → buffer = some buf → 0 < n → w.deref a = some fs →
      ((∀ ino ∈ w.super_file_data.scanned, ino.name ≠ some fs.name) ∨
        (∃ l1 ino l2, w.super_file_data.scanned = l1 ++ ino :: l2 ∧
          (∀ x ∈ l1, x.name ≠ some fs.name) ∧ ino.name = some fs.name ∧
          ino.firstDataBlock = none)) →
      myRead f buffer n w = some (-1, buf, w)) := by
  constructor
  · intro h
    cases f with
    | none => cases buffer <;> exact ⟨rfl, rfl⟩
    | some a =>
      cases buffer with
      | none => exact ⟨rfl, rfl⟩
      | some buf =>
        have hn : n ≤ 0 := by
          rcases h with h | h | h
          · simp at h
          · simp at h
          · exact h
        simp [myWrite, myRead, hn]
  · intro a fs buf hf hb hn hd hcase
    subst hf hb
    simp only [myRead]
    rw [if_neg (by omega), hd]
    simp only
    rcases hcase with hnone | ⟨l1, ino, l2, hl, hl1, hname, hhead⟩
    · rw [lookupInode_none _ _ hnone]
    · rw [hl, lookupInode_split _ _ _ _ hl1 hname]
      simp only [hhead]

theorem upfront_rejection_witness :
    (myWrite none (some hello) 5 oneFile = some (-1, oneFile) ∧
      myRead none (some hello) 5 oneFile = some (-1, hello, oneFile)) ∧
    (myWrite (some 0) (some hello) 0 oneFile = some (-1, oneFile) ∧
      myRead (some 0) (some hello) 0 oneFile = some (-1, hello, oneFile)) ∧
    myRead (some 0) (some [0]) 1 ghostHandle = some (-1, [0], ghostHandle) ∧
    myRead (some 0) (some [0]) 1 headless = some (-1, [0], headless) :=
  ⟨(upfront_rejection none (some hello) 5 oneFile).1 (Or.inl rfl),
   (upfront_rejection (some 0) (some hello) 0 oneFile).1 (Or.inr (Or.inr (by decide))),
   (upfront_rejection (some 0) (some [0]) 1 ghostHandle).2 0
      { name := "ghost.txt", fileSize := 0, currentPosition := 0 } [0] rfl rfl (by decide)
      (by decide) (Or.inl (by decide)),
   (upfront_rejection (some 0) (some [0]) 1 headless).2 0
      { name := "a.txt", fileSize := 0, currentPosition := 0 } [0] rfl rfl (by decide)
      (by decide)
      (Or.inr ⟨[], { name := some "a.txt", file_pointer := some 0, firstDataBlock := none },
        List.replicate 15 inode.empty, by decide, by decide, rfl, rfl⟩)⟩

/-! ## Teardown -/

/-- C19, as stated, fails: when the host fails the `close`, `deletePartition`
returns with the inode capacity still 16 and the descriptor still 3, the file
created before is still listed and a further `myOpen` still succeeds. -/
theorem deletePartition_close_failure_counterexample :
    (deletePartition "ma_partition" (myOpen "a.txt" closeFails).2).super_file_data.num_inodes
      = 16 ∧
    (deletePartition "ma_partition" (myOpen "a.txt" closeFails).2).super_file_data.fileDescriptor
      = 3 ∧
    listFiles (deletePartition "ma_partition" (myOpen "a.txt" closeFails).2)
      = [some "a.txt", none] ∧
    (myOpen "b.txt" (deletePartition "ma_partition" (myOpen "a.txt" closeFails).2)).1
      = OpenResult.handle 1 := by
  decide

/-- C19, amended. When the host closes the descriptor, `deletePartition` zeroes
the in-memory state whether or not removing the host file fails: inode capacity
0, partition size 0, descriptor -1, so `listFiles` is empty and every `myOpen`
fails; when the `close` fails it returns at once with the in-memory state as it
was. -/
theorem deletePartition_outcome (p : String) (w : World) :
    ((hostClose w.super_file_data.fileDescriptor w.host).1 ≠ -1 →
      (deletePartition p w).super_file_data.num_inodes = 0 ∧
      (deletePartition p w).super_file_data.taille_partition = 0 ∧
      (deletePartition p w).super_file_data.fileDescriptor = -1 ∧
      listFiles (deletePartition p w) = [none] ∧
      ∀ n, myOpen n (deletePartition p w) = (OpenResult.noFreeInode, deletePartition p w)) ∧
    ((hostClose w.super_file_data.fileDescriptor w.host).1 = -1 →
      (deletePartition p w).super_file_data = w.super_file_data ∧
      (deletePartition p w).heap = w.heap) := by
  constructor
  · intro h
    have hsc : (deletePartition p w).super_file_data.num_inodes = 0 ∧
        (deletePartition p w).super_file_data.taille_partition = 0 ∧
        (deletePartition p w).super_file_data.fileDescriptor = -1 := by
      unfold deletePartition
      split
      rename_i r host1 hc
      have hr : r ≠ -1 := by
        rw [hc] at h
        exact h
      rw [if_neg hr]
      exact ⟨rfl, rfl, rfl⟩
    have hscan : (deletePartition p w).super_file_data.scanned = [] := by
      simp [SuperFileData.scanned, hsc.1]
    refine ⟨hsc.1, hsc.2.1, hsc.2.2, ?_, ?_⟩
    · simp [listFiles, hscan]
    · intro n
      simp [myOpen, hscan, lookupHandle, firstIndex]
  · intro h
    unfold deletePartition
    split
    rename_i r host1 hc
    have hr : r = -1 := by
      rw [hc] at h
      exact h
    rw [if_pos hr]
    exact ⟨rfl, rfl⟩

theorem deletePartition_outcome_witness :
    ((deletePartition "ma_partition" twoFiles).super_file_data.num_inodes = 0 ∧
      (deletePartition "ma_partition" twoFiles).super_file_data.taille_partition = 0 ∧
      (deletePartition "ma_partition" twoFiles).super_file_data.fileDescriptor = -1 ∧
      listFiles (deletePartition "ma_partition" twoFiles) = [none] ∧
      ∀ n, myOpen n (deletePartition "ma_partition" twoFiles)
        = (OpenResult.noFreeInode, deletePartition "ma_partition" twoFiles)) ∧
    ((deletePartition "ma_partition" closeFails).super_file_data = closeFails.super_file_data ∧
      (deletePartition "ma_partition" closeFails).heap = closeFails.heap) :=
  ⟨(deletePartition_outcome "ma_partition" twoFiles).1 (by decide),
   (deletePartition_outcome "ma_partition" closeFails).2 (by decide)⟩
/-! ## Formatting again, writing on a full pool, writing through an unbound handle -/

/-- C15, evaluated on the code. Formatting again the store that holds `a.txt`
succeeds, sets the capacity to `NUM_INODES` and every block of the pool to FREE,
but leaves the inode table alone: `listFiles` still returns `a.txt`, whose inode
keeps block 0, now FREE, as chain head; the next `myOpen "b.txt"` takes block 0
again, so `a.txt` and `b.txt` have the same chain head. -/
theorem myFormat_keeps_inode_table :
    (myFormat "ma_partition" oneFile).1 = 0 ∧
    reformatted.super_file_data.num_inodes = NUM_INODES ∧
    (∀ b ∈ reformatted.super_file_data.blocks, b.occ_block = BLOCK_FREE) ∧
    listFiles reformatted = [some "a.txt", none] ∧
    (reformatted.super_file_data.inodes[0]?).map (fun ino => (ino.name, ino.firstDataBlock))
      = some (some "a.txt", some 0) ∧
    (myOpen "b.txt" reformatted).1 = OpenResult.handle 1 ∧
    (sharedHead.super_file_data.inodes.take 2).map (fun ino => (ino.name, ino.firstDataBlock))
      = [(some "a.txt", some 0), (some "b.txt", some 0)] := by
  decide

/-- What a successful `myFormat` assigns, in every state: the inode capacity
becomes `NUM_INODES` and every block of the pool FREE, the pool keeping its
length; when no inode was occupied before the call, `listFiles` returns the
empty list. -/
theorem myFormat_success (p : String) (w : World) (h : (myFormat p w).1 = 0) :
    (myFormat p w).2.super_file_data.num_inodes = NUM_INODES ∧
    (myFormat p w).2.super_file_data.blocks.length = w.super_file_data.blocks.length ∧
    (∀ b ∈ (myFormat p w).2.super_file_data.blocks, b.occ_block = BLOCK_FREE) ∧
    ((∀ ino ∈ w.super_file_data.inodes, ino.name = none) →
      listFiles (myFormat p w).2 = [none]) := by
  unfold myFormat at h ⊢
  generalize hostOpen w.host = res at h ⊢
  obtain ⟨fd, host1⟩ := res
  simp only at h ⊢
  by_cases hfd : fd = -1
  · rw [if_pos hfd] at h
    simp at h
  · rw [if_neg hfd]
    refine ⟨rfl, by simp, ?_, ?_⟩
    · intro b hb
      simp only [List.mem_map] at hb
      obtain ⟨b0, _, rfl⟩ := hb
      rfl
    · intro hempty
      have : ∀ ino ∈ w.super_file_data.inodes.take NUM_INODES.toNat, ino.name = none :=
        fun ino hino => hempty ino (List.mem_of_mem_take hino)
      have hfm : (w.super_file_data.inodes.take NUM_INODES.toNat).filterMap
          (fun ino => ino.name) = [] := by
        rw [List.filterMap_eq_nil_iff]
        exact this
      simp [listFiles, SuperFileData.scanned, hfm]

theorem myFormat_success_witness :
    (myFormat "ma_partition" (World.boot [] [])).2.super_file_data.num_inodes = NUM_INODES ∧
    (myFormat "ma_partition" (World.boot [] [])).2.super_file_data.blocks.length
      = (World.boot [] []).super_file_data.blocks.length ∧
    (∀ b ∈ (myFormat "ma_partition" (World.boot [] [])).2.super_file_data.blocks,
      b.occ_block = BLOCK_FREE) ∧
    ((∀ ino ∈ (World.boot [] []).super_file_data.inodes, ino.name = none) →
      listFiles (myFormat "ma_partition" (World.boot [] [])).2 = [none]) :=
  myFormat_success "ma_partition" (World.boot [] []) (by decide)

/-- C16, as stated, fails: on `fullPoolFile` no block of the pool is FREE and the
513-byte write through the handle of the one-block file `a.txt` crosses the end
of its block, yet `myWrite` reports all 513 bytes as written. -/
theorem myWrite_full_pool_counterexample :
    (∀ b ∈ fullPoolFile.super_file_data.blocks, b.occ_block ≠ BLOCK_FREE) ∧
    (myOpen "a.txt" (churn 99 formatted)).1 = OpenResult.handle 99 ∧
    (myWrite (some 99) (some (List.replicate 513 7)) 513 fullPoolFile).map (fun r => r.1)
      = some 513 := by
  decide

/-- C16, amended. `myWrite` does not fail for want of a FREE block: when the pool
has no FREE block and the bytes written cross the end of the file's block
(`position + n > BLOCK_SIZE`), a write through a live handle whose host writes
complete in full returns `n`. -/
theorem myWrite_ignores_pool (f : Nat) (fs : file) (buf : List Byte) (n : Int) (w : World)
    (hf : w.deref f = some fs) (hn : 0 < n)
    (hlo : INT_MIN ≤ fs.currentPosition) (hhi : fs.currentPosition + n ≤ INT_MAX)
    (hfd : w.host.openFd = some w.super_file_data.fileDescriptor)
    (hfull : AllFull w.host.script)
    (_hpool : ∀ b ∈ w.super_file_data.blocks, b.occ_block ≠ BLOCK_FREE)
    (_hcross : fs.currentPosition + n > BLOCK_SIZE) :
    (myWrite (some f) (some buf) n w).map (fun r => r.1) = some n := by
  obtain ⟨w1, h1, _⟩ := myWriteLoop_full f n.toNat buf n 0 w fs hf (le_of_lt hn)
    (by rw [Int.toNat_of_nonneg (le_of_lt hn)]) hlo hhi hfd hfull
  simp only [myWrite]
  rw [if_neg (by omega), h1]
  simp

theorem myWrite_ignores_pool_witness :
    (myWrite (some 99) (some (List.replicate 513 7)) 513 fullPoolFile).map (fun r => r.1)
      = some 513 :=
  myWrite_ignores_pool 99 { name := "a.txt", fileSize := 0, currentPosition := 0 }
    (List.replicate 513 7) 513 fullPoolFile (by decide) (by decide) (by decide) (by decide)
    (by decide) (by decide) (by decide) (by decide)

/-- C17, evaluated on the code. On `ghostHandle` no scanned inode holds the name
`ghost.txt` of the `file` struct at address 0, yet `myWrite` through it returns
1, stores the byte in the partition file and moves position and size to 1;
`myRead` through the same handle returns -1. -/
theorem myWrite_unbound_handle :
    (∀ ino ∈ ghostHandle.super_file_data.scanned, ino.name ≠ some "ghost.txt") ∧
    (myWrite (some 0) (some [1]) 1 ghostHandle).map
        (fun r => (r.1, r.2.host.content, r.2.deref 0))
      = some (1, [1], some { name := "ghost.txt", fileSize := 1, currentPosition := 1 }) ∧
    (myRead (some 0) (some [0]) 1 ghostHandle).map (fun r => r.1) = some (-1) := by
  decide
/-! ## Listing -/

theorem filterMap_take_eq_range {α β : Type} (g : α → Option β) (l : List α) (n : Nat) :
    ((l.take n).filterMap g).map some =
      ((List.range n).filter (fun i => ((l[i]?).bind g).isSome)).map
        (fun i => (l[i]?).bind g) := by
  induction n with
  | zero => simp
  | succ n ih =>
    rw [List.take_succ, List.filterMap_append, List.map_append, ih, List.range_succ,
      List.filter_append, List.map_append]
    congr 1
    cases hl : l[n]? with
    | none => simp [List.filter_cons, hl]
    | some x =>
      cases hg : g x with
      | none => simp [List.filter_cons, hl, hg]
      | some y => simp [List.filter_cons, hl, hg]

theorem numFiles_terminated (xs : List String) :
    numFiles (xs.map some ++ [none]) = xs.length := by
  induction xs with
  | nil => rfl
  | cons x xs ih => simp [numFiles, ih]

/-- C14. `listFiles` returns the names stored in the occupied inodes among the
first `num_inodes` slots, one entry per occupied slot, in increasing slot order,
followed by the terminating `NULL`; `numFiles` of that result is the number of
occupied slots; and with no occupied slot the result is just the terminator.
(`listFiles` is a function of the state only: it has no state to return.) -/
theorem listFiles_spec (w : World) :
    listFiles w =
      (occupiedIndices w.super_file_data).map (nameAt w.super_file_data) ++ [none] ∧
    (occupiedIndices w.super_file_data).Pairwise (fun i j => i < j) ∧
    (∀ i, i ∈ occupiedIndices w.super_file_data ↔
      (i : Int) < w.super_file_data.num_inodes ∧
        ∃ ino nm, w.super_file_data.inodes[i]? = some ino ∧ ino.name = some nm) ∧
    numFiles (listFiles w) = (occupiedIndices w.super_file_data).length ∧
    ((∀ ino ∈ w.super_file_data.scanned, ino.name = none) →
      listFiles w = [none] ∧ numFiles (listFiles w) = 0) := by
  have hmain := filterMap_take_eq_range (fun ino : inode => ino.name)
    w.super_file_data.inodes w.super_file_data.num_inodes.toNat
  refine ⟨?_, ?_, ?_, ?_, ?_⟩
  · simp only [listFiles, SuperFileData.scanned, hmain]
    rfl
  · exact List.Pairwise.sublist (List.filter_sublist _) (List.pairwise_lt_range _)
  · intro i
    simp only [occupiedIndices, nameAt, List.mem_filter, List.mem_range]
    constructor
    · rintro ⟨hlt, hsome⟩
      refine ⟨by omega, ?_⟩
      cases hi : w.super_file_data.inodes[i]? with
      | none => simp [hi] at hsome
      | some ino =>
        cases hn : ino.name with
        | none => simp [hi, hn] at hsome
        | some nm => exact ⟨ino, nm, rfl, hn⟩
    · rintro ⟨hlt, ino, nm, hi, hn⟩
      exact ⟨by omega, by simp [hi, hn]⟩
  · rw [listFiles, numFiles_terminated]
    have := congrArg List.length hmain
    simp only [List.length_map] at this
    simp only [SuperFileData.scanned, this]
    rfl
  · intro hempty
    have hfm : w.super_file_data.scanned.filterMap (fun ino => ino.name) = [] := by
      rw [List.filterMap_eq_nil_iff]
      exact hempty
    simp [listFiles, hfm, numFiles]

theorem listFiles_spec_witness :
    listFiles twoFiles = [some "a.txt", some "b.txt", none] ∧
    numFiles (listFiles twoFiles) = 2 ∧
    occupiedIndices twoFiles.super_file_data = [0, 1] ∧
    (listFiles formatted = [none] ∧ numFiles (listFiles formatted) = 0) :=
  ⟨by decide, by decide, by decide, (listFiles_spec formatted).2.2.2.2 (by decide)⟩
/-! ## Round trip within one block -/

theorem myWriteLoop_zero (f : Nat) (fuel : Nat) (buffer : List Byte) (bw : Int) (w : World) :
    myWriteLoop f fuel buffer 0 bw w = myWriteEnd f bw w := by
  cases fuel <;> simp [myWriteLoop]

theorem hostRead_full (fd : Int) (count : Nat) (h : Host)
    (hfd : h.openFd = some fd) (hfull : AllFull h.script) :
    hostRead fd count h =
      ((((h.content.drop h.cursor).take count).length : Int),
        (h.content.drop h.cursor).take count,
        { h with cursor := h.cursor + ((h.content.drop h.cursor).take count).length
                 script := (nextOutcome h.script).2 }) := by
  obtain ⟨h1, _⟩ := allFull_tail h.script hfull
  unfold hostRead
  rw [if_pos hfd]
  generalize hno : nextOutcome h.script = no at *
  obtain ⟨o, rest⟩ := no
  simp only at h1
  subst h1
  simp [granted]

theorem mySeek_start (f : Nat) (fs : file) (w : World)
    (hf : w.deref f = some fs) (hsize : 0 ≤ fs.fileSize)
    (hfd : w.host.openFd = some w.super_file_data.fileDescriptor) :
    mySeek (some f) 0 SEEK_SET w = some { w with host := { w.host with cursor := 0 } } := by
  simp only [mySeek, true_or, if_true, hf]
  rw [if_neg (by omega)]
  simp [hostLseek, hfd]

/-- A write that fits in the current block is one host `write`. -/
theorem myWrite_one_chunk (f : Nat) (fs : file) (buf : List Byte) (n : Int) (w : World)
    (hf : w.deref f = some fs) (hn : 0 < n) (hp : 0 ≤ fs.currentPosition)
    (hfit : fs.currentPosition % 512 + n ≤ 512) (hhi : fs.currentPosition + n ≤ INT_MAX)
    (hfd : w.host.openFd = some w.super_file_data.fileDescriptor)
    (hfull : AllFull w.host.script) :
    myWrite (some f) (some buf) n w =
      some (n,
        { super_file_data := w.super_file_data
          heap := w.heap.set f (some { fs with
            currentPosition := fs.currentPosition + n
            fileSize := max fs.fileSize (fs.currentPosition + n) })
          host := { w.host with
            content := writeAt w.host.content w.host.cursor (buf.take n.toNat)
            cursor := w.host.cursor + n.toNat
            script := (nextOutcome w.host.script).2 } }) := by
  have hlt := deref_lt w f fs hf
  have hmod : Int.tmod fs.currentPosition BLOCK_SIZE = fs.currentPosition % 512 :=
    Int.tmod_eq_emod hp (by decide)
  obtain ⟨k, hk⟩ : ∃ k, n.toNat = k + 1 := ⟨n.toNat - 1, by omega⟩
  simp only [myWrite]
  rw [if_neg (by omega)]
  conv_lhs => rw [hk]
  simp only [myWriteLoop]
  rw [if_pos hn, hf]
  simp only
  rw [hmod, if_neg (by simp only [BLOCK_SIZE]; omega)]
  have hc : (if BLOCK_SIZE - fs.currentPosition % 512 > n then n
      else BLOCK_SIZE - fs.currentPosition % 512) = n := by
    simp only [BLOCK_SIZE]
    split_ifs <;> omega
  rw [hc, hostWrite_full _ _ _ _ hfd hfull]
  have hcast : ((n.toNat : Nat) : Int) = n := Int.toNat_of_nonneg (le_of_lt hn)
  simp only [hcast]
  rw [if_neg (by omega), sub_self, myWriteLoop_zero,
    wrapInt_of_range _ (by simp only [INT_MIN]; omega) hhi]
  simp only [myWriteEnd, World.deref, World.store, List.getElem?_set_self hlt, zero_add]
  by_cases hgt : fs.currentPosition + n > fs.fileSize
  · rw [if_pos hgt]
    simp only [World.store, List.set_set, max_eq_right (le_of_lt hgt)]
  · rw [if_neg hgt]
    simp only [World.store, max_eq_left (not_lt.mp hgt)]

/-- A read of at most one block through a handle whose chain is one block. -/
theorem myRead_one_block (f : Nat) (fs : file) (buf : List Byte) (n : Int) (w : World)
    (ino : inode) (j : Nat) (blk : DataBlock)
    (hf : w.deref f = some fs) (hn : 0 < n) (hn512 : n ≤ 512) (hsize : 0 ≤ fs.fileSize)
    (hino : lookupInode fs.name w.super_file_data.scanned = some ino)
    (hhead : ino.firstDataBlock = some j) (hblk : w.super_file_data.blocks[j]? = some blk)
    (hnext : blk.next = [])
    (hfd : w.host.openFd = some w.super_file_data.fileDescriptor)
    (hfull : AllFull w.host.script) :
    myRead (some f) (some buf) n w =
      some (((w.host.content.take n.toNat).length : Int),
        w.host.content.take n.toNat ++ buf.drop (w.host.content.take n.toNat).length,
        { w with host := { w.host with
            cursor := (w.host.content.take n.toNat).length
            script := (nextOutcome w.host.script).2 } }) := by
  simp only [myRead]
  rw [if_neg (by omega), hf]
  simp only [hino, hhead]
  rw [mySeek_start f fs w hf hsize hfd, hblk]
  simp only [hnext, List.length_nil, Nat.add_zero, myReadLoop]
  rw [if_pos hn]
  have hbtr : (if n > BLOCK_SIZE then BLOCK_SIZE else n) = n := by
    simp only [BLOCK_SIZE]
    rw [if_neg (by omega)]
  rw [hbtr, hostRead_full _ _ { w.host with cursor := 0 } hfd hfull]
  simp only [List.drop_zero, Nat.zero_add]
  rw [if_neg (by omega)]
  simp
theorem fresh_file (p : String) (content : List Byte) (script : List HostOutcome)
    (hfull : AllFull script) :
    (myFormat p (World.boot content script)).1 = 0 ∧
    myOpen "a.txt" (myFormat p (World.boot content script)).2 =
      (OpenResult.handle 0, freshFile content (nextOutcome script).2) := by
  obtain ⟨h1, _⟩ := allFull_tail script hfull
  cases script with
  | nil => exact ⟨rfl, rfl⟩
  | cons o rest =>
    simp only [nextOutcome] at h1
    subst h1
    exact ⟨rfl, rfl⟩

/-- C13. Hello scenario, for every short string: for every byte string `s` of
length `n` with `1 ≤ n ≤ BLOCK_SIZE`, on a host whose calls complete in full,
`myFormat`, `myOpen "a.txt"` (handle 0), `myWrite` of `s`, `mySeek` to the start
and `myRead` of `n` bytes give bytes-written `n`, bytes-read `n` and the buffer
`s`, whatever bytes the partition file held before. -/
theorem hello_scenario (p : String) (content : List Byte) (script : List HostOutcome)
    (s : List Byte) (hfull : AllFull script) (h1 : 1 ≤ s.length)
    (h2 : (s.length : Int) ≤ BLOCK_SIZE) :
    (myFormat p (World.boot content script)).1 = 0 ∧
    (myOpen "a.txt" (myFormat p (World.boot content script)).2).1 = OpenResult.handle 0 ∧
    roundTrip (some 0) s s.length (myOpen "a.txt" (myFormat p (World.boot content script)).2).2
      = some ((s.length : Int), (s.length : Int), s) := by
  obtain ⟨hfmt, hopen⟩ := fresh_file p content script hfull
  have hfull1 : AllFull (nextOutcome script).2 := (allFull_tail script hfull).2
  generalize (nextOutcome script).2 = script1 at hopen hfull1
  have hfull2 : AllFull (nextOutcome script1).2 := (allFull_tail script1 hfull1).2
  refine ⟨hfmt, by rw [hopen], ?_⟩
  rw [hopen]
  simp only [BLOCK_SIZE] at h2
  have hn : (0 : Int) < s.length := by omega
  have hd0 : (freshFile content script1).deref 0
      = some { name := "a.txt", fileSize := 0, currentPosition := 0 } := rfl
  have hw := myWrite_one_chunk 0 { name := "a.txt", fileSize := 0, currentPosition := 0 } s
    s.length (freshFile content script1) hd0 hn (le_refl _) (by simp only []; omega)
    (by simp only [INT_MAX]; omega) rfl hfull1
  obtain ⟨w2, hw2, hsfd2, hd2, hc2, hfd2, hs2⟩ : ∃ w2 : World,
      myWrite (some 0) (some s) s.length (freshFile content script1)
        = some ((s.length : Int), w2) ∧
      w2.super_file_data = oneFile.super_file_data ∧
      w2.deref 0 = some { name := "a.txt", fileSize := max 0 (0 + (s.length : Int)),
                          currentPosition := 0 + (s.length : Int) } ∧
      w2.host.content = writeAt content 0 (s.take (s.length : Int).toNat) ∧
      w2.host.openFd = some 3 ∧
      w2.host.script = (nextOutcome script1).2 :=
    ⟨_, hw, rfl, rfl, rfl, rfl, rfl⟩
  have hfd2a : w2.host.openFd = some w2.super_file_data.fileDescriptor := by
    rw [hfd2, hsfd2]; rfl
  have hsz : (0 : Int) ≤ max 0 (0 + (s.length : Int)) := le_max_left _ _
  have hcontent : w2.host.content.take (s.length : Int).toNat = s := by
    rw [hc2]
    simp [writeAt]
  have hino : lookupInode "a.txt" w2.super_file_data.scanned
      = some { name := some "a.txt", file_pointer := some 0, firstDataBlock := some 0 } := by
    rw [hsfd2]; decide
  have hblk : w2.super_file_data.blocks[0]?
      = some { occ_block := BLOCK_OCCUPIED, next := [] } := by
    rw [hsfd2]; decide
  have hr := myRead_one_block 0 _ (List.replicate (s.length : Int).toNat 0) s.length
    { w2 with host := { w2.host with cursor := 0 } } _ 0 _ hd2 hn h2 hsz hino rfl hblk rfl
    hfd2a (by rw [← hs2] at hfull2; exact hfull2)
  simp only [roundTrip, hw2]
  rw [mySeek_start 0 _ w2 hd2 hsz hfd2a]
  simp only []
  rw [hr]
  have htoNat : (s.length : Int).toNat = s.length := by simp
  rw [htoNat] at hcontent
  have hlen : s.length ≤ w2.host.content.length := by
    have := congrArg List.length hcontent
    rw [List.length_take] at this
    omega
  simp [hcontent, hlen]

theorem hello_scenario_witness :
    (myFormat "ma_partition" (World.boot [] [])).1 = 0 ∧
    (myOpen "a.txt" (myFormat "ma_partition" (World.boot [] [])).2).1 = OpenResult.handle 0 ∧
    roundTrip (some 0) hello hello.length
        (myOpen "a.txt" (myFormat "ma_partition" (World.boot [] [])).2).2
      = some ((hello.length : Int), (hello.length : Int), hello) :=
  hello_scenario "ma_partition" [] [] hello (by decide) (by decide) (by decide)
/-! ## Handles of the inode table in reachable states -/

theorem namesKept_refl (w : World) : NamesKept w w := fun _ fs h => ⟨fs, h, rfl⟩

theorem namesKept_trans (w w1 w2 : World) (h1 : NamesKept w w1) (h2 : NamesKept w1 w2) :
    NamesKept w w2 := by
  intro a fs h
  obtain ⟨fs1, hd1, hn1⟩ := h1 a fs h
  obtain ⟨fs2, hd2, hn2⟩ := h2 a fs1 hd1
  exact ⟨fs2, hd2, by rw [hn2, hn1]⟩

theorem namesKept_of_heap (w w1 : World) (h : w1.heap = w.heap) : NamesKept w w1 := by
  intro a fs hd
  refine ⟨fs, ?_, rfl⟩
  unfold World.deref at hd ⊢
  rw [h]; exact hd

theorem namesKept_store (w : World) (host1 : Host) (f : Nat) (fs fs1 : file)
    (hd : w.deref f = some fs) (hname : fs1.name = fs.name) :
    NamesKept w (World.store { w with host := host1 } f fs1) := by
  intro a gs ha
  by_cases haf : a = f
  · subst haf
    refine ⟨fs1, ?_, ?_⟩
    · have hlt := deref_lt w a fs hd
      simp [World.deref, World.store, hlt]
    · rw [hd] at ha
      simp only [Option.some.injEq] at ha
      rw [← ha, hname]
  · refine ⟨gs, ?_, rfl⟩
    unfold World.deref at ha ⊢
    simp only [World.store]
    rw [List.getElem?_set_ne (fun h => haf h.symm)]
    exact ha

theorem myWriteEnd_namesKept (f : Nat) (bw : Int) (w : World) (r : Int) (w1 : World)
    (h : myWriteEnd f bw w = some (r, w1)) : NamesKept w w1 := by
  unfold myWriteEnd at h
  cases hd : w.deref f with
  | none => simp [hd] at h
  | some fs =>
    simp only [hd] at h
    split_ifs at h
    · simp only [Option.some.injEq, Prod.mk.injEq] at h
      rw [← h.2]
      exact namesKept_store w w.host f fs _ hd rfl
    · simp only [Option.some.injEq, Prod.mk.injEq] at h
      rw [← h.2]
      exact namesKept_refl w

theorem myWriteLoop_namesKept (f : Nat) (fuel : Nat) :
    ∀ (buffer : List Byte) (nBytes bw : Int) (w : World) (r : Int) (w1 : World),
      myWriteLoop f fuel buffer nBytes bw w = some (r, w1) → NamesKept w w1 := by
  induction fuel with
  | zero =>
    intro buffer nBytes bw w r w1 h
    simp only [myWriteLoop] at h
    split_ifs at h
    exact myWriteEnd_namesKept f bw w r w1 h
  | succ fuel ih =>
    intro buffer nBytes bw w r w1 h
    simp only [myWriteLoop] at h
    cases hd : w.deref f with
    | none => simp [hd, myWriteEnd] at h
    | some fs =>
      simp only [hd] at h
      split_ifs at h
      all_goals first
        | exact myWriteEnd_namesKept f bw w r w1 h
        | (simp only [Option.some.injEq, Prod.mk.injEq] at h
           rw [← h.2]
           exact namesKept_of_heap _ _ rfl)
        | (refine namesKept_trans _ _ _ ?_ (ih _ _ _ _ _ _ h)
           exact namesKept_store w _ f fs _ hd rfl)

theorem myWrite_namesKept (f : Option Nat) (buffer : Option (List Byte)) (nBytes : Int)
    (w : World) (r : Int) (w1 : World) (h : myWrite f buffer nBytes w = some (r, w1)) :
    NamesKept w w1 := by
  unfold myWrite at h
  split at h
  · split at h
    · simp only [Option.some.injEq, Prod.mk.injEq] at h
      rw [← h.2]; exact namesKept_refl w
    · exact myWriteLoop_namesKept _ _ _ _ _ _ _ _ h
  · simp only [Option.some.injEq, Prod.mk.injEq] at h
    rw [← h.2]; exact namesKept_refl w

theorem handleInv_of_frame (w w1 : World) (h : HandleInv w)
    (hf : w1.super_file_data = w.super_file_data) (hk : NamesKept w w1) : HandleInv w1 := by
  obtain ⟨h1, h2, h3⟩ := h
  unfold HandleInv
  rw [hf]
  refine ⟨?_, h2, h3⟩
  intro ino hino nm hnm
  obtain ⟨a, j, fs, hfp, hhead, hd, hname⟩ := h1 ino hino nm hnm
  obtain ⟨fs1, hd1, hn1⟩ := hk a fs hd
  exact ⟨a, j, fs1, hfp, hhead, hd1, by rw [hn1, hname]⟩

theorem myFormat_handleInv (p : String) (w : World) (h : HandleInv w) :
    HandleInv (myFormat p w).2 := by
  unfold myFormat
  split
  rename_i fd host1 _
  split_ifs
  · exact handleInv_of_frame w _ h rfl (namesKept_of_heap _ _ rfl)
  · exact h

theorem getD_split {α : Type} (l1 l2 : List α) (x d : α) :
    (l1 ++ x :: l2).getD l1.length d = x := by
  induction l1 with
  | nil => rfl
  | cons a as ih => simpa using ih
theorem myOpen_handleInv (n : String) (w : World) (ht : TableInv w) (h : HandleInv w) :
    HandleInv (myOpen n w).2 := by
  obtain ⟨hwf, hnum, _, _⟩ := ht
  obtain ⟨h1, h2, h3⟩ := h
  unfold myOpen
  simp only
  cases hlook : lookupHandle n w.super_file_data.scanned with
  | some g => exact ⟨h1, h2, h3⟩
  | none =>
    simp only
    cases hi : firstIndex (fun ino : inode => ino.name.isNone) w.super_file_data.scanned with
    | none => exact ⟨h1, h2, h3⟩
    | some i =>
      simp only
      cases hj : firstIndex (fun b : DataBlock => b.occ_block == BLOCK_FREE)
          w.super_file_data.blocks with
      | none => exact ⟨h1, h2, h3⟩
      | some j =>
        simp only
        obtain ⟨l1, y, l2, hl, hlen, hy, _⟩ := firstIndex_split _ _ _ hi
        have hn16 : w.super_file_data.num_inodes = NUM_INODES := by
          rcases hnum with h0 | h16
          · simp [SuperFileData.scanned, h0] at hl
          · exact h16
        rw [scanned_eq_inodes w hwf hn16] at hl
        have hyn : y.name = none := by
          cases hy1 : y.name with
          | none => rfl
          | some _ => simp [hy1] at hy
        have hyfp : y.file_pointer = none := (h2 y (by rw [hl]; simp) hyn).1
        have hold : ∀ ino, ino ∈ l1 ∨ ino ∈ l2 → ino ∈ w.super_file_data.inodes := by
          intro ino hmem
          rw [hl]
          simp only [List.mem_append, List.mem_cons]
          tauto
        have hlive : ∀ ino, ino ∈ l1 ∨ ino ∈ l2 → ∀ a, ino.file_pointer = some a →
            a < w.heap.length := by
          intro ino hmem a hfp
          cases hnm : ino.name with
          | none =>
            have := (h2 ino (hold ino hmem) hnm).1
            rw [hfp] at this
            simp at this
          | some nm =>
            obtain ⟨a1, _, fs, hfp1, _, hd, _⟩ := h1 ino (hold ino hmem) nm hnm
            rw [hfp] at hfp1
            simp only [Option.some.injEq] at hfp1
            rw [hfp1]
            exact deref_lt w a1 fs hd
        unfold HandleInv
        simp only []
        rw [hl, ← hlen, set_split]
        refine ⟨?_, ?_, ?_⟩
        · intro ino hino nm hnm
          simp only [List.mem_append, List.mem_cons] at hino
          have hkeep : ∀ (w1 : World),
              w1.heap = w.heap ++ [some { name := n, fileSize := 0, currentPosition := 0 }] →
              ∀ x, x ∈ l1 ∨ x ∈ l2 → x.name = some nm →
              ∃ a j fs, x.file_pointer = some a ∧ x.firstDataBlock = some j ∧
                w1.deref a = some fs ∧ fs.name = nm := by
            intro w1 hw1 x hx hxn
            obtain ⟨a, j1, fs, hfp, hhead, hd, hname⟩ := h1 x (hold x hx) nm hxn
            refine ⟨a, j1, fs, hfp, hhead, ?_, hname⟩
            have hlt := deref_lt w a fs hd
            unfold World.deref at hd ⊢
            rw [hw1, List.getElem?_append_left hlt]
            exact hd
          rcases hino with hm | rfl | hm
          · exact hkeep _ rfl ino (Or.inl hm) hnm
          · simp only [Option.some.injEq] at hnm
            exact ⟨w.heap.length, j, { name := n, fileSize := 0, currentPosition := 0 },
              rfl, rfl, by simp [World.deref], hnm⟩
          · exact hkeep _ rfl ino (Or.inr hm) hnm
        · intro ino hino hnone
          simp only [List.mem_append, List.mem_cons] at hino
          rcases hino with hm | rfl | hm
          · exact h2 ino (hold ino (Or.inl hm)) hnone
          · simp at hnone
          · exact h2 ino (hold ino (Or.inr hm)) hnone
        · rw [hl] at h3
          simp only [List.filterMap_append, List.filterMap_cons, hyfp] at h3
          simp only [List.filterMap_append, List.filterMap_cons]
          apply List.nodup_middle.mpr
          refine List.nodup_cons.mpr ⟨?_, h3⟩
          intro hmem
          simp only [List.mem_append, List.mem_filterMap] at hmem
          rcases hmem with ⟨x, hx, hxfp⟩ | ⟨x, hx, hxfp⟩
          · exact absurd (hlive x (Or.inl hx) _ hxfp) (lt_irrefl _)
          · exact absurd (hlive x (Or.inr hx) _ hxfp) (lt_irrefl _)

theorem deleteFileFromPartition_handleInv (n : String) (w : World) (h : HandleInv w) :
    HandleInv (deleteFileFromPartition n w).2 := by
  obtain ⟨h1, h2, h3⟩ := h
  unfold deleteFileFromPartition
  simp only
  cases hi : firstIndex (inode.holds n) w.super_file_data.scanned with
  | none => exact ⟨h1, h2, h3⟩
  | some i =>
    simp only
    obtain ⟨l1, y, l2, hl, hlen, hy, _⟩ := firstIndex_split _ _ _ hi
    have hall := inodes_split_of_scanned _ _ _ _ hl
    generalize l2 ++ w.super_file_data.inodes.drop w.super_file_data.num_inodes.toNat = l3
      at hall
    have hyn : y.name = some n := by simpa [inode.holds] using hy
    obtain ⟨a, _, _, hyfp, _, _, _⟩ := h1 y (by rw [hall]; simp) n hyn
    have hget : (w.super_file_data.inodes.getD i inode.empty).file_pointer = some a := by
      rw [hall, ← hlen, getD_split]; exact hyfp
    have hold : ∀ ino, ino ∈ l1 ∨ ino ∈ l3 → ino ∈ w.super_file_data.inodes := by
      intro ino hmem
      rw [hall]
      simp only [List.mem_append, List.mem_cons]
      tauto
    rw [hall] at h3
    simp only [List.filterMap_append, List.filterMap_cons, hyfp] at h3
    have hmid := List.nodup_cons.mp (List.nodup_middle.mp h3)
    unfold HandleInv
    simp only [hget]
    rw [hall, ← hlen, set_split]
    refine ⟨?_, ?_, ?_⟩
    · intro ino hino nm hnm
      simp only [List.mem_append, List.mem_cons] at hino
      have hkeep : ∀ (w1 : World), w1.heap = w.heap.set a none →
          ∀ x, x ∈ l1 ∨ x ∈ l3 → x.name = some nm →
          ∃ a1 j fs, x.file_pointer = some a1 ∧ x.firstDataBlock = some j ∧
            w1.deref a1 = some fs ∧ fs.name = nm := by
        intro w1 hw1 x hx hxn
        obtain ⟨a1, j1, fs, hfp, hhead, hd, hname⟩ := h1 x (hold x hx) nm hxn
        refine ⟨a1, j1, fs, hfp, hhead, ?_, hname⟩
        have hne : a ≠ a1 := by
          intro heq
          apply hmid.1
          rw [heq]
          simp only [List.mem_append, List.mem_filterMap]
          rcases hx with hx | hx
          · exact Or.inl ⟨x, hx, hfp⟩
          · exact Or.inr ⟨x, hx, hfp⟩
        unfold World.deref at hd ⊢
        rw [hw1, List.getElem?_set_ne hne]
        exact hd
      rcases hino with hm | rfl | hm
      · exact hkeep _ rfl ino (Or.inl hm) hnm
      · simp [inode.empty] at hnm
      · exact hkeep _ rfl ino (Or.inr hm) hnm
    · intro ino hino hnone
      simp only [List.mem_append, List.mem_cons] at hino
      rcases hino with hm | rfl | hm
      · exact h2 ino (hold ino (Or.inl hm)) hnone
      · exact ⟨rfl, rfl⟩
      · exact h2 ino (hold ino (Or.inr hm)) hnone
    · simp only [List.filterMap_append, List.filterMap_cons, inode.empty]
      exact hmid.2

theorem step_handleInv (w w1 : World) (op : Op) (ht : TableInv w) (h : HandleInv w)
    (hs : step w op = some w1) : HandleInv w1 := by
  cases op with
  | format p =>
    simp only [step, Option.some.injEq] at hs
    rw [← hs]; exact myFormat_handleInv p w h
  | openFile n =>
    simp only [step, Option.some.injEq] at hs
    rw [← hs]; exact myOpen_handleInv n w ht h
  | write f b n =>
    simp only [step, Option.map_eq_some'] at hs
    obtain ⟨⟨r, w2⟩, hw, rfl⟩ := hs
    exact handleInv_of_frame w w2 h (myWrite_frame _ _ _ _ _ _ hw)
      (myWrite_namesKept _ _ _ _ _ _ hw)
  | seek f o b =>
    have hf := mySeek_frame _ _ _ _ _ hs
    exact handleInv_of_frame w w1 h hf.1 (namesKept_of_heap _ _ hf.2)
  | read f b n =>
    simp only [step, Option.map_eq_some'] at hs
    obtain ⟨⟨r, out, w2⟩, hw, rfl⟩ := hs
    have hf := myRead_frame _ _ _ _ _ _ _ hw
    exact handleInv_of_frame w w2 h hf.1 (namesKept_of_heap _ _ hf.2)
  | delete n =>
    simp only [step, Option.some.injEq] at hs
    rw [← hs]; exact deleteFileFromPartition_handleInv n w h

theorem run_handleInv (ops : List Op) :
    ∀ (w w1 : World), TableInv w → HandleInv w → run ops w = some w1 → HandleInv w1 := by
  induction ops with
  | nil =>
    intro w w1 _ h hrun
    simp only [run, Option.some.injEq] at hrun
    rw [← hrun]; exact h
  | cons op ops ih =>
    intro w w1 ht h hrun
    simp only [run] at hrun
    cases hs : step w op with
    | none => simp [hs] at hrun
    | some w2 =>
      simp only [hs] at hrun
      exact ih w2 w1 (step_tableInv w w2 op ht hs) (step_handleInv w w2 op ht h hs) hrun

theorem handleInv_boot (content : List Byte) (script : List HostOutcome) :
    HandleInv (World.boot content script) := by
  have hempty : ∀ ino ∈ (World.boot content script).super_file_data.inodes,
      ino = inode.empty := fun ino hino => List.eq_of_mem_replicate hino
  refine ⟨?_, ?_, ?_⟩
  · intro ino hino nm hnm
    rw [hempty ino hino] at hnm
    simp [inode.empty] at hnm
  · intro ino hino _
    rw [hempty ino hino]
    exact ⟨rfl, rfl⟩
  · show ((List.replicate 16 inode.empty).filterMap (fun ino => ino.file_pointer)).Nodup
    decide

/-- C20. Inode-table well-formedness is invariant: in every state reachable from
program start by any sequence of `myFormat`, `myOpen`, `myWrite`, `myRead`,
`mySeek` and `deleteFileFromPartition` calls, every occupied inode has a handle
that points to a live `file` struct carrying the inode's name and has a chain
head, every unoccupied inode has neither, and the names of the occupied inodes
are pairwise distinct. -/
theorem reachable_inode_table (w : World) (h : Reachable w) :
    (∀ ino ∈ w.super_file_data.inodes, ∀ nm, ino.name = some nm →
      ∃ a j fs, ino.file_pointer = some a ∧ ino.firstDataBlock = some j ∧
        w.deref a = some fs ∧ fs.name = nm) ∧
    (∀ ino ∈ w.super_file_data.inodes, ino.name = none →
      ino.file_pointer = none ∧ ino.firstDataBlock = none) ∧
    (w.super_file_data.inodes.filterMap (fun ino => ino.name)).Nodup := by
  obtain ⟨content, script, ops, hrun⟩ := h
  have ht := run_tableInv ops _ w (tableInv_boot content script) hrun
  have hh := run_handleInv ops _ w (tableInv_boot content script)
    (handleInv_boot content script) hrun
  exact ⟨hh.1, hh.2.1, ht.2.2.2⟩

theorem reachable_inode_table_witness :
    (∀ ino ∈ reopenFinal.super_file_data.inodes, ∀ nm, ino.name = some nm →
      ∃ a j fs, ino.file_pointer = some a ∧ ino.firstDataBlock = some j ∧
        reopenFinal.deref a = some fs ∧ fs.name = nm) ∧
    (∀ ino ∈ reopenFinal.super_file_data.inodes, ino.name = none →
      ino.file_pointer = none ∧ ino.firstDataBlock = none) ∧
    (reopenFinal.super_file_data.inodes.filterMap (fun ino => ino.name)).Nodup :=
  reachable_inode_table reopenFinal
    ⟨[], [], Op.format "ma_partition" :: Op.openFile "a.txt" :: reopenOps, by decide⟩

/-! ## Chains and cursors after a write -/

/-- C22, evaluated on the code. On `failingHost` the 513-byte write through the
handle of `a.txt` returns -1 after its first 512-byte chunk; the call has
advanced the position to 512 and left the size at 0, so the position is past the
size. -/
theorem cursor_past_size_after_failed_write :
    (myOpen "a.txt"
      (myFormat "ma_partition"
        (World.boot [] [HostOutcome.full, HostOutcome.full, HostOutcome.error])).2).1
      = OpenResult.handle 0 ∧
    (myWrite (some 0) (some (List.replicate 513 7)) 513 failingHost).map (fun r => r.1)
      = some (-1) ∧
    afterFailedWrite.deref 0
      = some { name := "a.txt", fileSize := 0, currentPosition := 512 } := by
  decide

/-- C23, evaluated on the code. The 513-byte write to the fresh file `a.txt`
returns 513 and leaves the cursor at 513, which needs two blocks of 512 bytes,
but the chain of the inode of `a.txt` still has one block: its head, with no
successor. -/
theorem chain_not_extended :
    (myWrite (some 0) (some (List.replicate 513 7)) 513 oneFile).map (fun r => r.1)
      = some 513 ∧
    longWritten.deref 0 = some { name := "a.txt", fileSize := 513, currentPosition := 513 } ∧
    (longWritten.super_file_data.inodes[0]?).map (fun ino => ino.name) = some (some "a.txt") ∧
    (longWritten.super_file_data.inodes[0]?).map (chainLength longWritten.super_file_data)
      = some 1 := by
  decide

/-! ## One block per chain -/

theorem myFormat_poolInv (p : String) (w : World) (h : PoolInv w) : PoolInv (myFormat p w).2 := by
  obtain ⟨h1, h2⟩ := h
  unfold myFormat
  split
  rename_i fd host1 _
  split_ifs
  · exact ⟨h1, h2⟩
  · refine ⟨?_, ?_⟩
    · intro blk hblk
      simp only [List.mem_map] at hblk
      obtain ⟨b0, hb0, rfl⟩ := hblk
      exact h1 b0 hb0
    · intro ino hino j hj
      simpa using h2 ino hino j hj

theorem myOpen_poolInv (n : String) (w : World) (h : PoolInv w) : PoolInv (myOpen n w).2 := by
  obtain ⟨h1, h2⟩ := h
  unfold myOpen
  simp only
  cases hlook : lookupHandle n w.super_file_data.scanned with
  | some g => exact ⟨h1, h2⟩
  | none =>
    simp only
    cases hi : firstIndex (fun ino : inode => ino.name.isNone) w.super_file_data.scanned with
    | none => exact ⟨h1, h2⟩
    | some i =>
      simp only
      cases hj : firstIndex (fun b : DataBlock => b.occ_block == BLOCK_FREE)
          w.super_file_data.blocks with
      | none => exact ⟨h1, h2⟩
      | some j =>
        simp only
        obtain ⟨b1, z, b2, hb, hblen, _, _⟩ := firstIndex_split _ _ _ hj
        have hjlt : j < w.super_file_data.blocks.length := by
          rw [hb, ← hblen]; simp
        refine ⟨?_, ?_⟩
        · intro blk hblk
          rcases List.mem_or_eq_of_mem_set hblk with hm | rfl
          · exact h1 blk hm
          · rfl
        · intro ino hino k hk
          simp only [List.length_set]
          rcases List.mem_or_eq_of_mem_set hino with hm | rfl
          · exact h2 ino hm k hk
          · simp only [Option.some.injEq] at hk
            rw [← hk]; exact hjlt

theorem deleteFileFromPartition_poolInv (n : String) (w : World) (h : PoolInv w) :
    PoolInv (deleteFileFromPartition n w).2 := by
  obtain ⟨h1, h2⟩ := h
  unfold deleteFileFromPartition
  simp only
  cases hi : firstIndex (inode.holds n) w.super_file_data.scanned with
  | none => exact ⟨h1, h2⟩
  | some i =>
    refine ⟨h1, ?_⟩
    intro ino hino k hk
    rcases List.mem_or_eq_of_mem_set hino with hm | rfl
    · exact h2 ino hm k hk
    · simp [inode.empty] at hk

theorem poolInv_of_frame (w w1 : World) (h : PoolInv w)
    (hf : w1.super_file_data = w.super_file_data) : PoolInv w1 := by
  unfold PoolInv at *
  rw [hf]; exact h

theorem step_poolInv (w w1 : World) (op : Op) (h : PoolInv w) (hs : step w op = some w1) :
    PoolInv w1 := by
  cases op with
  | format p =>
    simp only [step, Option.some.injEq] at hs
    rw [← hs]; exact myFormat_poolInv p w h
  | openFile n =>
    simp only [step, Option.some.injEq] at hs
    rw [← hs]; exact myOpen_poolInv n w h
  | write f b n => exact poolInv_of_frame w w1 h (step_frame w w1 _ hs (Or.inl ⟨f, b, n, rfl⟩))
  | seek f o b =>
    exact poolInv_of_frame w w1 h (step_frame w w1 _ hs (Or.inr (Or.inl ⟨f, o, b, rfl⟩)))
  | read f b n =>
    exact poolInv_of_frame w w1 h (step_frame w w1 _ hs (Or.inr (Or.inr ⟨f, b, n, rfl⟩)))
  | delete n =>
    simp only [step, Option.some.injEq] at hs
    rw [← hs]; exact deleteFileFromPartition_poolInv n w h

theorem run_poolInv (ops : List Op) :
    ∀ (w w1 : World), PoolInv w → run ops w = some w1 → PoolInv w1 := by
  induction ops with
  | nil =>
    intro w w1 h hrun
    simp only [run, Option.some.injEq] at hrun
    rw [← hrun]; exact h
  | cons op ops ih =>
    intro w w1 h hrun
    simp only [run] at hrun
    cases hs : step w op with
    | none => simp [hs] at hrun
    | some w2 =>
      simp only [hs] at hrun
      exact ih w2 w1 (step_poolInv w w2 op h hs) hrun

theorem poolInv_boot (content : List Byte) (script : List HostOutcome) :
    PoolInv (World.boot content script) := by
  refine ⟨?_, ?_⟩
  · intro blk hblk
    have : blk = (⟨0, []⟩ : DataBlock) := List.eq_of_mem_replicate hblk
    rw [this]
  · intro ino hino j hj
    have : ino = inode.empty := List.eq_of_mem_replicate hino
    rw [this] at hj
    simp [inode.empty] at hj

theorem lookupInode_mem (nm : String) (l : List inode) (ino : inode)
    (h : lookupInode nm l = some ino) : ino ∈ l := by
  induction l with
  | nil => simp [lookupInode] at h
  | cons a as ih =>
    simp only [lookupInode] at h
    split_ifs at h
    · simp only [Option.some.injEq] at h
      rw [← h]; simp
    · exact List.mem_cons_of_mem _ (ih h)

theorem hostRead_result (fd : Int) (count : Nat) (h : Host) :
    ((hostRead fd count h).1 = -1 ∨
      (0 ≤ (hostRead fd count h).1 ∧ (hostRead fd count h).1 ≤ count)) ∧
    ((hostRead fd count h).2.2.script = h.script ∨
      (hostRead fd count h).2.2.script = (nextOutcome h.script).2) := by
  unfold hostRead
  split_ifs with hfd
  · generalize nextOutcome h.script = no
    obtain ⟨o, rest⟩ := no
    cases o with
    | error => exact ⟨Or.inl rfl, Or.inr rfl⟩
    | full =>
      refine ⟨Or.inr ⟨by simp, ?_⟩, Or.inr rfl⟩
      simp only [List.length_take, Nat.cast_le]
      omega
    | short k =>
      refine ⟨Or.inr ⟨by simp, ?_⟩, Or.inr rfl⟩
      simp only [List.length_take, Nat.cast_le]
      omega
  · exact ⟨Or.inl rfl, Or.inl rfl⟩

theorem mySeek_host (f : Option Nat) (offset base : Int) (w w1 : World)
    (h : mySeek f offset base w = some w1) :
    w1.host.script = w.host.script ∧ w1.host.openFd = w.host.openFd := by
  cases f with
  | none =>
    simp only [mySeek, Option.some.injEq] at h
    rw [← h]; exact ⟨rfl, rfl⟩
  | some fa =>
    simp only [mySeek] at h
    cases hd : w.deref fa with
    | none =>
      simp only [hd] at h
      split_ifs at h
      simp only [Option.some.injEq] at h
      rw [← h]; exact ⟨rfl, rfl⟩
    | some fs =>
      simp only [hd] at h
      split_ifs at h
      all_goals
        simp only [Option.some.injEq] at h
        rw [← h]
        first
          | exact ⟨rfl, rfl⟩
          | (simp only [hostLseek]; split_ifs <;> exact ⟨rfl, rfl⟩)
theorem myReadLoop_single (fd : Int) (n : Int) (h : Host) (hn : 0 < n) :
    ((myReadLoop fd 1 n 0 [] h).1 = -1 ∨
      (0 ≤ (myReadLoop fd 1 n 0 [] h).1 ∧ (myReadLoop fd 1 n 0 [] h).1 ≤ n ∧
        (myReadLoop fd 1 n 0 [] h).1 ≤ BLOCK_SIZE)) ∧
    ((myReadLoop fd 1 n 0 [] h).2.2.script = h.script ∨
      (myReadLoop fd 1 n 0 [] h).2.2.script = (nextOutcome h.script).2) := by
  have hcount : (((if n > BLOCK_SIZE then BLOCK_SIZE else n).toNat : Nat) : Int) ≤ n ∧
      (((if n > BLOCK_SIZE then BLOCK_SIZE else n).toNat : Nat) : Int) ≤ BLOCK_SIZE := by
    simp only [BLOCK_SIZE]
    split_ifs <;> omega
  have hres := hostRead_result fd (if n > BLOCK_SIZE then BLOCK_SIZE else n).toNat h
  simp only [myReadLoop]
  rw [if_pos hn]
  generalize hostRead fd (if n > BLOCK_SIZE then BLOCK_SIZE else n).toNat h = res at hres
  obtain ⟨rc, data, h1⟩ := res
  simp only at hres ⊢
  split_ifs with hneg
  · exact ⟨Or.inl rfl, hres.2⟩
  · refine ⟨Or.inr ?_, hres.2⟩
    rcases hres.1 with hc | ⟨h0, hle⟩
    · exact absurd hc hneg
    · simp only [zero_add]
      exact ⟨h0, by omega, by omega⟩

theorem myRead_bound (f : Option Nat) (buffer : Option (List Byte)) (n : Int) (w : World)
    (r : Int) (out : List Byte) (w1 : World) (hpool : PoolInv w)
    (h : myRead f buffer n w = some (r, out, w1)) :
    (r = -1 ∨ (0 ≤ r ∧ r ≤ n ∧ r ≤ BLOCK_SIZE)) ∧
    (w1.host.script = w.host.script ∨ w1.host.script = (nextOutcome w.host.script).2) := by
  have hdone : ∀ (b : List Byte), some ((-1 : Int), b, w) = some (r, out, w1) →
      (r = -1 ∨ (0 ≤ r ∧ r ≤ n ∧ r ≤ BLOCK_SIZE)) ∧
      (w1.host.script = w.host.script ∨ w1.host.script = (nextOutcome w.host.script).2) := by
    intro b hb
    simp only [Option.some.injEq, Prod.mk.injEq] at hb
    exact ⟨Or.inl hb.1.symm, Or.inl (by rw [← hb.2.2])⟩
  cases f with
  | none =>
    cases buffer with
    | none => exact hdone _ h
    | some buf => exact hdone _ h
  | some fa =>
    cases buffer with
    | none => exact hdone _ h
    | some buf =>
      simp only [myRead] at h
      by_cases hn : n ≤ 0
      · rw [if_pos hn] at h
        exact hdone _ h
      · rw [if_neg hn] at h
        cases hd : w.deref fa with
        | none =>
          simp only [hd] at h
          split_ifs at h
          exact hdone _ h
        | some fs =>
          simp only [hd] at h
          cases hino : lookupInode fs.name w.super_file_data.scanned with
          | none =>
            simp only [hino] at h
            exact hdone _ h
          | some ino =>
            simp only [hino] at h
            cases hhead : ino.firstDataBlock with
            | none =>
              simp only [hhead] at h
              exact hdone _ h
            | some j =>
              simp only [hhead] at h
              cases hseek : mySeek (some fa) 0 SEEK_SET w with
              | none => simp [hseek] at h
              | some w2 =>
                cases hblk : w.super_file_data.blocks[j]? with
                | none => simp [hseek, hblk] at h
                | some blk =>
                  have hnext : blk.next = [] := hpool.1 blk (List.getElem?_mem hblk)
                  have hhost := mySeek_host _ _ _ _ _ hseek
                  simp only [hseek, hblk, hnext, List.length_nil, Nat.add_zero] at h
                  have hloop := myReadLoop_single w2.super_file_data.fileDescriptor n w2.host
                    (by omega)
                  generalize myReadLoop w2.super_file_data.fileDescriptor 1 n 0 [] w2.host = res
                    at h hloop
                  obtain ⟨r1, out1, h1⟩ := res
                  simp only [Option.some.injEq, Prod.mk.injEq] at h hloop
                  obtain ⟨hr, _, hw1⟩ := h
                  rw [← hr, ← hw1]
                  simp only []
                  rw [← hhost.1]
                  exact hloop

/-- C24. In every state reachable through `myFormat`, `myOpen`, `myWrite`,
`myRead`, `mySeek` and `deleteFileFromPartition`, the chain of every occupied
inode is exactly one block (the head, whose successor is never set); so a
`myRead` in such a state makes at most one host call and returns either -1 or a
byte count between 0 and `min n BLOCK_SIZE`, whatever was written before. -/
theorem reachable_single_block (w : World) (h : Reachable w) :
    (∀ ino ∈ w.super_file_data.inodes, ino.name ≠ none →
      chainLength w.super_file_data ino = 1) ∧
    (∀ (f : Option Nat) (buffer : Option (List Byte)) (n r : Int) (out : List Byte)
      (w1 : World), myRead f buffer n w = some (r, out, w1) →
      (r = -1 ∨ (0 ≤ r ∧ r ≤ n ∧ r ≤ BLOCK_SIZE)) ∧
      (w1.host.script = w.host.script ∨
        w1.host.script = (nextOutcome w.host.script).2)) := by
  obtain ⟨content, script, ops, hrun⟩ := h
  have hpool := run_poolInv ops _ w (poolInv_boot content script) hrun
  have hh := run_handleInv ops _ w (tableInv_boot content script)
    (handleInv_boot content script) hrun
  refine ⟨?_, ?_⟩
  · intro ino hino hname
    cases hnm : ino.name with
    | none => exact absurd hnm hname
    | some nm =>
      obtain ⟨a, j, fs, _, hhead, _, _⟩ := hh.1 ino hino nm hnm
      have hj := hpool.2 ino hino j hhead
      have hblk : w.super_file_data.blocks[j]? = some (w.super_file_data.blocks[j]) :=
        List.getElem?_eq_getElem hj
      have hnext := hpool.1 _ (List.getElem?_mem hblk)
      simp [chainLength, hhead, hblk, hnext]
  · intro f buffer n r out w1 hread
    exact myRead_bound f buffer n w r out w1 hpool hread

theorem reachable_single_block_witness :
    (∀ ino ∈ longWritten.super_file_data.inodes, ino.name ≠ none →
      chainLength longWritten.super_file_data ino = 1) ∧
    (∀ (f : Option Nat) (buffer : Option (List Byte)) (n r : Int) (out : List Byte)
      (w1 : World), myRead f buffer n longWritten = some (r, out, w1) →
      (r = -1 ∨ (0 ≤ r ∧ r ≤ n ∧ r ≤ BLOCK_SIZE)) ∧
      (w1.host.script = longWritten.host.script ∨
        w1.host.script = (nextOutcome longWritten.host.script).2)) :=
  reachable_single_block longWritten
    ⟨[], [], [Op.format "ma_partition", Op.openFile "a.txt",
      Op.write (some 0) (some (List.replicate 513 7)) 513], rfl⟩
/-! ## Chains and the pool within one lifecycle -/

theorem myOpen_chainInv (n : String) (w : World) (h : ChainInv w) : ChainInv (myOpen n w).2 := by
  obtain ⟨h1, h2⟩ := h
  unfold myOpen
  simp only
  cases hlook : lookupHandle n w.super_file_data.scanned with
  | some g => exact ⟨h1, h2⟩
  | none =>
    simp only
    cases hi : firstIndex (fun ino : inode => ino.name.isNone) w.super_file_data.scanned with
    | none => exact ⟨h1, h2⟩
    | some i =>
      simp only
      cases hj : firstIndex (fun b : DataBlock => b.occ_block == BLOCK_FREE)
          w.super_file_data.blocks with
      | none => exact ⟨h1, h2⟩
      | some j =>
        simp only
        obtain ⟨l1, y, l2, hl, hlen, _, _⟩ := firstIndex_split _ _ _ hi
        have hall := inodes_split_of_scanned _ _ _ _ hl
        generalize l2 ++ w.super_file_data.inodes.drop w.super_file_data.num_inodes.toNat = l3
          at hall
        obtain ⟨b1, z, b2, hb, hblen, hz, _⟩ := firstIndex_split _ _ _ hj
        have hjlt : j < w.super_file_data.blocks.length := by
          rw [hb, ← hblen]; simp
        have hzj : w.super_file_data.blocks[j]? = some z := by
          rw [hb, ← hblen, List.getElem?_append_right (le_refl _)]; simp
        have hzfree : z.occ_block = BLOCK_FREE := by simpa using hz
        have hnew : (w.super_file_data.blocks.set j
            { occ_block := BLOCK_OCCUPIED, next := [] })[j]?
            = some { occ_block := BLOCK_OCCUPIED, next := [] } := by
          simp [hjlt]
        have hold : ∀ ino, ino ∈ l1 ∨ ino ∈ l3 → ino ∈ w.super_file_data.inodes := by
          intro ino hmem
          rw [hall]
          simp only [List.mem_append, List.mem_cons]
          tauto
        have hkeep : ∀ ino, ino ∈ l1 ∨ ino ∈ l3 → ∀ k, ino.firstDataBlock = some k →
            ∃ blk, (w.super_file_data.blocks.set j
              { occ_block := BLOCK_OCCUPIED, next := [] })[k]? = some blk ∧
              blk.occ_block = BLOCK_OCCUPIED := by
          intro ino hmem k hk
          by_cases hkj : k = j
          · rw [hkj]; exact ⟨_, hnew, rfl⟩
          · obtain ⟨blk, hblk, hocc⟩ := h1 ino (hold ino hmem) k hk
            refine ⟨blk, ?_, hocc⟩
            rw [List.getElem?_set_ne (fun h => hkj h.symm)]
            exact hblk
        have hnot : ∀ ino, ino ∈ l1 ∨ ino ∈ l3 → ino.firstDataBlock ≠ some j := by
          intro ino hmem hc
          obtain ⟨blk, hblk, hocc⟩ := h1 ino (hold ino hmem) j hc
          rw [hzj] at hblk
          simp only [Option.some.injEq] at hblk
          rw [← hblk, hzfree] at hocc
          exact absurd hocc (by decide)
        unfold ChainInv
        simp only []
        rw [hall, ← hlen, set_split]
        refine ⟨?_, ?_⟩
        · intro ino hino k hk
          simp only [List.mem_append, List.mem_cons] at hino
          rcases hino with hm | rfl | hm
          · exact hkeep ino (Or.inl hm) k hk
          · simp only [Option.some.injEq] at hk
            rw [← hk]; exact ⟨_, hnew, rfl⟩
          · exact hkeep ino (Or.inr hm) k hk
        · rw [hall] at h2
          simp only [List.filterMap_append, List.filterMap_cons] at h2 ⊢
          apply List.nodup_middle.mpr
          refine List.nodup_cons.mpr ⟨?_, ?_⟩
          · intro hmem
            simp only [List.mem_append, List.mem_filterMap] at hmem
            rcases hmem with ⟨x, hx, hxj⟩ | ⟨x, hx, hxj⟩
            · exact hnot x (Or.inl hx) hxj
            · exact hnot x (Or.inr hx) hxj
          · cases hy : y.firstDataBlock with
            | none => simpa [hy] using h2
            | some k =>
              simp only [hy] at h2
              exact (List.nodup_cons.mp (List.nodup_middle.mp h2)).2

theorem deleteFileFromPartition_chainInv (n : String) (w : World) (h : ChainInv w) :
    ChainInv (deleteFileFromPartition n w).2 := by
  obtain ⟨h1, h2⟩ := h
  unfold deleteFileFromPartition
  simp only
  cases hi : firstIndex (inode.holds n) w.super_file_data.scanned with
  | none => exact ⟨h1, h2⟩
  | some i =>
    simp only
    obtain ⟨l1, y, l2, hl, hlen, _, _⟩ := firstIndex_split _ _ _ hi
    have hall := inodes_split_of_scanned _ _ _ _ hl
    generalize l2 ++ w.super_file_data.inodes.drop w.super_file_data.num_inodes.toNat = l3
      at hall
    unfold ChainInv
    simp only []
    rw [hall, ← hlen, set_split]
    refine ⟨?_, ?_⟩
    · intro ino hino k hk
      simp only [List.mem_append, List.mem_cons] at hino
      rcases hino with hm | rfl | hm
      · exact h1 ino (by rw [hall]; simp [hm]) k hk
      · simp [inode.empty] at hk
      · exact h1 ino (by rw [hall]; simp [hm]) k hk
    · rw [hall] at h2
      simp only [List.filterMap_append, List.filterMap_cons, inode.empty] at h2 ⊢
      cases hy : y.firstDataBlock with
      | none => simpa [hy] using h2
      | some k =>
        simp only [hy] at h2
        exact (List.nodup_cons.mp (List.nodup_middle.mp h2)).2

theorem chainInv_of_frame (w w1 : World) (h : ChainInv w)
    (hf : w1.super_file_data = w.super_file_data) : ChainInv w1 := by
  unfold ChainInv at *
  rw [hf]; exact h

theorem step_chainInv (w w1 : World) (op : Op) (h : ChainInv w) (hop : op.isFormat = false)
    (hs : step w op = some w1) : ChainInv w1 := by
  cases op with
  | format p => simp [Op.isFormat] at hop
  | openFile n =>
    simp only [step, Option.some.injEq] at hs
    rw [← hs]; exact myOpen_chainInv n w h
  | write f b n => exact chainInv_of_frame w w1 h (step_frame w w1 _ hs (Or.inl ⟨f, b, n, rfl⟩))
  | seek f o b =>
    exact chainInv_of_frame w w1 h (step_frame w w1 _ hs (Or.inr (Or.inl ⟨f, o, b, rfl⟩)))
  | read f b n =>
    exact chainInv_of_frame w w1 h (step_frame w w1 _ hs (Or.inr (Or.inr ⟨f, b, n, rfl⟩)))
  | delete n =>
    simp only [step, Option.some.injEq] at hs
    rw [← hs]; exact deleteFileFromPartition_chainInv n w h

theorem run_chainInv (ops : List Op) :
    ∀ (w w1 : World), ChainInv w → (∀ op ∈ ops, op.isFormat = false) →
      run ops w = some w1 → ChainInv w1 := by
  induction ops with
  | nil =>
    intro w w1 h _ hrun
    simp only [run, Option.some.injEq] at hrun
    rw [← hrun]; exact h
  | cons op ops ih =>
    intro w w1 h hops hrun
    simp only [run] at hrun
    cases hs : step w op with
    | none => simp [hs] at hrun
    | some w2 =>
      simp only [hs] at hrun
      exact ih w2 w1 (step_chainInv w w2 op h (hops op (by simp)) hs)
        (fun o ho => hops o (List.mem_cons_of_mem _ ho)) hrun

theorem chainInv_formatted (p : String) (content : List Byte) (script : List HostOutcome)
    (h : (myFormat p (World.boot content script)).1 = 0) :
    ChainInv (myFormat p (World.boot content script)).2 := by
  unfold ChainInv
  rw [myFormat_boot p content script h]
  refine ⟨?_, ?_⟩
  · intro ino hino j hj
    have : ino = inode.empty := List.eq_of_mem_replicate hino
    rw [this] at hj
    simp [inode.empty] at hj
  · show ((List.replicate 16 inode.empty).filterMap (fun ino => ino.firstDataBlock)).Nodup
    decide

/-- C21. Chain/pool consistency is invariant across one lifecycle: in every state
reached from one successful `myFormat` at program start by any sequence of
`myOpen`, `myWrite`, `myRead`, `mySeek` and `deleteFileFromPartition` calls, the
chain head of every inode that has one is an OCCUPIED block of the pool and so
is every block linked behind it, and no block is the chain head of two inodes. -/
theorem lifecycle_chain_pool (w : World) (h : Lifecycle w) :
    (∀ ino ∈ w.super_file_data.inodes, ∀ j, ino.firstDataBlock = some j →
      ∃ blk, w.super_file_data.blocks[j]? = some blk ∧ blk.occ_block = BLOCK_OCCUPIED ∧
        ∀ nb ∈ blk.next, nb.occ_block = BLOCK_OCCUPIED) ∧
    (w.super_file_data.inodes.filterMap (fun ino => ino.firstDataBlock)).Nodup := by
  obtain ⟨p, content, script, ops, hfmt, hops, hrun⟩ := h
  have hchain := run_chainInv ops _ w (chainInv_formatted p content script hfmt) hops hrun
  have hpool := run_poolInv ops _ w
    (myFormat_poolInv p _ (poolInv_boot content script)) hrun
  refine ⟨?_, hchain.2⟩
  intro ino hino j hj
  obtain ⟨blk, hblk, hocc⟩ := hchain.1 ino hino j hj
  refine ⟨blk, hblk, hocc, ?_⟩
  intro nb hnb
  rw [hpool.1 blk (List.getElem?_mem hblk)] at hnb
  simp at hnb

theorem lifecycle_chain_pool_witness :
    (∀ ino ∈ (deleteFileFromPartition "a.txt" twoFiles).2.super_file_data.inodes,
      ∀ j, ino.firstDataBlock = some j →
      ∃ blk, (deleteFileFromPartition "a.txt" twoFiles).2.super_file_data.blocks[j]?
          = some blk ∧ blk.occ_block = BLOCK_OCCUPIED ∧
        ∀ nb ∈ blk.next, nb.occ_block = BLOCK_OCCUPIED) ∧
    ((deleteFileFromPartition "a.txt" twoFiles).2.super_file_data.inodes.filterMap
      (fun ino => ino.firstDataBlock)).Nodup :=
  lifecycle_chain_pool (deleteFileFromPartition "a.txt" twoFiles).2
    ⟨"ma_partition", [], [], [Op.openFile "a.txt", Op.openFile "b.txt", Op.delete "a.txt"],
      by decide, by decide, by decide⟩
/-! ## Position and size under a host that never fails -/

theorem noError_tail (script : List HostOutcome) (h : NoError script) :
    (nextOutcome script).1 ≠ HostOutcome.error ∧ NoError (nextOutcome script).2 := by
  cases script with
  | nil => exact ⟨by simp [nextOutcome], h⟩
  | cons o rest =>
    exact ⟨h o (by simp), fun x hx => h x (List.mem_cons_of_mem _ hx)⟩

theorem hostWrite_host (fd : Int) (mem : List Byte) (count : Nat) (h : Host) :
    (hostWrite fd mem count h).2.openFd = h.openFd ∧
    (NoError h.script → NoError (hostWrite fd mem count h).2.script) := by
  unfold hostWrite
  split_ifs with hfd
  · refine ⟨?_, ?_⟩
    · generalize nextOutcome h.script = no
      obtain ⟨o, rest⟩ := no
      cases o <;> rfl
    · intro hne
      have ht := (noError_tail h.script hne).2
      generalize nextOutcome h.script = no at ht
      obtain ⟨o, rest⟩ := no
      cases o <;> exact ht
  · exact ⟨rfl, fun hne => hne⟩

theorem hostRead_host (fd : Int) (count : Nat) (h : Host) :
    (hostRead fd count h).2.2.openFd = h.openFd ∧
    (NoError h.script → NoError (hostRead fd count h).2.2.script) := by
  unfold hostRead
  split_ifs with hfd
  · refine ⟨?_, ?_⟩
    · generalize nextOutcome h.script = no
      obtain ⟨o, rest⟩ := no
      cases o <;> rfl
    · intro hne
      have ht := (noError_tail h.script hne).2
      generalize nextOutcome h.script = no at ht
      obtain ⟨o, rest⟩ := no
      cases o <;> exact ht
  · exact ⟨rfl, fun hne => hne⟩

theorem hostWrite_noError (fd : Int) (mem : List Byte) (count : Nat) (h : Host)
    (hfd : h.openFd = some fd) (hne : NoError h.script) (hc : 0 < count) :
    1 ≤ (hostWrite fd mem count h).1 ∧ (hostWrite fd mem count h).1 ≤ count := by
  have ht := (noError_tail h.script hne).1
  unfold hostWrite
  rw [if_pos hfd]
  generalize nextOutcome h.script = no at ht
  obtain ⟨o, rest⟩ := no
  cases o with
  | error => exact absurd rfl ht
  | full => simp [granted]; omega
  | short k =>
    simp only [granted]
    split_ifs with hk
    · constructor <;> omega
    · constructor <;> omega

theorem myWriteEnd_effect (f : Nat) (bw : Int) (w : World) (r : Int) (w1 : World)
    (h : myWriteEnd f bw w = some (r, w1)) :
    (∀ a, a ≠ f → w1.heap[a]? = w.heap[a]?) ∧ w1.host = w.host := by
  unfold myWriteEnd at h
  cases hd : w.deref f with
  | none => simp [hd] at h
  | some fs =>
    simp only [hd] at h
    split_ifs at h
    · simp only [Option.some.injEq, Prod.mk.injEq] at h
      rw [← h.2]
      refine ⟨?_, rfl⟩
      intro a ha
      simp only [World.store]
      rw [List.getElem?_set_ne (fun hc => ha hc.symm)]
    · simp only [Option.some.injEq, Prod.mk.injEq] at h
      rw [← h.2]
      exact ⟨fun _ _ => rfl, rfl⟩

theorem myWriteLoop_effect (f : Nat) (fuel : Nat) :
    ∀ (buffer : List Byte) (nBytes bw : Int) (w : World) (r : Int) (w1 : World),
      myWriteLoop f fuel buffer nBytes bw w = some (r, w1) →
      (∀ a, a ≠ f → w1.heap[a]? = w.heap[a]?) ∧ w1.host.openFd = w.host.openFd ∧
      (NoError w.host.script → NoError w1.host.script) := by
  have hend : ∀ (bw : Int) (w : World) (r : Int) (w1 : World),
      myWriteEnd f bw w = some (r, w1) →
      (∀ a, a ≠ f → w1.heap[a]? = w.heap[a]?) ∧ w1.host.openFd = w.host.openFd ∧
      (NoError w.host.script → NoError w1.host.script) := by
    intro bw w r w1 h
    obtain ⟨h1, h2⟩ := myWriteEnd_effect f bw w r w1 h
    exact ⟨h1, by rw [h2], fun hne => by rw [h2]; exact hne⟩
  induction fuel with
  | zero =>
    intro buffer nBytes bw w r w1 h
    simp only [myWriteLoop] at h
    split_ifs at h
    exact hend bw w r w1 h
  | succ fuel ih =>
    intro buffer nBytes bw w r w1 h
    simp only [myWriteLoop] at h
    cases hd : w.deref f with
    | none => simp [hd, myWriteEnd] at h
    | some fs =>
      simp only [hd] at h
      split_ifs at h
      all_goals first
        | exact hend bw w r w1 h
        | (simp only [Option.some.injEq, Prod.mk.injEq] at h
           rw [← h.2]
           exact ⟨fun _ _ => rfl, (hostWrite_host _ _ _ _).1, (hostWrite_host _ _ _ _).2⟩)
        | (obtain ⟨e1, e2, e3⟩ := ih _ _ _ _ _ _ h
           refine ⟨?_, ?_, ?_⟩
           · intro a ha
             rw [e1 a ha]
             simp only [World.store]
             rw [List.getElem?_set_ne (fun hc => ha hc.symm)]
           · rw [e2]
             exact (hostWrite_host _ _ _ _).1
           · intro hne
             exact e3 ((hostWrite_host _ _ _ _).2 hne))

theorem myWrite_effect (f : Option Nat) (buffer : Option (List Byte)) (nBytes : Int)
    (w : World) (r : Int) (w1 : World) (h : myWrite f buffer nBytes w = some (r, w1)) :
    (∀ a, f ≠ some a → w1.heap[a]? = w.heap[a]?) ∧ w1.host.openFd = w.host.openFd ∧
    (NoError w.host.script → NoError w1.host.script) := by
  have hsame : some ((-1 : Int), w) = some (r, w1) →
      (∀ a, f ≠ some a → w1.heap[a]? = w.heap[a]?) ∧ w1.host.openFd = w.host.openFd ∧
      (NoError w.host.script → NoError w1.host.script) := by
    intro hs
    simp only [Option.some.injEq, Prod.mk.injEq] at hs
    rw [← hs.2]
    exact ⟨fun _ _ => rfl, rfl, fun hne => hne⟩
  cases f with
  | none => exact hsame h
  | some fa =>
    cases buffer with
    | none => exact hsame h
    | some buf =>
      simp only [myWrite] at h
      split_ifs at h
      · exact hsame h
      · obtain ⟨e1, e2, e3⟩ := myWriteLoop_effect fa _ _ _ _ _ _ _ h
        exact ⟨fun a ha => e1 a (fun hc => ha (by rw [hc])), e2, e3⟩
theorem myWriteLoop_noError (f : Nat) (fuel : Nat) :
    ∀ (buffer : List Byte) (nBytes bw : Int) (w : World) (fs : file),
      w.deref f = some fs → 0 ≤ nBytes → nBytes ≤ fuel →
      INT_MIN ≤ fs.currentPosition → fs.currentPosition + nBytes ≤ INT_MAX →
      w.host.openFd = some w.super_file_data.fileDescriptor → NoError w.host.script →
      ∃ w1, myWriteLoop f fuel buffer nBytes bw w = some (bw + nBytes, w1) ∧
        w1.deref f = some { fs with
          currentPosition := fs.currentPosition + nBytes
          fileSize := max fs.fileSize (fs.currentPosition + nBytes) } := by
  have hend : ∀ (bw : Int) (w : World) (fs : file), w.deref f = some fs →
      ∃ w1, myWriteEnd f bw w = some (bw, w1) ∧
        w1.deref f = some { fs with fileSize := max fs.fileSize fs.currentPosition } := by
    intro bw w fs hd
    unfold myWriteEnd
    rw [hd]
    simp only
    split_ifs with hgt
    · refine ⟨_, rfl, ?_⟩
      rw [deref_store w f _ (deref_lt w f fs hd)]
      rw [max_eq_right (le_of_lt hgt)]
    · refine ⟨_, rfl, ?_⟩
      rw [hd, max_eq_left (not_lt.mp hgt)]
  induction fuel with
  | zero =>
    intro buffer nBytes bw w fs hd h0 hfuel _ _ _ _
    have hn : nBytes = 0 := by
      have : nBytes ≤ 0 := by simpa using hfuel
      omega
    subst hn
    obtain ⟨w1, h1, h2⟩ := hend bw w fs hd
    refine ⟨w1, ?_, ?_⟩
    · simp only [myWriteLoop]
      rw [if_neg (by omega), h1]; simp
    · rw [h2]; simp
  | succ fuel ih =>
    intro buffer nBytes bw w fs hd h0 hfuel hlo hhi hfd hne
    by_cases hn : nBytes > 0
    · obtain ⟨hb1, hb2, hb3⟩ := chunk_bounds fs.currentPosition nBytes hn
      simp only [myWriteLoop]
      rw [if_pos hn, hd]
      simp only
      rw [if_neg hb1]
      generalize hc : (if BLOCK_SIZE - Int.tmod fs.currentPosition BLOCK_SIZE > nBytes then nBytes
        else BLOCK_SIZE - Int.tmod fs.currentPosition BLOCK_SIZE) = c at hb2 hb3
      have hcast : ((c.toNat : Nat) : Int) = c := Int.toNat_of_nonneg (le_of_lt hb2)
      have hres := hostWrite_noError w.super_file_data.fileDescriptor buffer c.toNat w.host
        hfd hne (by omega)
      have hhost := hostWrite_host w.super_file_data.fileDescriptor buffer c.toNat w.host
      generalize hostWrite w.super_file_data.fileDescriptor buffer c.toNat w.host = res
        at hres hhost
      obtain ⟨r, host1⟩ := res
      simp only at hres hhost ⊢
      rw [if_neg (by omega)]
      have hwrap : wrapInt (fs.currentPosition + r) = fs.currentPosition + r :=
        wrapInt_of_range _ (by omega) (by omega)
      rw [hwrap]
      have hlt := deref_lt w f fs hd
      obtain ⟨w1, h1, h2⟩ := ih (buffer.drop r.toNat) (nBytes - r) (bw + r)
        (World.store { w with host := host1 } f
          { fs with currentPosition := fs.currentPosition + r })
        { fs with currentPosition := fs.currentPosition + r }
        (deref_store _ f _ hlt) (by omega) (by push_cast at hfuel; omega)
        (by simp only []; omega) (by simp only []; omega)
        (by show host1.openFd = some w.super_file_data.fileDescriptor; rw [hhost.1]; exact hfd)
        (hhost.2 hne)
      refine ⟨w1, ?_, ?_⟩
      · rw [h1]
        have : bw + r + (nBytes - r) = bw + nBytes := by omega
        rw [this]
      · rw [h2]
        have : fs.currentPosition + r + (nBytes - r) = fs.currentPosition + nBytes := by omega
        simp only [this]
    · have hn0 : nBytes = 0 := by omega
      subst hn0
      obtain ⟨w1, h1, h2⟩ := hend bw w fs hd
      refine ⟨w1, ?_, ?_⟩
      · simp only [myWriteLoop]
        rw [if_neg (by omega), h1]; simp
      · rw [h2]; simp

theorem myReadLoop_host (fd : Int) (chain : Nat) :
    ∀ (n br : Int) (out : List Byte) (h : Host),
      (myReadLoop fd chain n br out h).2.2.openFd = h.openFd ∧
      (NoError h.script → NoError (myReadLoop fd chain n br out h).2.2.script) := by
  induction chain with
  | zero =>
    intro n br out h
    exact ⟨rfl, fun hne => hne⟩
  | succ chain ih =>
    intro n br out h
    simp only [myReadLoop]
    split_ifs
    all_goals first
      | exact ⟨rfl, fun hne => hne⟩
      | exact hostRead_host _ _ _
      | exact ⟨(ih _ _ _ _).1.trans (hostRead_host _ _ _).1,
          fun hne => (ih _ _ _ _).2 ((hostRead_host _ _ _).2 hne)⟩

theorem myRead_host (f : Option Nat) (buffer : Option (List Byte)) (n : Int) (w : World)
    (r : Int) (out : List Byte) (w1 : World)
    (h : myRead f buffer n w = some (r, out, w1)) :
    w1.host.openFd = w.host.openFd ∧ (NoError w.host.script → NoError w1.host.script) := by
  have hdone : ∀ (b : List Byte), some ((-1 : Int), b, w) = some (r, out, w1) →
      w1.host.openFd = w.host.openFd ∧ (NoError w.host.script → NoError w1.host.script) := by
    intro b hb
    simp only [Option.some.injEq, Prod.mk.injEq] at hb
    rw [← hb.2.2]
    exact ⟨rfl, fun hne => hne⟩
  cases f with
  | none =>
    cases buffer with
    | none => exact hdone _ h
    | some buf => exact hdone _ h
  | some fa =>
    cases buffer with
    | none => exact hdone _ h
    | some buf =>
      simp only [myRead] at h
      by_cases hn : n ≤ 0
      · rw [if_pos hn] at h
        exact hdone _ h
      · rw [if_neg hn] at h
        cases hd : w.deref fa with
        | none =>
          simp only [hd] at h
          split_ifs at h
          exact hdone _ h
        | some fs =>
          simp only [hd] at h
          cases hino : lookupInode fs.name w.super_file_data.scanned with
          | none =>
            simp only [hino] at h
            exact hdone _ h
          | some ino =>
            simp only [hino] at h
            cases hhead : ino.firstDataBlock with
            | none =>
              simp only [hhead] at h
              exact hdone _ h
            | some j =>
              simp only [hhead] at h
              cases hseek : mySeek (some fa) 0 SEEK_SET w with
              | none => simp [hseek] at h
              | some w2 =>
                cases hblk : w.super_file_data.blocks[j]? with
                | none => simp [hseek, hblk] at h
                | some blk =>
                  have hhost := mySeek_host _ _ _ _ _ hseek
                  simp only [hseek, hblk] at h
                  have hloop := myReadLoop_host w2.super_file_data.fileDescriptor
                    (1 + blk.next.length) n 0 [] w2.host
                  generalize myReadLoop w2.super_file_data.fileDescriptor
                    (1 + blk.next.length) n 0 [] w2.host = res at h hloop
                  obtain ⟨r1, out1, h1⟩ := res
                  simp only [Option.some.injEq, Prod.mk.injEq] at h hloop
                  obtain ⟨_, _, hw1⟩ := h
                  rw [← hw1]
                  simp only []
                  rw [← hhost.1, ← hhost.2]
                  exact hloop

theorem myOpen_access (n : String) (w : World) :
    (myOpen n w).2.host = w.host ∧
    (myOpen n w).2.super_file_data.fileDescriptor = w.super_file_data.fileDescriptor ∧
    ∀ a fs, w.deref a = some fs → (myOpen n w).2.deref a = some fs := by
  unfold myOpen
  simp only
  cases hlook : lookupHandle n w.super_file_data.scanned with
  | some g => exact ⟨rfl, rfl, fun _ _ h => h⟩
  | none =>
    simp only
    cases hi : firstIndex (fun ino : inode => ino.name.isNone) w.super_file_data.scanned with
    | none => exact ⟨rfl, rfl, fun _ _ h => h⟩
    | some i =>
      simp only
      cases hj : firstIndex (fun b : DataBlock => b.occ_block == BLOCK_FREE)
          w.super_file_data.blocks with
      | none => exact ⟨rfl, rfl, fun _ _ h => h⟩
      | some j =>
        refine ⟨rfl, rfl, ?_⟩
        intro a fs hd
        have hlt := deref_lt w a fs hd
        unfold World.deref at hd ⊢
        simp only []
        rw [List.getElem?_append_left hlt]
        exact hd
theorem written_nonneg (f : Nat) (op : Op) : 0 ≤ op.written f := by
  unfold Op.written
  split
  · split_ifs with h
    · exact le_of_lt h.2
    · exact le_refl _
  · exact le_refl _

theorem bytesWritten_nonneg (f : Nat) (ops : List Op) : 0 ≤ bytesWritten f ops := by
  induction ops with
  | nil => exact le_refl _
  | cons op ops ih =>
    simp only [bytesWritten]
    have := written_nonneg f op
    omega

theorem myWrite_tracked (f : Nat) (buf : List Byte) (n : Int) (w : World) (p : Int)
    (ht : Tracked w f p) (hp : 0 ≤ p) (hn : 0 < n) (hmax : p + n ≤ INT_MAX) :
    ∃ w1, myWrite (some f) (some buf) n w = some (n, w1) ∧ Tracked w1 f (p + n) := by
  obtain ⟨⟨hfd, hne⟩, fs, hd, hpos, hsize⟩ := ht
  have hfuel : n ≤ ((n.toNat : Nat) : Int) := by
    rw [Int.toNat_of_nonneg (le_of_lt hn)]
  obtain ⟨w1, h1, h2⟩ := myWriteLoop_noError f n.toNat buf n 0 w fs hd (le_of_lt hn) hfuel
    (by rw [hpos]; unfold INT_MIN; omega) (by rw [hpos]; exact hmax) hfd hne
  have hw : myWrite (some f) (some buf) n w = some (n, w1) := by
    simp only [myWrite]
    rw [if_neg (by omega), h1, zero_add]
  refine ⟨w1, hw, ⟨?_, ?_⟩, _, h2, ?_, ?_⟩
  · rw [(myWrite_effect _ _ _ _ _ _ hw).2.1, myWrite_frame _ _ _ _ _ _ hw]
    exact hfd
  · exact (myWrite_effect _ _ _ _ _ _ hw).2.2 hne
  · simp only [hpos]
  · simp only [hpos, hsize]
    exact max_eq_right (by omega)

theorem tracked_of_frame (w w1 : World) (f : Nat) (p : Int)
    (hs : w1.super_file_data.fileDescriptor = w.super_file_data.fileDescriptor)
    (hh : w1.heap[f]? = w.heap[f]?)
    (hfd : w1.host.openFd = w.host.openFd)
    (hne : NoError w.host.script → NoError w1.host.script)
    (ht : Tracked w f p) : Tracked w1 f p := by
  obtain ⟨⟨h1, h2⟩, fs, hd, hpos, hsize⟩ := ht
  refine ⟨⟨?_, hne h2⟩, fs, ?_, hpos, hsize⟩
  · rw [hfd, hs]; exact h1
  · unfold World.deref at hd ⊢
    rw [hh]; exact hd

theorem step_tracked (f : Nat) (op : Op) (w w1 : World) (p : Int)
    (hacc : op.isAccess = true) (ht : Tracked w f p) (hp : 0 ≤ p)
    (hmax : p + op.written f ≤ INT_MAX) (hstep : step w op = some w1) :
    Tracked w1 f (p + op.written f) := by
  cases op with
  | format q => simp [Op.isAccess] at hacc
  | delete q => simp [Op.isAccess] at hacc
  | openFile q =>
    simp only [step, Option.some.injEq] at hstep
    subst hstep
    obtain ⟨h1, h2, h3⟩ := myOpen_access q w
    obtain ⟨⟨a1, a2⟩, fs, hd, hpos, hsize⟩ := ht
    simp only [Op.written, add_zero]
    refine ⟨⟨?_, ?_⟩, fs, h3 f fs hd, hpos, hsize⟩
    · rw [h1, h2]; exact a1
    · rw [h1]; exact a2
  | seek g o b =>
    simp only [step] at hstep
    obtain ⟨s1, s2⟩ := mySeek_frame _ _ _ _ _ hstep
    obtain ⟨s3, s4⟩ := mySeek_host _ _ _ _ _ hstep
    simp only [Op.written, add_zero]
    exact tracked_of_frame w w1 f p (by rw [s1]) (by rw [s2]) s4 (by rw [s3]; exact id) ht
  | read g b n =>
    have hmap : (myRead g b n w).map (fun r => r.2.2) = some w1 := hstep
    obtain ⟨⟨r, out, w2⟩, hr, hw⟩ := Option.map_eq_some'.mp hmap
    simp only at hw
    subst hw
    obtain ⟨s1, s2⟩ := myRead_frame _ _ _ _ _ _ _ hr
    obtain ⟨s3, s4⟩ := myRead_host _ _ _ _ _ _ _ hr
    simp only [Op.written, add_zero]
    exact tracked_of_frame w _ f p (by rw [s1]) (by rw [s2]) s3 s4 ht
  | write g b n =>
    have hmap : (myWrite g b n w).map (fun r => r.2) = some w1 := hstep
    obtain ⟨⟨r, w2⟩, hr, hw⟩ := Option.map_eq_some'.mp hmap
    simp only at hw
    subst hw
    have hkeep : g ≠ some f ∨ b = none ∨ n ≤ 0 → Op.written f (Op.write g b n) = 0 := by
      intro hcase
      cases g with
      | none => rfl
      | some ga =>
        cases b with
        | none => rfl
        | some buf =>
          simp only [Op.written]
          rw [if_neg]
          rintro ⟨e1, e2⟩
          rcases hcase with hc | hc | hc
          · exact hc (by rw [e1])
          · simp at hc
          · omega
    by_cases hg : g = some f
    · subst hg
      cases b with
      | none =>
        rw [hkeep (Or.inr (Or.inl rfl)), add_zero]
        simp only [myWrite, Option.some.injEq, Prod.mk.injEq] at hr
        rw [← hr.2]; exact ht
      | some buf =>
        by_cases hn : n ≤ 0
        · rw [hkeep (Or.inr (Or.inr hn)), add_zero]
          simp only [myWrite] at hr
          rw [if_pos hn] at hr
          simp only [Option.some.injEq, Prod.mk.injEq] at hr
          rw [← hr.2]; exact ht
        · have hw : Op.written f (Op.write (some f) (some buf) n) = n := by
            show (if f = f ∧ 0 < n then n else 0) = n
            exact if_pos ⟨rfl, by omega⟩
          rw [hw] at hmax ⊢
          obtain ⟨w2, e1, e2⟩ := myWrite_tracked f buf n w p ht hp (by omega) hmax
          rw [e1] at hr
          simp only [Option.some.injEq, Prod.mk.injEq] at hr
          rw [← hr.2]; exact e2
    · rw [hkeep (Or.inl hg), add_zero]
      obtain ⟨e1, e2, e3⟩ := myWrite_effect _ _ _ _ _ _ hr
      have e4 := myWrite_frame _ _ _ _ _ _ hr
      exact tracked_of_frame w _ f p (by rw [e4]) (e1 f hg) e2 e3 ht

theorem run_tracked (f : Nat) (ops : List Op) :
    ∀ (w w1 : World) (p : Int), (∀ op ∈ ops, op.isAccess = true) → Tracked w f p → 0 ≤ p →
      p + bytesWritten f ops ≤ INT_MAX → run ops w = some w1 →
      Tracked w1 f (p + bytesWritten f ops) := by
  induction ops with
  | nil =>
    intro w w1 p _ ht _ _ hrun
    simp only [run, Option.some.injEq] at hrun
    subst hrun
    simpa [bytesWritten] using ht
  | cons op ops ih =>
    intro w w1 p hacc ht hp hmax hrun
    simp only [run] at hrun
    cases hs : step w op with
    | none => simp [hs] at hrun
    | some w2 =>
      simp only [hs] at hrun
      simp only [bytesWritten] at hmax ⊢
      have h1 := written_nonneg f op
      have h2 := bytesWritten_nonneg f ops
      have ht2 := step_tracked f op w w2 p (hacc op (List.mem_cons_self _ _)) ht hp
        (by omega) hs
      have := ih w2 w1 (p + op.written f)
        (fun o ho => hacc o (List.mem_cons_of_mem _ ho)) ht2 (by omega) (by omega) hrun
      rw [← add_assoc]
      exact this

theorem myOpen_fresh_handle (fileName : String) (w0 w : World) (f : Nat)
    (hname : ∀ ino ∈ w0.super_file_data.scanned, ino.name ≠ some fileName)
    (hopen : myOpen fileName w0 = (OpenResult.handle f, w)) :
    w.deref f = some { name := fileName, fileSize := 0, currentPosition := 0 } := by
  have hlook := lookupHandle_eq_none_of_not_held fileName _ hname
  unfold myOpen at hopen
  simp only [hlook] at hopen
  cases hi : firstIndex (fun ino : inode => ino.name.isNone) w0.super_file_data.scanned with
  | none => simp [hi] at hopen
  | some i =>
    cases hj : firstIndex (fun b : DataBlock => b.occ_block == BLOCK_FREE)
        w0.super_file_data.blocks with
    | none => simp [hi, hj] at hopen
    | some j =>
      simp only [hi, hj, Prod.mk.injEq, OpenResult.handle.injEq] at hopen
      obtain ⟨e1, e2⟩ := hopen
      rw [← e2, ← e1]
      simp [World.deref]

/-- C25. Position equals size: when `myOpen fileName` creates a file on a store
whose descriptor is open and whose host calls never fail, and returns the
handle `f`, then after any sequence of completed `myOpen`, `myWrite`, `mySeek`
and `myRead` calls whose valid writes through `f` total at most `INT_MAX`
bytes, the handle is live and its position and its size both equal that total
(seeks included: they never move the recorded position), and a further valid
`myWrite` through `f` that stays within `INT_MAX` returns its full count. -/
theorem position_equals_size (fileName : String) (w0 w : World) (f : Nat) (ops : List Op)
    (w1 : World)
    (hname : ∀ ino ∈ w0.super_file_data.scanned, ino.name ≠ some fileName)
    (hopen : myOpen fileName w0 = (OpenResult.handle f, w))
    (hok : HostOK w0)
    (hops : ∀ op ∈ ops, op.isAccess = true)
    (hmax : bytesWritten f ops ≤ INT_MAX)
    (hrun : run ops w = some w1) :
    (∃ fs1, w1.deref f = some fs1 ∧ fs1.currentPosition = bytesWritten f ops ∧
      fs1.fileSize = bytesWritten f ops) ∧
    ∀ (buf : List Byte) (n : Int), 0 < n → bytesWritten f ops + n ≤ INT_MAX →
      (myWrite (some f) (some buf) n w1).map (fun r => r.1) = some n := by
  have hfresh := myOpen_fresh_handle fileName w0 w f hname hopen
  have hacc := myOpen_access fileName w0
  rw [hopen] at hacc
  obtain ⟨a1, a2, _⟩ := hacc
  simp only at a1 a2
  have ht0 : Tracked w f 0 :=
    ⟨⟨by rw [a1, a2]; exact hok.1, by rw [a1]; exact hok.2⟩, _, hfresh, rfl, rfl⟩
  have ht := run_tracked f ops w w1 0 hops ht0 (le_refl _) (by omega) hrun
  rw [zero_add] at ht
  refine ⟨ht.2, ?_⟩
  intro buf n hn hle
  obtain ⟨w2, e1, _⟩ := myWrite_tracked f buf n w1 _ ht (bytesWritten_nonneg f ops) hn hle
  rw [e1]; rfl

theorem position_equals_size_witness :
    ((∃ fs1, seekBackFinal.deref 0 = some fs1 ∧
        fs1.currentPosition = bytesWritten 0 seekBack ∧
        fs1.fileSize = bytesWritten 0 seekBack) ∧
      ∀ (buf : List Byte) (n : Int), 0 < n → bytesWritten 0 seekBack + n ≤ INT_MAX →
        (myWrite (some 0) (some buf) n seekBackFinal).map (fun r => r.1) = some n) ∧
    bytesWritten 0 seekBack = 8 ∧
    seekBackFinal.deref 0 = some { name := "a.txt", fileSize := 8, currentPosition := 8 } :=
  ⟨position_equals_size "a.txt" formatted oneFile 0 seekBack seekBackFinal
      (by decide) rfl (by decide) (by decide) (by decide) rfl,
    by decide, by decide⟩

end Projet
